import Mathlib

/-!
Shallow embedding of the Othello rules engine in `game_env.py`.

The repository implements the same game twice:

* `StateEnv` — a dense per-cell representation.  A board is an
  `N × N × 3` array: channel 0 holds the black discs, channel 1 the
  white discs, channel 2 is a constant plane holding the player to
  move (`1` = white, `0` = black).  We embed a (valid) dense board as
  a structure of two boolean grids plus the player; grids are total
  functions on `Int × Int` (the code only ever reads or writes cells
  inside `[0, N) × [0, N)`, which it guards with `_check_legal_index`).

* `StateEnvBitBoard` — a packed representation hard-coded to 8×8:
  two 64-bit masks (bit `63 - (8*row + col)` is cell `(row, col)`)
  plus the player.  Python integers are unbounded; all mask constants
  are below `2 ^ 64`, so the values are embedded as `Nat` with the
  same `<<<`, `>>>`, `&&&`, `|||` operations.  The one subtraction,
  `board_notp - update_master`, is embedded as `Nat` subtraction; it
  agrees with Python subtraction whenever `update_master` is a
  sub-mask of `board_notp`, which is proved below for the inputs the
  engine feeds it.

Python `while` loops are embedded as fuel-indexed recursions; every
fuel value used strictly dominates the loop's iteration count, which
is part of what is proved below.
-/

set_option maxHeartbeats 4000000
set_option linter.unusedVariables false

/-- `0 if p else 1` / `abs(p - 1)` on a player flag `p ∈ {0, 1}`:
the opposite player.  (In `StateEnv.step` the expression
`abs(s[0,0,2]-1)` is evaluated by legacy numpy with value-based
promotion to a signed scalar, so on `{0, 1}` it is `1 - p`.) -/
def notP (p : Fin 2) : Fin 2 := if p = 0 then 1 else 0

/-! ## Dense-grid engine (`StateEnv`) -/

/-- A valid dense board state (`Ndarray` of shape `N × N × 3` whose
cell entries are 0/1 and whose channel 2 is a constant plane):
channel 0 (`black`), channel 1 (`white`), channel 2 (`player`). -/
structure DState where
  black : Int → Int → Bool
  white : Int → Int → Bool
  player : Fin 2

/-- `s[r, c, k]` for a coin channel `k ∈ {0, 1}`. -/
def DState.chan (s : DState) (k : Fin 2) : Int → Int → Bool :=
  if k = 1 then s.white else s.black

/-- Write 1/0 into `s[r, c, k]` for a coin channel `k`. -/
def setCh (s : DState) (k : Fin 2) (r c : Int) (v : Bool) : DState :=
  if k = 1 then
    { s with white := fun r2 c2 => if r2 = r ∧ c2 = c then v else s.white r2 c2 }
  else
    { s with black := fun r2 c2 => if r2 = r ∧ c2 = c then v else s.black r2 c2 }

/-- `StateEnv._check_legal_index`. -/
def checkLegalIndex (N : Nat) (row col : Int) : Bool :=
  decide (0 ≤ row) && decide (row < N) && decide (0 ≤ col) && decide (col < N)

/-- `s[r, c, :2].sum() == 0` : the cell is empty. -/
def blankAt (s : DState) (r c : Int) : Bool :=
  !(s.black r c) && !(s.white r c)

/-- The direction list of `StateEnv._legal_moves_helper`. -/
def dirList : List (Int × Int) :=
  [(-1, -1), (-1, 0), (-1, 1), (0, -1), (0, 1), (1, -1), (1, 0), (1, 1)]

/-- The inner `while` of `StateEnv._legal_moves_helper`: starting from
counter `i` (the code enters with `i = 1` and increments at the top of
the body), step through cells `(row + i*dr, col + i*dc)` until a blank
cell, a cell of the current player, or the board edge is met.  Returns
`(found, n_row, n_col)` — the loop's exit flag and final scan position.
Fuel `N` strictly dominates the iteration count (proved below). -/
def scanLoop (N : Nat) (s : DState) (cur : Fin 2) (row col dr dc : Int) :
    Nat → Nat → Bool × Int × Int
  | 0, i => (false, row + (i + 1 : Nat) * dr, col + (i + 1 : Nat) * dc)
  | fuel + 1, i =>
    let j : Nat := i + 1
    let nr : Int := row + (j : Nat) * dr
    let nc : Int := col + (j : Nat) * dc
    if checkLegalIndex N nr nc then
      if blankAt s nr nc then (false, nr, nc)
      else if s.chan cur nr nc then (true, nr, nc)
      else scanLoop N s cur row col dr dc fuel j
    else (false, nr, nc)

/-- One direction's test in `StateEnv._legal_moves_helper`: the cell
adjacent in `(dr, dc)` must be inside the board and hold an opposing
disc, and then the scan loop must terminate on a current-player disc.
Returns `(found, n_row, n_col)`. -/
def dirCheck (N : Nat) (s : DState) (cur : Fin 2) (row col dr dc : Int) :
    Bool × Int × Int :=
  let nr : Int := row + dr
  let nc : Int := col + dc
  if checkLegalIndex N nr nc then
    if s.chan (notP cur) nr nc then scanLoop N s cur row col dr dc N 1
    else (false, nr, nc)
  else (false, nr, nc)

/-- `StateEnv._legal_moves_helper` with `play=False`: the legal-moves
mask (the returned board copy is the input unchanged).  A cell is
marked iff it is inside the loop ranges `range(N) × range(N)`, empty,
and some direction's check succeeds. -/
def legalMovesD (N : Nat) (s : DState) : Int → Int → Bool :=
  fun row col =>
    checkLegalIndex N row col && blankAt s row col &&
      dirList.any fun d => (dirCheck N s s.player row col d.1 d.2).1

/-- The flip loop of `StateEnv._legal_moves_helper` (`play=True`
branch): walk `i = 1, 2, …` and flip `(row + i*dr, col + i*dc)` to the
current player until the scan's final position `(nr, nc)` is reached. -/
def flipLoopD (s : DState) (cur : Fin 2) (row col dr dc nr nc : Int) :
    Nat → Nat → DState
  | 0, _ => s
  | fuel + 1, i =>
    let j : Nat := i + 1
    let fr : Int := row + (j : Nat) * dr
    let fc : Int := col + (j : Nat) * dc
    if fr = nr ∧ fc = nc then s
    else
      flipLoopD
        (setCh (setCh s (notP cur) fr fc false) cur fr fc true)
        cur row col dr dc nr nc fuel j

/-- `StateEnv._legal_moves_helper` with `play=True` at the (assumed
legal) action cell `(row, col)`: place the current player's disc and,
for every direction whose check succeeds, flip the run of opposing
discs.  All direction checks read the original board `s`; writes
accumulate on the copy.  If the action cell is not empty the body is
skipped entirely and the board is returned unchanged. -/
def playD (N : Nat) (s : DState) (row col : Int) : DState :=
  if blankAt s row col then
    let s1 := setCh s s.player row col true
    dirList.foldl
      (fun acc d =>
        let r := dirCheck N s s.player row col d.1 d.2
        if r.1 then flipLoopD acc s.player row col d.1 d.2 r.2.1 r.2.2 (N + 2) 0
        else acc)
      s1
  else s

/-- `legal_moves.sum()` over the `N × N` mask. -/
def gridSum (N : Nat) (g : Int → Int → Bool) : Nat :=
  ∑ r ∈ Finset.range N, ∑ c ∈ Finset.range N, (if g (r : Nat) (c : Nat) then 1 else 0)

/-- `s[:, :, :2].sum()` : total number of discs on the board. -/
def coinSum (N : Nat) (s : DState) : Nat :=
  gridSum N s.black + gridSum N s.white

/-- `StateEnv.step`: apply action `a` (a linear index, row `a / N`,
column `a % N`), hand the turn to the opponent, and resolve passes
and termination exactly as the nested checks in the source. -/
def stepD (N : Nat) (s : DState) (a : Nat) :
    DState × (Int → Int → Bool) × Fin 2 × Nat :=
  let s1 := playD N s ((a / N : Nat) : Int) ((a % N : Nat) : Int)
  let s1 : DState := { s1 with player := notP s.player }
  let lm := legalMovesD N s1
  if gridSum N lm = 0 then
    if coinSum N s1 = N * N then (s1, lm, s1.player, 1)
    else
      let s2 : DState := { s1 with player := s.player }
      let lm2 := legalMovesD N s2
      if gridSum N lm2 = 0 then (s2, lm2, s2.player, 1)
      else (s2, lm2, s2.player, 0)
  else (s1, lm, s1.player, 0)

/-- `StateEnv.__init__`: the stored board size for a requested size
(an odd request is silently replaced by the next even number). -/
def stateEnvInitSize (board_size : Int) : Int :=
  if board_size % 2 = 0 then board_size else board_size + 1

/-- `StateEnv.reset` for an even size `N = 2 * (half + 1)`: white
discs on the centre diagonal `(hw, hw), (hw+1, hw+1)`, black on the
anti-diagonal `(hw, hw+1), (hw+1, hw)` with `hw = N/2 - 1`, white
(player 1) to move.  Returns `(board, legal_moves, current_player)`
with the board as returned by the helper (unchanged). -/
def resetD (N : Nat) : DState × (Int → Int → Bool) × Fin 2 :=
  let hw : Int := (N / 2 : Nat) - 1
  let s : DState :=
    { black := fun r c => decide ((r = hw ∧ c = hw + 1) ∨ (r = hw + 1 ∧ c = hw))
      white := fun r c => decide ((r = hw ∧ c = hw) ∨ (r = hw + 1 ∧ c = hw + 1))
      player := 1 }
  (s, legalMovesD N s, 1)

/-! ## Bitboard engine (`StateEnvBitBoard`) -/

/-- The attributes set by `StateEnvBitBoard.__init__`. -/
inductive BBDir where
  | left | right | top | bottom | rightTop | leftTop | rightBottom | leftBottom
deriving DecidableEq

/-- The attribute record built by `StateEnvBitBoard.__init__`. -/
structure BBEnv where
  size : Nat
  maxv : Nat
  incorrectShiftMask : BBDir → Nat
  bitShiftFn : BBDir → Nat → Nat

/-- `StateEnvBitBoard.__init__`: the board size argument is ignored;
the engine is hard-coded to 8×8, with the documented wrap masks. -/
def mkStateEnvBitBoard (board_size : Int) : BBEnv :=
  { size := 8
    maxv := 0xFFFFFFFFFFFFFFFF
    incorrectShiftMask := fun d =>
      match d with
      | .left => 18374403900871474942
      | .right => 9187201950435737471
      | .top => 18446744073709551360
      | .bottom => 72057594037927935
      | .rightTop => 9187201950435737344
      | .leftTop => 18374403900871474688
      | .rightBottom => 35887507618889599
      | .leftBottom => 71775015237779198
    bitShiftFn := fun d x =>
      match d with
      | .left => x <<< 1
      | .right => x >>> 1
      | .top => x <<< 8
      | .bottom => x >>> 8
      | .rightTop => x <<< 7
      | .leftTop => x <<< 9
      | .rightBottom => x >>> 9
      | .leftBottom => x >>> 7 }

/-- A bitboard state `[black, white, player]`. -/
structure BBState where
  b : Nat
  w : Nat
  p : Fin 2
deriving DecidableEq

/-- `s[k]` for `k ∈ {0, 1}`: the coin mask of player `k`. -/
def BBState.board (s : BBState) (k : Fin 2) : Nat :=
  if k = 1 then s.w else s.b

/-- One unrolled `while` of `StateEnvBitBoard._legal_moves_helper`:
`while c: m |= e & sh(c) & mask; c = bnp & sh(c) & mask`.
Fuel 64 strictly dominates the iteration count (proved below). -/
def sweepLoop (sh : Nat → Nat) (mask bnp e : Nat) : Nat → Nat → Nat → Nat
  | 0, m, _ => m
  | fuel + 1, m, c =>
    if c = 0 then m
    else sweepLoop sh mask bnp e fuel (m ||| (e &&& sh c &&& mask)) (bnp &&& sh c &&& mask)

/-- One direction block of `StateEnvBitBoard._legal_moves_helper`:
seed `c = bnp & sh(bp) & mask`, then run the sweep loop on `m`. -/
def dirSweep (sh : Nat → Nat) (mask bp bnp e m : Nat) : Nat :=
  sweepLoop sh mask bnp e 64 m (bnp &&& sh bp &&& mask)

/-- `StateEnvBitBoard._legal_moves_helper`: the legal-move mask for
the player to move, computed by the eight unrolled direction sweeps
(constants as in the source). -/
def legalMovesBB (env : BBEnv) (s : BBState) : Nat :=
  let p := s.p
  let bp := s.board p
  let bnp := s.board (notP p)
  let e := env.maxv - (bp ||| bnp)
  let m := 0
  let m := dirSweep (fun x => x <<< 1) 18374403900871474942 bp bnp e m
  let m := dirSweep (fun x => x >>> 1) 9187201950435737471 bp bnp e m
  let m := dirSweep (fun x => x <<< 8) 18446744073709551360 bp bnp e m
  let m := dirSweep (fun x => x >>> 8) 72057594037927935 bp bnp e m
  let m := dirSweep (fun x => x <<< 7) 9187201950435737344 bp bnp e m
  let m := dirSweep (fun x => x <<< 9) 18374403900871474688 bp bnp e m
  let m := dirSweep (fun x => x >>> 9) 35887507618889599 bp bnp e m
  let m := dirSweep (fun x => x >>> 7) 71775015237779198 bp bnp e m
  m

/-- One unrolled flip `while` of `StateEnvBitBoard._get_next_board`:
`while c & bnp: m |= c; c = sh(c) & mask`; returns the final `(m, c)`.
Fuel 64 strictly dominates the iteration count (proved below). -/
def flipLoopBB (sh : Nat → Nat) (mask bnp : Nat) : Nat → Nat → Nat → Nat × Nat
  | 0, m, c => (m, c)
  | fuel + 1, m, c =>
    if c &&& bnp = 0 then (m, c)
    else flipLoopBB sh mask bnp fuel (m ||| c) (sh c &&& mask)

/-- One direction block of `StateEnvBitBoard._get_next_board`: run the
flip loop from `c = bnp & sh(a) & mask`; keep `m` only if the loop
stopped on a current-player disc (`if not (c & bp): m = 0`). -/
def dirFlip (sh : Nat → Nat) (mask bp bnp a : Nat) : Nat :=
  let r := flipLoopBB sh mask bnp 64 0 (bnp &&& sh a &&& mask)
  if r.2 &&& bp = 0 then 0 else r.1

/-- `StateEnvBitBoard._get_next_board`: place the action bit, flip the
captured runs in all eight directions, and rebuild the state in
`[black, white, player]` order.  `board_notp - update_master` is the
source's subtraction (the update is a sub-mask of `board_notp` for
the states and actions the engine produces, proved below). -/
def getNextBoardBB (s : BBState) (a : Nat) : BBState :=
  let p := s.p
  let bp := s.board p
  let bnp := s.board (notP p)
  let um : Nat := 0
  let um := um ||| dirFlip (fun x => x <<< 1) 18374403900871474942 bp bnp a
  let um := um ||| dirFlip (fun x => x >>> 1) 9187201950435737471 bp bnp a
  let um := um ||| dirFlip (fun x => x <<< 8) 18446744073709551360 bp bnp a
  let um := um ||| dirFlip (fun x => x >>> 8) 72057594037927935 bp bnp a
  let um := um ||| dirFlip (fun x => x <<< 7) 9187201950435737344 bp bnp a
  let um := um ||| dirFlip (fun x => x <<< 9) 18374403900871474688 bp bnp a
  let um := um ||| dirFlip (fun x => x >>> 9) 35887507618889599 bp bnp a
  let um := um ||| dirFlip (fun x => x >>> 7) 71775015237779198 bp bnp a
  let bp2 := bp ||| um ||| a
  let bnp2 := bnp - um
  if p = 0 then ⟨bp2, bnp2, p⟩ else ⟨bnp2, bp2, p⟩

/-- `StateEnvBitBoard.step`: apply the move, hand the turn to the
opponent, and resolve passes and termination exactly as the nested
checks in the source.  Returns `(s_next, legal_moves, next_player,
done)`. -/
def stepBB (env : BBEnv) (s : BBState) (a : Nat) :
    BBState × Nat × Fin 2 × Nat :=
  let s1 := getNextBoardBB s a
  let s1 : BBState := { s1 with p := notP s.p }
  let lm := legalMovesBB env s1
  if lm = 0 then
    if s1.b ||| s1.w = env.maxv then (s1, lm, s1.p, 1)
    else
      let s2 : BBState := { s1 with p := notP s1.p }
      let lm2 := legalMovesBB env s2
      if lm2 = 0 then (s2, lm2, s2.p, 1) else (s2, lm2, s2.p, 0)
  else (s1, lm, s1.p, 0)

/-- `StateEnvBitBoard.reset`: the hard-coded 8×8 starting bitboards,
white to move, and the legal moves for white. -/
def resetBB (env : BBEnv) : BBState × Nat × Fin 2 :=
  let sb : BBState := ⟨34628173824, 68853694464, 1⟩
  (sb, legalMovesBB env sb, 1)

/-- `StateEnvBitBoard.count_coins`: count the set bits of one mask
(`while t: n += t & 1; t >>= 1`). -/
def countBits (t : Nat) : Nat :=
  if t = 0 then 0 else (t &&& 1) + countBits (t >>> 1)
decreasing_by
  simp only [Nat.shiftRight_succ, Nat.shiftRight_zero]
  exact Nat.div_lt_self (Nat.pos_of_ne_zero (by assumption)) (by decide)

/-- `StateEnvBitBoard.count_coins`: returns `(black, white)`. -/
def countCoinsBB (s : BBState) : Nat × Nat :=
  (countBits s.b, countBits s.w)

/-! ## `StateConverter` -/

/-- The multiplier matrix `_array_to_bitboard` built by
`StateConverter.__init__`: entry `(i, j)` is `2 ^ (N*N - 1 - (i*N + j))`. -/
def arrayToBitboard (N i j : Nat) : Nat :=
  2 ^ (N * N - 1 - (i * N + j))

/-- The bit-extraction loop of `StateConverter.convert` for input
format `bitboard` / `bitboard_single`: cell `(i, j)` receives bit
`N*N - 1 - (i*N + j)` of the integer; cells outside the `N × N`
window are never written and stay 0. -/
def bitToGrid (N : Nat) (t : Nat) : Int → Int → Bool :=
  fun r c =>
    checkLegalIndex N r c && t.testBit (N * N - 1 - (r.toNat * N + c.toNat))

/-- The `np.multiply(board, _array_to_bitboard).sum()` encoding of one
`N × N` 0/1 grid as an integer. -/
def gridToBit (N : Nat) (g : Int → Int → Bool) : Nat :=
  ∑ i ∈ Finset.range N, ∑ j ∈ Finset.range N,
    (if g (i : Nat) (j : Nat) then arrayToBitboard N i j else 0)

/-- `StateConverter.convert(s, 'bitboard', 'ndarray3d')`. -/
def convBitboardToNd3 (N : Nat) (s : Nat × Nat × Fin 2) : DState :=
  { black := bitToGrid N s.1
    white := bitToGrid N s.2.1
    player := s.2.2 }

/-- `StateConverter.convert(s, 'ndarray3d', 'bitboard')` (the player
component is read from the channel-2 plane, `s[0, 0, 2]`). -/
def convNd3ToBitboard (N : Nat) (s : DState) : Nat × Nat × Fin 2 :=
  (gridToBit N s.black, gridToBit N s.white, s.player)

/-- `StateConverter.convert(s, 'bitboard_single', 'ndarray')`. -/
def convBitSingleToNd (N : Nat) (t : Nat) : Int → Int → Bool :=
  bitToGrid N t

/-- `StateConverter.convert(s, 'ndarray', 'bitboard_single')`. -/
def convNdToBitSingle (N : Nat) (g : Int → Int → Bool) : Nat :=
  gridToBit N g

/-! ## Bit-level foundations -/

/-- A number whose bits at or above `n` are all clear is below `2 ^ n`. -/
theorem lt_two_pow_of_high_bits {n z : Nat} (h : ∀ i, n ≤ i → z.testBit i = false) :
    z < 2 ^ n := by
  have hz : z = z % 2 ^ n := by
    apply Nat.eq_of_testBit_eq
    intro i
    rcases lt_or_le i n with hi | hi
    · simp [Nat.testBit_mod_two_pow, hi]
    · rw [h i hi, Nat.testBit_eq_false_of_lt]
      exact lt_of_lt_of_le (Nat.mod_lt _ (Nat.two_pow_pos n)) (Nat.pow_le_pow_right (by omega) hi)
  rw [hz]
  exact Nat.mod_lt _ (Nat.two_pow_pos n)

theorem lor_lt_two_pow {n x y : Nat} (hx : x < 2 ^ n) (hy : y < 2 ^ n) :
    x ||| y < 2 ^ n := by
  apply lt_two_pow_of_high_bits
  intro i hi
  have hxi : x < 2 ^ i := lt_of_lt_of_le hx (Nat.pow_le_pow_right (by omega) hi)
  have hyi : y < 2 ^ i := lt_of_lt_of_le hy (Nat.pow_le_pow_right (by omega) hi)
  simp [Nat.testBit_lor, Nat.testBit_eq_false_of_lt, hxi, hyi]

/-- Bits of `2^n - 1 - x` : the bitwise complement of `x` below width `n`. -/
theorem testBit_max_sub : ∀ (n x : Nat), x < 2 ^ n → ∀ i,
    (2 ^ n - 1 - x).testBit i = (decide (i < n) && !(x.testBit i))
  | 0, x, hx, i => by
    interval_cases x
    simp [Nat.zero_testBit]
  | n + 1, x, hx, i => by
    have hq : x / 2 < 2 ^ n := by
      have := Nat.pow_succ 2 n
      omega
    have hval : 2 ^ (n + 1) - 1 - x = 2 * (2 ^ n - 1 - x / 2) + (1 - x % 2) := by
      have h1 : x = 2 * (x / 2) + x % 2 := by omega
      have h2 : x % 2 < 2 := Nat.mod_lt _ (by omega)
      have h3 : 2 ^ (n + 1) = 2 ^ n * 2 := Nat.pow_succ 2 n
      omega
    cases i with
    | zero =>
      rw [hval, Nat.testBit_zero, Nat.testBit_zero]
      have h2 : x % 2 = 0 ∨ x % 2 = 1 := by omega
      rcases h2 with h | h <;> simp [Nat.mul_add_mod, h]
    | succ i =>
      rw [hval, Nat.testBit_succ, Nat.testBit_succ]
      have hdiv : (2 * (2 ^ n - 1 - x / 2) + (1 - x % 2)) / 2 = 2 ^ n - 1 - x / 2 := by
        omega
      rw [hdiv, testBit_max_sub n (x / 2) hq i]
      simp only [Nat.add_lt_add_iff_right]

/-- Bits of the all-ones 64-bit mask. -/
theorem testBit_maxv (i : Nat) :
    (0xFFFFFFFFFFFFFFFF : Nat).testBit i = decide (i < 64) := by
  have h : (0xFFFFFFFFFFFFFFFF : Nat) = 2 ^ 64 - 1 - 0 := by norm_num
  rw [h, testBit_max_sub 64 0 (Nat.two_pow_pos 64) i]
  simp [Nat.zero_testBit]

/-- Sum of chosen powers of two, the workhorse for all mask counting. -/
def bitSum (n : Nat) (f : Nat → Bool) : Nat :=
  ∑ k ∈ Finset.range n, (if f k then 2 ^ k else 0)

theorem bitSum_lt (n : Nat) (f : Nat → Bool) : bitSum n f < 2 ^ n := by
  induction n with
  | zero => simp [bitSum]
  | succ n ih =>
    have h := Nat.pow_succ 2 n
    have hterm : (if f n then 2 ^ n else 0) ≤ 2 ^ n := by split <;> omega
    have : bitSum (n + 1) f = bitSum n f + (if f n then 2 ^ n else 0) :=
      Finset.sum_range_succ _ n
    omega

theorem testBit_bitSum (n : Nat) (f : Nat → Bool) (j : Nat) :
    (bitSum n f).testBit j = (decide (j < n) && f j) := by
  induction n with
  | zero => simp [bitSum, Nat.zero_testBit]
  | succ n ih =>
    have hstep : bitSum (n + 1) f = bitSum n f + (if f n then 2 ^ n else 0) :=
      Finset.sum_range_succ _ n
    by_cases hf : f n
    · rw [hstep, if_pos hf]
      have hlt : bitSum n f < 2 ^ n := bitSum_lt n f
      rcases Nat.lt_trichotomy j n with hj | hj | hj
      · have hmod : (bitSum n f + 2 ^ n) % 2 ^ n = bitSum n f := by
          rw [Nat.add_mod_right, Nat.mod_eq_of_lt hlt]
        have h1 := Nat.testBit_mod_two_pow (bitSum n f + 2 ^ n) n j
        rw [hmod, ih] at h1
        have hj1 : j < n + 1 := Nat.lt_succ_of_lt hj
        simp [hj, hj1] at h1 ⊢
        exact h1.symm
      · subst hj
        rw [Nat.testBit_to_div_mod]
        have hdiv : (bitSum j f + 2 ^ j) / 2 ^ j = 1 := by
          rw [Nat.add_div_right _ (Nat.two_pow_pos j), Nat.div_eq_of_lt hlt]
        simp [hdiv, hf]
      · have hv : bitSum n f + 2 ^ n < 2 ^ j := by
          have h1 : 2 ^ (n + 1) ≤ 2 ^ j := Nat.pow_le_pow_right (by omega) hj
          have h2 := Nat.pow_succ 2 n
          omega
        rw [Nat.testBit_eq_false_of_lt hv]
        simp [show ¬ j < n + 1 by omega]
    · rw [hstep, if_neg hf, Nat.add_zero, ih]
      rcases Nat.lt_trichotomy j n with hj | hj | hj
      · simp [hj, Nat.lt_succ_of_lt hj]
      · subst hj
        simp [hf]
      · simp [show ¬ j < n by omega, show ¬ j < n + 1 by omega]

theorem bitSum_testBit_mod (n x : Nat) : bitSum n x.testBit = x % 2 ^ n := by
  induction n with
  | zero => simp [bitSum, Nat.mod_one]
  | succ n ih =>
    have hstep : bitSum (n + 1) x.testBit = bitSum n x.testBit + (if x.testBit n then 2 ^ n else 0) :=
      Finset.sum_range_succ _ n
    rw [hstep, ih, Nat.mod_pow_succ]
    have hbit : x.testBit n = decide (x / 2 ^ n % 2 = 1) := Nat.testBit_to_div_mod
    have h2 : x / 2 ^ n % 2 = 0 ∨ x / 2 ^ n % 2 = 1 := by omega
    rcases h2 with h | h <;> simp [hbit, h]

theorem bitSum_testBit_self {n x : Nat} (hx : x < 2 ^ n) : bitSum n x.testBit = x := by
  rw [bitSum_testBit_mod, Nat.mod_eq_of_lt hx]

/-- Subtracting a sub-mask clears exactly its bits:
if `y &&& x = y` then `(x - y).testBit = x.testBit &&& !y.testBit`. -/
theorem testBit_sub_of_and_eq {n x y : Nat} (hx : x < 2 ^ n) (h : y &&& x = y) (i : Nat) :
    (x - y).testBit i = (x.testBit i && !(y.testBit i)) := by
  have hsub : ∀ k, y.testBit k = true → x.testBit k = true := by
    intro k hk
    have := congrArg (fun z => z.testBit k) h
    simp only [Nat.testBit_land] at this
    rcases hxk : x.testBit k with _ | _
    · rw [hk, hxk] at this
      simp at this
    · rfl
  have hy : y ≤ x := h ▸ Nat.and_le_right
  have hdiff : x - y = bitSum n (fun k => x.testBit k && !(y.testBit k)) := by
    have hx2 : bitSum n x.testBit = x := bitSum_testBit_self hx
    have hy2 : bitSum n y.testBit = y := bitSum_testBit_self (lt_of_le_of_lt hy hx)
    have hle : ∀ k ∈ Finset.range n,
        (if y.testBit k then 2 ^ k else 0) ≤ (if x.testBit k then 2 ^ k else 0) := by
      intro k _
      rcases hyk : y.testBit k with _ | _
      · simp
      · simp [hsub k hyk]
    have hdist : bitSum n (fun k => x.testBit k && !(y.testBit k)) =
        bitSum n x.testBit - bitSum n y.testBit := by
      rw [bitSum, bitSum, bitSum, ← Finset.sum_tsub_distrib _ hle]
      apply Finset.sum_congr rfl
      intro k _
      rcases hyk : y.testBit k with _ | _
      · simp [hyk]
      · simp [hyk, hsub k hyk]
    rw [hdist, hx2, hy2]
  rw [hdiff, testBit_bitSum]
  rcases lt_or_le i n with hi | hi
  · simp [hi]
  · have hxi : x < 2 ^ i := lt_of_lt_of_le hx (Nat.pow_le_pow_right (by omega) hi)
    simp [show ¬ i < n by omega, Nat.testBit_eq_false_of_lt hxi]

/-- `countBits` (the `count_coins` loop) counts the set bits. -/
theorem countBits_eq_sum : ∀ (n x : Nat), x < 2 ^ n →
    countBits x = ∑ k ∈ Finset.range n, (if x.testBit k then 1 else 0)
  | 0, x, hx => by
    interval_cases x
    simp [countBits]
  | n + 1, x, hx => by
    rcases Nat.eq_zero_or_pos x with h0 | h0
    · subst h0
      simp [countBits, Nat.zero_testBit]
    · rw [countBits]
      simp only [Nat.pos_iff_ne_zero.mp h0, if_false]
      have hq : x / 2 < 2 ^ n := by
        have := Nat.pow_succ 2 n
        omega
      rw [Nat.and_one_is_mod, Nat.shiftRight_one, countBits_eq_sum n (x / 2) hq,
        Finset.sum_range_succ']
      have hswap : ∀ k, x.testBit (k + 1) = (x / 2).testBit k := fun k => Nat.testBit_succ x k
      simp only [hswap, Nat.testBit_zero]
      have h2 : x % 2 = 0 ∨ x % 2 = 1 := by omega
      rcases h2 with h | h <;> simp [h, Nat.add_comm]

/-! ## Cell / bit geometry of the 8×8 bitboard -/

/-- Cell `(r, c)` lies on the 8×8 board. -/
def inb8 (r c : Int) : Prop := 0 ≤ r ∧ r < 8 ∧ 0 ≤ c ∧ c < 8

instance (r c : Int) : Decidable (inb8 r c) := by
  unfold inb8
  infer_instance

/-- The bit index of cell `(r, c)`: bit 63 is `(0,0)`, bit 0 is `(7,7)`,
matching both `StateConverter._array_to_bitboard` and the bit-extraction
loop of `StateConverter.convert`. -/
def bitIdx (r c : Int) : Nat := (63 - (8 * r + c)).toNat

theorem bitIdx_lt {r c : Int} (h : inb8 r c) : bitIdx r c < 64 := by
  simp only [inb8] at h
  simp only [bitIdx]
  omega

theorem bitIdx_inj {r c r2 c2 : Int} (h : inb8 r c) (h2 : inb8 r2 c2)
    (he : bitIdx r c = bitIdx r2 c2) : r = r2 ∧ c = c2 := by
  simp only [inb8] at h h2
  simp only [bitIdx] at he
  omega

theorem cell_of_bit {t : Nat} (ht : t < 64) :
    ∃ r c : Int, inb8 r c ∧ t = bitIdx r c := by
  refine ⟨((63 - t) / 8 : Nat), ((63 - t) % 8 : Nat), ?_, ?_⟩
  · simp only [inb8]
    omega
  · simp only [bitIdx]
    omega

/-! Bit characterizations of the eight hard-coded wrap masks. -/

theorem maskBit_left (t : Nat) : (18374403900871474942 : Nat).testBit t =
    (decide (t < 64) && decide (t % 8 ≠ 0)) := by
  rcases lt_or_le t 64 with h | h
  · exact (by decide : ∀ u, u < 64 → (18374403900871474942 : Nat).testBit u =
      (decide (u < 64) && decide (u % 8 ≠ 0))) t h
  · have hlt : (18374403900871474942 : Nat) < 2 ^ t :=
      lt_of_lt_of_le (by norm_num) (Nat.pow_le_pow_right (by omega) h)
    simp [Nat.testBit_eq_false_of_lt hlt, show ¬ t < 64 by omega]

theorem maskBit_right (t : Nat) : (9187201950435737471 : Nat).testBit t =
    (decide (t < 64) && decide (t % 8 ≠ 7)) := by
  rcases lt_or_le t 64 with h | h
  · exact (by decide : ∀ u, u < 64 → (9187201950435737471 : Nat).testBit u =
      (decide (u < 64) && decide (u % 8 ≠ 7))) t h
  · have hlt : (9187201950435737471 : Nat) < 2 ^ t :=
      lt_of_lt_of_le (by norm_num) (Nat.pow_le_pow_right (by omega) h)
    simp [Nat.testBit_eq_false_of_lt hlt, show ¬ t < 64 by omega]

theorem maskBit_top (t : Nat) : (18446744073709551360 : Nat).testBit t =
    (decide (t < 64) && decide (8 ≤ t)) := by
  rcases lt_or_le t 64 with h | h
  · exact (by decide : ∀ u, u < 64 → (18446744073709551360 : Nat).testBit u =
      (decide (u < 64) && decide (8 ≤ u))) t h
  · have hlt : (18446744073709551360 : Nat) < 2 ^ t :=
      lt_of_lt_of_le (by norm_num) (Nat.pow_le_pow_right (by omega) h)
    simp [Nat.testBit_eq_false_of_lt hlt, show ¬ t < 64 by omega]

theorem maskBit_bottom (t : Nat) : (72057594037927935 : Nat).testBit t =
    decide (t < 56) := by
  rcases lt_or_le t 64 with h | h
  · exact (by decide : ∀ u, u < 64 → (72057594037927935 : Nat).testBit u =
      decide (u < 56)) t h
  · have hlt : (72057594037927935 : Nat) < 2 ^ t :=
      lt_of_lt_of_le (by norm_num) (Nat.pow_le_pow_right (by omega) h)
    simp [Nat.testBit_eq_false_of_lt hlt, show ¬ t < 56 by omega]

theorem maskBit_rightTop (t : Nat) : (9187201950435737344 : Nat).testBit t =
    (decide (t < 64) && (decide (8 ≤ t) && decide (t % 8 ≠ 7))) := by
  rcases lt_or_le t 64 with h | h
  · exact (by decide : ∀ u, u < 64 → (9187201950435737344 : Nat).testBit u =
      (decide (u < 64) && (decide (8 ≤ u) && decide (u % 8 ≠ 7)))) t h
  · have hlt : (9187201950435737344 : Nat) < 2 ^ t :=
      lt_of_lt_of_le (by norm_num) (Nat.pow_le_pow_right (by omega) h)
    simp [Nat.testBit_eq_false_of_lt hlt, show ¬ t < 64 by omega]

theorem maskBit_leftTop (t : Nat) : (18374403900871474688 : Nat).testBit t =
    (decide (t < 64) && (decide (8 ≤ t) && decide (t % 8 ≠ 0))) := by
  rcases lt_or_le t 64 with h | h
  · exact (by decide : ∀ u, u < 64 → (18374403900871474688 : Nat).testBit u =
      (decide (u < 64) && (decide (8 ≤ u) && decide (u % 8 ≠ 0)))) t h
  · have hlt : (18374403900871474688 : Nat) < 2 ^ t :=
      lt_of_lt_of_le (by norm_num) (Nat.pow_le_pow_right (by omega) h)
    simp [Nat.testBit_eq_false_of_lt hlt, show ¬ t < 64 by omega]

theorem maskBit_rightBottom (t : Nat) : (35887507618889599 : Nat).testBit t =
    (decide (t < 56) && decide (t % 8 ≠ 7)) := by
  rcases lt_or_le t 64 with h | h
  · exact (by decide : ∀ u, u < 64 → (35887507618889599 : Nat).testBit u =
      (decide (u < 56) && decide (u % 8 ≠ 7))) t h
  · have hlt : (35887507618889599 : Nat) < 2 ^ t :=
      lt_of_lt_of_le (by norm_num) (Nat.pow_le_pow_right (by omega) h)
    simp [Nat.testBit_eq_false_of_lt hlt, show ¬ t < 56 by omega]

theorem maskBit_leftBottom (t : Nat) : (71775015237779198 : Nat).testBit t =
    (decide (t < 56) && decide (t % 8 ≠ 0)) := by
  rcases lt_or_le t 64 with h | h
  · exact (by decide : ∀ u, u < 64 → (71775015237779198 : Nat).testBit u =
      (decide (u < 56) && decide (u % 8 ≠ 0))) t h
  · have hlt : (71775015237779198 : Nat) < 2 ^ t :=
      lt_of_lt_of_le (by norm_num) (Nat.pow_le_pow_right (by omega) h)
    simp [Nat.testBit_eq_false_of_lt hlt, show ¬ t < 56 by omega]

/-! Per-direction single-shift lemmas: shifting a mask and applying the
wrap mask moves each cell's content one step along the direction's ray,
with off-board sources dropped.  Direction rays (source cell offsets):
left `(0, +1)`, right `(0, -1)`, top `(+1, 0)`, bottom `(-1, 0)`,
right_top `(+1, -1)`, left_top `(+1, +1)`, right_bottom `(-1, -1)`,
left_bottom `(-1, +1)`. -/

theorem stepBit_left (x : Nat) (r c : Int) (h : inb8 r c) :
    ((x <<< 1) &&& 18374403900871474942).testBit (bitIdx r c) =
      (decide (inb8 (r + 0) (c + 1)) && x.testBit (bitIdx (r + 0) (c + 1))) := by
  rw [Nat.testBit_land, Nat.testBit_shiftLeft, maskBit_left, Bool.eq_iff_iff]
  simp only [Bool.and_eq_true, decide_eq_true_eq, inb8, bitIdx] at *
  constructor
  · rintro ⟨⟨h1, hx⟩, h2, h3⟩
    refine ⟨by omega, ?_⟩
    have hidx : (63 - (8 * r + c)).toNat - 1 = (63 - (8 * (r + 0) + (c + 1))).toNat := by omega
    rwa [hidx] at hx
  · rintro ⟨hs, hx⟩
    refine ⟨⟨by omega, ?_⟩, by omega, by omega⟩
    have hidx : (63 - (8 * r + c)).toNat - 1 = (63 - (8 * (r + 0) + (c + 1))).toNat := by omega
    rwa [hidx]

theorem stepBit_right (x : Nat) (r c : Int) (h : inb8 r c) :
    ((x >>> 1) &&& 9187201950435737471).testBit (bitIdx r c) =
      (decide (inb8 (r + 0) (c + -1)) && x.testBit (bitIdx (r + 0) (c + -1))) := by
  rw [Nat.testBit_land, Nat.testBit_shiftRight, maskBit_right, Bool.eq_iff_iff]
  simp only [Bool.and_eq_true, decide_eq_true_eq, inb8, bitIdx] at *
  constructor
  · rintro ⟨hx, h2, h3⟩
    refine ⟨by omega, ?_⟩
    have hidx : 1 + (63 - (8 * r + c)).toNat = (63 - (8 * (r + 0) + (c + -1))).toNat := by omega
    rwa [hidx] at hx
  · rintro ⟨hs, hx⟩
    refine ⟨?_, by omega, by omega⟩
    have hidx : 1 + (63 - (8 * r + c)).toNat = (63 - (8 * (r + 0) + (c + -1))).toNat := by omega
    rwa [hidx]

theorem stepBit_top (x : Nat) (r c : Int) (h : inb8 r c) :
    ((x <<< 8) &&& 18446744073709551360).testBit (bitIdx r c) =
      (decide (inb8 (r + 1) (c + 0)) && x.testBit (bitIdx (r + 1) (c + 0))) := by
  rw [Nat.testBit_land, Nat.testBit_shiftLeft, maskBit_top, Bool.eq_iff_iff]
  simp only [Bool.and_eq_true, decide_eq_true_eq, inb8, bitIdx] at *
  constructor
  · rintro ⟨⟨h1, hx⟩, h2, h3⟩
    refine ⟨by omega, ?_⟩
    have hidx : (63 - (8 * r + c)).toNat - 8 = (63 - (8 * (r + 1) + (c + 0))).toNat := by omega
    rwa [hidx] at hx
  · rintro ⟨hs, hx⟩
    refine ⟨⟨by omega, ?_⟩, by omega, by omega⟩
    have hidx : (63 - (8 * r + c)).toNat - 8 = (63 - (8 * (r + 1) + (c + 0))).toNat := by omega
    rwa [hidx]

theorem stepBit_bottom (x : Nat) (r c : Int) (h : inb8 r c) :
    ((x >>> 8) &&& 72057594037927935).testBit (bitIdx r c) =
      (decide (inb8 (r + -1) (c + 0)) && x.testBit (bitIdx (r + -1) (c + 0))) := by
  rw [Nat.testBit_land, Nat.testBit_shiftRight, maskBit_bottom, Bool.eq_iff_iff]
  simp only [Bool.and_eq_true, decide_eq_true_eq, inb8, bitIdx] at *
  constructor
  · rintro ⟨hx, h2⟩
    refine ⟨by omega, ?_⟩
    have hidx : 8 + (63 - (8 * r + c)).toNat = (63 - (8 * (r + -1) + (c + 0))).toNat := by omega
    rwa [hidx] at hx
  · rintro ⟨hs, hx⟩
    refine ⟨?_, by omega⟩
    have hidx : 8 + (63 - (8 * r + c)).toNat = (63 - (8 * (r + -1) + (c + 0))).toNat := by omega
    rwa [hidx]

theorem stepBit_rightTop (x : Nat) (r c : Int) (h : inb8 r c) :
    ((x <<< 7) &&& 9187201950435737344).testBit (bitIdx r c) =
      (decide (inb8 (r + 1) (c + -1)) && x.testBit (bitIdx (r + 1) (c + -1))) := by
  rw [Nat.testBit_land, Nat.testBit_shiftLeft, maskBit_rightTop, Bool.eq_iff_iff]
  simp only [Bool.and_eq_true, decide_eq_true_eq, inb8, bitIdx] at *
  constructor
  · rintro ⟨⟨h1, hx⟩, h2, h3, h4⟩
    refine ⟨by omega, ?_⟩
    have hidx : (63 - (8 * r + c)).toNat - 7 = (63 - (8 * (r + 1) + (c + -1))).toNat := by omega
    rwa [hidx] at hx
  · rintro ⟨hs, hx⟩
    refine ⟨⟨by omega, ?_⟩, by omega, by omega, by omega⟩
    have hidx : (63 - (8 * r + c)).toNat - 7 = (63 - (8 * (r + 1) + (c + -1))).toNat := by omega
    rwa [hidx]

theorem stepBit_leftTop (x : Nat) (r c : Int) (h : inb8 r c) :
    ((x <<< 9) &&& 18374403900871474688).testBit (bitIdx r c) =
      (decide (inb8 (r + 1) (c + 1)) && x.testBit (bitIdx (r + 1) (c + 1))) := by
  rw [Nat.testBit_land, Nat.testBit_shiftLeft, maskBit_leftTop, Bool.eq_iff_iff]
  simp only [Bool.and_eq_true, decide_eq_true_eq, inb8, bitIdx] at *
  constructor
  · rintro ⟨⟨h1, hx⟩, h2, h3, h4⟩
    refine ⟨by omega, ?_⟩
    have hidx : (63 - (8 * r + c)).toNat - 9 = (63 - (8 * (r + 1) + (c + 1))).toNat := by omega
    rwa [hidx] at hx
  · rintro ⟨hs, hx⟩
    refine ⟨⟨by omega, ?_⟩, by omega, by omega, by omega⟩
    have hidx : (63 - (8 * r + c)).toNat - 9 = (63 - (8 * (r + 1) + (c + 1))).toNat := by omega
    rwa [hidx]

theorem stepBit_rightBottom (x : Nat) (r c : Int) (h : inb8 r c) :
    ((x >>> 9) &&& 35887507618889599).testBit (bitIdx r c) =
      (decide (inb8 (r + -1) (c + -1)) && x.testBit (bitIdx (r + -1) (c + -1))) := by
  rw [Nat.testBit_land, Nat.testBit_shiftRight, maskBit_rightBottom, Bool.eq_iff_iff]
  simp only [Bool.and_eq_true, decide_eq_true_eq, inb8, bitIdx] at *
  constructor
  · rintro ⟨hx, h2, h3⟩
    refine ⟨by omega, ?_⟩
    have hidx : 9 + (63 - (8 * r + c)).toNat = (63 - (8 * (r + -1) + (c + -1))).toNat := by omega
    rwa [hidx] at hx
  · rintro ⟨hs, hx⟩
    refine ⟨?_, by omega, by omega⟩
    have hidx : 9 + (63 - (8 * r + c)).toNat = (63 - (8 * (r + -1) + (c + -1))).toNat := by omega
    rwa [hidx]

theorem stepBit_leftBottom (x : Nat) (r c : Int) (h : inb8 r c) :
    ((x >>> 7) &&& 71775015237779198).testBit (bitIdx r c) =
      (decide (inb8 (r + -1) (c + 1)) && x.testBit (bitIdx (r + -1) (c + 1))) := by
  rw [Nat.testBit_land, Nat.testBit_shiftRight, maskBit_leftBottom, Bool.eq_iff_iff]
  simp only [Bool.and_eq_true, decide_eq_true_eq, inb8, bitIdx] at *
  constructor
  · rintro ⟨hx, h2, h3⟩
    refine ⟨by omega, ?_⟩
    have hidx : 7 + (63 - (8 * r + c)).toNat = (63 - (8 * (r + -1) + (c + 1))).toNat := by omega
    rwa [hidx] at hx
  · rintro ⟨hs, hx⟩
    refine ⟨?_, by omega, by omega⟩
    have hidx : 7 + (63 - (8 * r + c)).toNat = (63 - (8 * (r + -1) + (c + 1))).toNat := by omega
    rwa [hidx]

/-! ## Generic characterization of the direction sweep loops -/

/-- The cell `i` steps along the ray `(dr, dc)` from `(r, c)`. -/
def ray (r c dr dc : Int) (i : Nat) : Int × Int := (r + i * dr, c + i * dc)

/-- Mask `x` has the cell's bit set and the cell is on the board. -/
def cellBit (x : Nat) (z : Int × Int) : Prop :=
  inb8 z.1 z.2 ∧ x.testBit (bitIdx z.1 z.2) = true

theorem ray_zero (r c dr dc : Int) : ray r c dr dc 0 = (r, c) := by
  simp [ray]

theorem ray_shift (r c dr dc : Int) (i : Nat) :
    ray (r + dr) (c + dc) dr dc i = ray r c dr dc (i + 1) := by
  simp only [ray, Prod.mk.injEq]
  constructor <;> push_cast <;> ring

/-- The recurrence `c := bnp &&& sh c &&& mask` of the sweep loops. -/
def chainC (sh : Nat → Nat) (mask bnp c0 : Nat) : Nat → Nat
  | 0 => c0
  | t + 1 => bnp &&& sh (chainC sh mask bnp c0 t) &&& mask

/-- Union of the first `n` values of a mask family. -/
def orUnion (f : Nat → Nat) : Nat → Nat
  | 0 => 0
  | t + 1 => orUnion f t ||| f t

theorem chainC_shift (sh : Nat → Nat) (mask bnp c0 : Nat) (t : Nat) :
    chainC sh mask bnp (bnp &&& sh c0 &&& mask) t = chainC sh mask bnp c0 (t + 1) := by
  induction t with
  | zero => rfl
  | succ t ih => simp only [chainC, ih]

theorem chainC_zero_base (sh : Nat → Nat) (mask bnp : Nat) (hsh0 : sh 0 = 0) (t : Nat) :
    chainC sh mask bnp 0 t = 0 := by
  induction t with
  | zero => rfl
  | succ t ih =>
    simp only [chainC, ih, hsh0, Nat.and_zero, Nat.zero_and]

theorem orUnion_eq_zero {f : Nat → Nat} (h : ∀ t, f t = 0) (n : Nat) : orUnion f n = 0 := by
  induction n with
  | zero => rfl
  | succ n ih => simp only [orUnion, ih, h, Nat.or_zero]

theorem orUnion_shift (f : Nat → Nat) (n : Nat) :
    orUnion f (n + 1) = f 0 ||| orUnion (fun t => f (t + 1)) n := by
  induction n with
  | zero => simp [orUnion]
  | succ n ih =>
    show orUnion f (n + 1) ||| f (n + 1) = _
    rw [ih, Nat.lor_assoc]
    rfl

theorem testBit_orUnion (f : Nat → Nat) (n : Nat) (j : Nat) :
    (orUnion f n).testBit j = true ↔ ∃ t, t < n ∧ (f t).testBit j = true := by
  induction n with
  | zero =>
    simp [orUnion, Nat.zero_testBit]
  | succ n ih =>
    show (orUnion f n ||| f n).testBit j = true ↔ _
    rw [Nat.testBit_lor, Bool.or_eq_true, ih]
    constructor
    · rintro (⟨t, ht, hb⟩ | hb)
      · exact ⟨t, by omega, hb⟩
      · exact ⟨n, by omega, hb⟩
    · rintro ⟨t, ht, hb⟩
      rcases Nat.lt_or_ge t n with h | h
      · exact Or.inl ⟨t, h, hb⟩
      · have : t = n := by omega
        subst this
        exact Or.inr hb

/-- The sweep loop unrolled: with enough fuel it computes the union of
the per-step contributions over the chain of `c` values. -/
theorem sweepLoop_eq (sh : Nat → Nat) (mask bnp e : Nat) (hsh0 : sh 0 = 0) :
    ∀ (fuel m c : Nat),
      sweepLoop sh mask bnp e fuel m c =
        m ||| orUnion (fun t => e &&& sh (chainC sh mask bnp c t) &&& mask) fuel := by
  intro fuel
  induction fuel with
  | zero =>
    intro m c
    simp [sweepLoop, orUnion]
  | succ fuel ih =>
    intro m c
    by_cases hc : c = 0
    · subst hc
      rw [sweepLoop]
      rw [orUnion_eq_zero (fun t => by
        rw [chainC_zero_base sh mask bnp hsh0 t, hsh0, Nat.and_zero, Nat.zero_and]), Nat.or_zero]
      simp
    · rw [sweepLoop]
      simp only [if_neg hc]
      rw [ih]
      rw [orUnion_shift]
      have hch : ∀ t, chainC sh mask bnp (bnp &&& sh c &&& mask) t = chainC sh mask bnp c (t + 1) :=
        chainC_shift sh mask bnp c
      simp only [hch]
      show m ||| (e &&& sh c &&& mask) ||| _ =
        m ||| ((e &&& sh (chainC sh mask bnp c 0) &&& mask) ||| _)
    
      rw [Nat.lor_assoc]
      rfl

/-- Property form of the per-direction step lemmas. -/
def StepP (sh : Nat → Nat) (mask : Nat) (dr dc : Int) : Prop :=
  ∀ (x : Nat) (r c : Int), inb8 r c →
    ((sh x &&& mask).testBit (bitIdx r c) = true ↔ cellBit x (r + dr, c + dc))

theorem stepP_left : StepP (fun x => x <<< 1) 18374403900871474942 0 1 := by
  intro x r c h
  rw [show (fun x => x <<< 1) x = x <<< 1 from rfl, stepBit_left x r c h]
  simp [cellBit]

theorem stepP_right : StepP (fun x => x >>> 1) 9187201950435737471 0 (-1) := by
  intro x r c h
  rw [show (fun x => x >>> 1) x = x >>> 1 from rfl, stepBit_right x r c h]
  simp [cellBit]

theorem stepP_top : StepP (fun x => x <<< 8) 18446744073709551360 1 0 := by
  intro x r c h
  rw [show (fun x => x <<< 8) x = x <<< 8 from rfl, stepBit_top x r c h]
  simp [cellBit]

theorem stepP_bottom : StepP (fun x => x >>> 8) 72057594037927935 (-1) 0 := by
  intro x r c h
  rw [show (fun x => x >>> 8) x = x >>> 8 from rfl, stepBit_bottom x r c h]
  simp [cellBit]

theorem stepP_rightTop : StepP (fun x => x <<< 7) 9187201950435737344 1 (-1) := by
  intro x r c h
  rw [show (fun x => x <<< 7) x = x <<< 7 from rfl, stepBit_rightTop x r c h]
  simp [cellBit]

theorem stepP_leftTop : StepP (fun x => x <<< 9) 18374403900871474688 1 1 := by
  intro x r c h
  rw [show (fun x => x <<< 9) x = x <<< 9 from rfl, stepBit_leftTop x r c h]
  simp [cellBit]

theorem stepP_rightBottom : StepP (fun x => x >>> 9) 35887507618889599 (-1) (-1) := by
  intro x r c h
  rw [show (fun x => x >>> 9) x = x >>> 9 from rfl, stepBit_rightBottom x r c h]
  simp [cellBit]

theorem stepP_leftBottom : StepP (fun x => x >>> 7) 71775015237779198 (-1) 1 := by
  intro x r c h
  rw [show (fun x => x >>> 7) x = x >>> 7 from rfl, stepBit_leftBottom x r c h]
  simp [cellBit]

/-- Characterization of the `c` chain: its bit at a cell says that the
cells `0, …, t` along the ray hold opposing discs and cell `t + 1`
holds a current-player disc, all on the board. -/
theorem chainC_testBit {sh : Nat → Nat} {mask : Nat} {dr dc : Int}
    (hstep : StepP sh mask dr dc) (bp bnp : Nat) :
    ∀ (t : Nat) (r c : Int), inb8 r c →
      ((chainC sh mask bnp (bnp &&& sh bp &&& mask) t).testBit (bitIdx r c) = true ↔
        ((∀ i : Nat, i ≤ t → cellBit bnp (ray r c dr dc i)) ∧
          cellBit bp (ray r c dr dc (t + 1)))) := by
  intro t
  induction t with
  | zero =>
    intro r c h
    show (bnp &&& sh bp &&& mask).testBit (bitIdx r c) = true ↔ _
    rw [Nat.land_assoc, Nat.testBit_land, Bool.and_eq_true, hstep bp r c h]
    have hray : ray r c dr dc 1 = (r + dr, c + dc) := by simp [ray]
    constructor
    · rintro ⟨h1, h2⟩
      refine ⟨?_, ?_⟩
      · intro i hi
        have hz : i = 0 := by omega
        subst hz
        rw [ray_zero]
        exact ⟨h, h1⟩
      · rw [hray]
        exact h2
    · rintro ⟨h1, h2⟩
      have h0 := h1 0 (le_refl 0)
      rw [ray_zero] at h0
      rw [hray] at h2
      exact ⟨h0.2, h2⟩
  | succ t ih =>
    intro r c h
    show (bnp &&& sh (chainC sh mask bnp (bnp &&& sh bp &&& mask) t) &&& mask).testBit
      (bitIdx r c) = true ↔ _
    rw [Nat.land_assoc, Nat.testBit_land, Bool.and_eq_true, hstep _ r c h]
    have hray : ray r c dr dc 1 = (r + dr, c + dc) := by simp [ray]
    constructor
    · rintro ⟨h1, hin, hbit⟩
      have hih := (ih (r + dr) (c + dc) hin).mp hbit
      refine ⟨?_, ?_⟩
      · intro i hi
        cases i with
        | zero =>
          rw [ray_zero]
          exact ⟨h, h1⟩
        | succ i =>
          have hx := hih.1 i (by omega)
          rwa [ray_shift] at hx
      · have hx := hih.2
        rwa [ray_shift] at hx
    · rintro ⟨h1, h2⟩
      have h0 := h1 0 (by omega)
      rw [ray_zero] at h0
      have hr1 := h1 1 (by omega)
      rw [hray] at hr1
      obtain ⟨hin1, _⟩ := hr1
      refine ⟨h0.2, hin1, ?_⟩
      apply (ih (r + dr) (c + dc) hin1).mpr
      refine ⟨?_, ?_⟩
      · intro i hi
        rw [ray_shift]
        exact h1 (i + 1) (by omega)
      · rw [ray_shift]
        exact h2

/-- The capture condition of one direction, expressed on the raw masks:
a nonempty run of opposing discs along the ray, terminated by a disc of
the side to move, all inside the board. -/
def raySpecBits (bp bnp : Nat) (r c dr dc : Int) : Prop :=
  ∃ k : Nat, 1 ≤ k ∧ (∀ i, 1 ≤ i → i ≤ k → cellBit bnp (ray r c dr dc i)) ∧
    cellBit bp (ray r c dr dc (k + 1))

/-- A capture run that starts and ends on the board has length at most 6
(with the terminating disc at offset at most 7). -/
theorem raySpec_bound {bp : Nat} {r c dr dc : Int} {k : Nat}
    (h : inb8 r c)
    (hdr : dr = -1 ∨ dr = 0 ∨ dr = 1) (hdc : dc = -1 ∨ dc = 0 ∨ dc = 1)
    (hne : ¬ (dr = 0 ∧ dc = 0))
    (hend : cellBit bp (ray r c dr dc (k + 1))) : k + 1 ≤ 7 := by
  obtain ⟨hin2, _⟩ := hend
  simp only [ray, inb8] at hin2 h
  rcases hdr with rfl | rfl | rfl <;> rcases hdc with rfl | rfl | rfl <;> omega

/-- The sweep of one direction, per bit: a cell is added iff it is in
`e` and the capture condition of the direction holds; bits of the
incoming accumulator `m` are kept. -/
theorem dirSweep_testBit {sh : Nat → Nat} {mask : Nat} {dr dc : Int}
    (hstep : StepP sh mask dr dc) (hsh0 : sh 0 = 0)
    (hdr : dr = -1 ∨ dr = 0 ∨ dr = 1) (hdc : dc = -1 ∨ dc = 0 ∨ dc = 1)
    (hne : ¬ (dr = 0 ∧ dc = 0))
    (bp bnp e m : Nat) (r c : Int) (h : inb8 r c) :
    ((dirSweep sh mask bp bnp e m).testBit (bitIdx r c) = true ↔
      (m.testBit (bitIdx r c) = true ∨
        (e.testBit (bitIdx r c) = true ∧ raySpecBits bp bnp r c dr dc))) := by
  unfold dirSweep
  rw [sweepLoop_eq sh mask bnp e hsh0, Nat.testBit_lor, Bool.or_eq_true,
    testBit_orUnion]
  apply or_congr Iff.rfl
  constructor
  · rintro ⟨t, ht, hb⟩
    rw [Nat.land_assoc, Nat.testBit_land, Bool.and_eq_true] at hb
    obtain ⟨he, hb⟩ := hb
    rw [hstep _ r c h] at hb
    obtain ⟨hin, hbit⟩ := hb
    have hch := (chainC_testBit hstep bp bnp t (r + dr) (c + dc) hin).mp hbit
    refine ⟨he, t + 1, by omega, ?_, ?_⟩
    · intro i h1 h2
      cases i with
      | zero => omega
      | succ i =>
        have hx := hch.1 i (by omega)
        rwa [ray_shift] at hx
    · have hx := hch.2
      rwa [ray_shift] at hx
  · rintro ⟨he, k, hk1, hrun, hend⟩
    have hb : k + 1 ≤ 7 := raySpec_bound h hdr hdc hne hend
    refine ⟨k - 1, by omega, ?_⟩
    rw [Nat.land_assoc, Nat.testBit_land, Bool.and_eq_true]
    refine ⟨he, ?_⟩
    rw [hstep _ r c h]
    have h1 := hrun 1 (by omega) (by omega)
    have hray1 : ray r c dr dc 1 = (r + dr, c + dc) := by simp [ray]
    rw [hray1] at h1
    obtain ⟨hin1, _⟩ := h1
    refine ⟨hin1, ?_⟩
    apply (chainC_testBit hstep bp bnp (k - 1) (r + dr) (c + dc) hin1).mpr
    constructor
    · intro i hi
      rw [ray_shift]
      exact hrun (i + 1) (by omega) (by omega)
    · rw [ray_shift]
      have heq : k - 1 + 1 + 1 = k + 1 := by omega
      rw [heq]
      exact hend

theorem sweepLoop_lt (sh : Nat → Nat) (mask bnp e : Nat) (hm : mask < 2 ^ 64) :
    ∀ (fuel m c : Nat), m < 2 ^ 64 → sweepLoop sh mask bnp e fuel m c < 2 ^ 64 := by
  intro fuel
  induction fuel with
  | zero =>
    intro m c hmf
    exact hmf
  | succ fuel ih =>
    intro m c hmf
    rw [sweepLoop]
    split
    · exact hmf
    · apply ih
      apply lor_lt_two_pow hmf
      exact lt_of_le_of_lt Nat.and_le_right hm

theorem legalMovesBB_lt (env : BBEnv) (s : BBState) (hmax : env.maxv < 2 ^ 64) :
    legalMovesBB env s < 2 ^ 64 := by
  unfold legalMovesBB dirSweep
  apply sweepLoop_lt _ _ _ _ (by norm_num)
  apply sweepLoop_lt _ _ _ _ (by norm_num)
  apply sweepLoop_lt _ _ _ _ (by norm_num)
  apply sweepLoop_lt _ _ _ _ (by norm_num)
  apply sweepLoop_lt _ _ _ _ (by norm_num)
  apply sweepLoop_lt _ _ _ _ (by norm_num)
  apply sweepLoop_lt _ _ _ _ (by norm_num)
  apply sweepLoop_lt _ _ _ _ (by norm_num)
  exact Nat.two_pow_pos 64

theorem BBState.board_lt {s : BBState} (hb : s.b < 2 ^ 64) (hw : s.w < 2 ^ 64)
    (k : Fin 2) : s.board k < 2 ^ 64 := by
  unfold BBState.board
  split <;> assumption

/-- Bits of the empty mask `e = max - (bp | bnp)`. -/
theorem empties_testBit {bp bnp : Nat} (hb : bp < 2 ^ 64) (hw : bnp < 2 ^ 64) (i : Nat) :
    ((0xFFFFFFFFFFFFFFFF : Nat) - (bp ||| bnp)).testBit i =
      (decide (i < 64) && !((bp ||| bnp).testBit i)) := by
  have h : (0xFFFFFFFFFFFFFFFF : Nat) = 2 ^ 64 - 1 := by norm_num
  rw [h, testBit_max_sub 64 (bp ||| bnp) (lor_lt_two_pow hb hw) i]

/-- Per-bit description of `StateEnvBitBoard._legal_moves_helper`:
a cell is legal iff it is empty and some direction's capture
condition holds. -/
theorem legalMovesBB_testBit (n : Int) (s : BBState)
    (hb : s.b < 2 ^ 64) (hw : s.w < 2 ^ 64) (r c : Int) (h : inb8 r c) :
    ((legalMovesBB (mkStateEnvBitBoard n) s).testBit (bitIdx r c) = true ↔
      ((s.board s.p ||| s.board (notP s.p)).testBit (bitIdx r c) = false ∧
        ∃ d ∈ dirList,
          raySpecBits (s.board s.p) (s.board (notP s.p)) r c d.1 d.2)) := by
  have hbp := BBState.board_lt hb hw s.p
  have hbnp := BBState.board_lt hb hw (notP s.p)
  have hmax : (mkStateEnvBitBoard n).maxv = 0xFFFFFFFFFFFFFFFF := rfl
  simp only [legalMovesBB, hmax]
  rw [dirSweep_testBit stepP_leftBottom rfl (by norm_num) (by norm_num) (by norm_num) _ _ _ _ r c h]
  rw [dirSweep_testBit stepP_rightBottom rfl (by norm_num) (by norm_num) (by norm_num) _ _ _ _ r c h]
  rw [dirSweep_testBit stepP_leftTop rfl (by norm_num) (by norm_num) (by norm_num) _ _ _ _ r c h]
  rw [dirSweep_testBit stepP_rightTop rfl (by norm_num) (by norm_num) (by norm_num) _ _ _ _ r c h]
  rw [dirSweep_testBit stepP_bottom rfl (by norm_num) (by norm_num) (by norm_num) _ _ _ _ r c h]
  rw [dirSweep_testBit stepP_top rfl (by norm_num) (by norm_num) (by norm_num) _ _ _ _ r c h]
  rw [dirSweep_testBit stepP_right rfl (by norm_num) (by norm_num) (by norm_num) _ _ _ _ r c h]
  rw [dirSweep_testBit stepP_left rfl (by norm_num) (by norm_num) (by norm_num) _ _ _ _ r c h]
  have he : ((0xFFFFFFFFFFFFFFFF : Nat) -
      (s.board s.p ||| s.board (notP s.p))).testBit (bitIdx r c) = true ↔
      (s.board s.p ||| s.board (notP s.p)).testBit (bitIdx r c) = false := by
    rw [empties_testBit hbp hbnp]
    simp [bitIdx_lt h]
  rw [Nat.zero_testBit]
  simp only [Bool.false_eq_true, false_or, he, dirList, List.mem_cons,
    List.not_mem_nil, or_false, exists_eq_or_imp, exists_eq_left]
  tauto

/-! ## Characterization of the dense scan loop -/

/-- The scan at offset `j` stops: edge, blank cell, or own disc. -/
def stopAtD (N : Nat) (s : DState) (cur : Fin 2) (row col dr dc : Int) (j : Nat) : Prop :=
  checkLegalIndex N (row + (j : Int) * dr) (col + (j : Int) * dc) = false ∨
  blankAt s (row + (j : Int) * dr) (col + (j : Int) * dc) = true ∨
  s.chan cur (row + (j : Int) * dr) (col + (j : Int) * dc) = true

/-- The scan at offset `j` stops on an own disc inside the board. -/
def curStopD (N : Nat) (s : DState) (cur : Fin 2) (row col dr dc : Int) (j : Nat) : Prop :=
  checkLegalIndex N (row + (j : Int) * dr) (col + (j : Int) * dc) = true ∧
  blankAt s (row + (j : Int) * dr) (col + (j : Int) * dc) = false ∧
  s.chan cur (row + (j : Int) * dr) (col + (j : Int) * dc) = true

instance (N : Nat) (s : DState) (cur : Fin 2) (row col dr dc : Int) (j : Nat) :
    Decidable (stopAtD N s cur row col dr dc j) := by
  unfold stopAtD
  infer_instance

instance (N : Nat) (s : DState) (cur : Fin 2) (row col dr dc : Int) (j : Nat) :
    Decidable (curStopD N s cur row col dr dc j) := by
  unfold curStopD
  infer_instance

/-- A cell holding a disc that is not the current player's holds the
opponent's (no disjointness needed: there are only two channels). -/
theorem chan_opp_of_not_blank {s : DState} {cur : Fin 2} {r c : Int}
    (hb : blankAt s r c = false) (hc : s.chan cur r c = false) :
    s.chan (notP cur) r c = true := by
  unfold blankAt at hb
  fin_cases cur <;> simp_all [DState.chan, notP]

/-- The scan loop result, given the first stopping offset `j0`. -/
theorem scanLoop_spec (N : Nat) (s : DState) (cur : Fin 2) (row col dr dc : Int) :
    ∀ (fuel i j0 : Nat), i < j0 → j0 ≤ i + fuel →
      stopAtD N s cur row col dr dc j0 →
      (∀ j, i < j → j < j0 → ¬ stopAtD N s cur row col dr dc j) →
      scanLoop N s cur row col dr dc fuel i =
        (decide (curStopD N s cur row col dr dc j0),
          row + (j0 : Int) * dr, col + (j0 : Int) * dc) := by
  intro fuel
  induction fuel with
  | zero =>
    intro i j0 h1 h2 _ _
    omega
  | succ fuel ih =>
    intro i j0 h1 h2 hstop hmin
    have hj0 : j0 = i + 1 ∨ (i + 1 < j0 ∧ ¬ stopAtD N s cur row col dr dc (i + 1)) := by
      rcases Nat.lt_or_ge (i + 1) j0 with hlt | hge
      · exact Or.inr ⟨hlt, hmin (i + 1) (by omega) hlt⟩
      · left
        omega
    rcases hj0 with rfl | ⟨hlt, hns⟩
    · rw [scanLoop]
      rcases hchk : checkLegalIndex N (row + ((i + 1 : Nat) : Int) * dr)
          (col + ((i + 1 : Nat) : Int) * dc) with _ | _
      · simp only [hchk, Bool.false_eq_true, if_false]
        have hcs : ¬ curStopD N s cur row col dr dc (i + 1) := by
          intro hc
          unfold curStopD at hc
          rw [hchk] at hc
          exact Bool.noConfusion hc.1
        rw [decide_eq_false hcs]
      · simp only [hchk, if_true]
        rcases hbl : blankAt s (row + ((i + 1 : Nat) : Int) * dr)
            (col + ((i + 1 : Nat) : Int) * dc) with _ | _
        · simp only [hbl, Bool.false_eq_true, if_false]
          rcases hcur : s.chan cur (row + ((i + 1 : Nat) : Int) * dr)
              (col + ((i + 1 : Nat) : Int) * dc) with _ | _
          · exfalso
            unfold stopAtD at hstop
            rw [hchk, hbl, hcur] at hstop
            simp at hstop
          · simp only [hcur, if_true]
            have hcs : curStopD N s cur row col dr dc (i + 1) := ⟨hchk, hbl, hcur⟩
            rw [decide_eq_true hcs]
        · simp only [hbl, if_true]
          have hcs : ¬ curStopD N s cur row col dr dc (i + 1) := by
            intro hc
            unfold curStopD at hc
            rw [hbl] at hc
            exact Bool.noConfusion hc.2.1
          rw [decide_eq_false hcs]
    · have hchk : checkLegalIndex N (row + ((i + 1 : Nat) : Int) * dr)
          (col + ((i + 1 : Nat) : Int) * dc) = true := by
        unfold stopAtD at hns
        push_neg at hns
        simpa using hns.1
      have hbl : blankAt s (row + ((i + 1 : Nat) : Int) * dr)
          (col + ((i + 1 : Nat) : Int) * dc) = false := by
        unfold stopAtD at hns
        push_neg at hns
        simpa using hns.2.1
      have hcur : s.chan cur (row + ((i + 1 : Nat) : Int) * dr)
          (col + ((i + 1 : Nat) : Int) * dc) = false := by
        unfold stopAtD at hns
        push_neg at hns
        simpa using hns.2.2
      rw [scanLoop]
      simp only [hchk, if_true, hbl, Bool.false_eq_true, if_false, hcur]
      exact ih (i + 1) j0 hlt (by omega) hstop (fun j ha hb2 => hmin j (by omega) hb2)

/-- There is a first stopping offset, and it is within the fuel bound
`N + 1` whenever the base cell is on the board and the direction is a
unit step. -/
theorem exists_firstStop (N : Nat) (s : DState) (cur : Fin 2) (row col dr dc : Int)
    (hrow : 0 ≤ row ∧ row < N) (hcol : 0 ≤ col ∧ col < N)
    (hdr : dr = -1 ∨ dr = 0 ∨ dr = 1) (hdc : dc = -1 ∨ dc = 0 ∨ dc = 1)
    (hne : ¬ (dr = 0 ∧ dc = 0)) (i : Nat) (hi : i ≤ N) :
    ∃ j0, i < j0 ∧ j0 ≤ N + 1 ∧ stopAtD N s cur row col dr dc j0 ∧
      ∀ j, i < j → j < j0 → ¬ stopAtD N s cur row col dr dc j := by
  have hwit : stopAtD N s cur row col dr dc (N + 1) := by
    left
    unfold checkLegalIndex
    rcases hdr with rfl | rfl | rfl <;> rcases hdc with rfl | rfl | rfl <;>
      simp only [Bool.and_eq_false_iff, decide_eq_false_iff_not, not_le, not_lt] <;>
      push_cast <;> omega
  have hex : ∃ j, i < j ∧ stopAtD N s cur row col dr dc j := ⟨N + 1, by omega, hwit⟩
  classical
  let P : Nat → Prop := fun j => i < j ∧ stopAtD N s cur row col dr dc j
  have hP : ∃ j, P j := hex
  refine ⟨Nat.find hP, (Nat.find_spec hP).1, ?_, (Nat.find_spec hP).2, ?_⟩
  · exact Nat.find_min' hP ⟨by omega, hwit⟩
  · intro j hj1 hj2
    intro hs
    exact Nat.find_min hP hj2 ⟨hj1, hs⟩

/-- The spec's capture condition for one direction on a dense board
(from the spec of the legal-move generator): placing at `(row, col)`,
the cells at offsets `1..k` along `(dr, dc)` hold opposing discs and
the cell at offset `k+1` holds the mover's disc, all inside the board. -/
def captureDirSpec (N : Nat) (s : DState) (mover : Fin 2) (row col dr dc : Int) : Prop :=
  ∃ k : Nat, 1 ≤ k ∧
    (∀ i : Nat, 1 ≤ i → i ≤ k →
      checkLegalIndex N (row + (i : Int) * dr) (col + (i : Int) * dc) = true ∧
        s.chan (notP mover) (row + (i : Int) * dr) (col + (i : Int) * dc) = true) ∧
    checkLegalIndex N (row + ((k + 1 : Nat) : Int) * dr) (col + ((k + 1 : Nat) : Int) * dc) = true ∧
    s.chan mover (row + ((k + 1 : Nat) : Int) * dr) (col + ((k + 1 : Nat) : Int) * dc) = true

theorem blank_false_of_chan {s : DState} {k : Fin 2} {r c : Int}
    (h : s.chan k r c = true) : blankAt s r c = false := by
  fin_cases k <;> simp_all [DState.chan, blankAt]

/-- Full case analysis of one direction's check in
`StateEnv._legal_moves_helper`: either it reports no capture and the
capture condition indeed fails, or it returns the first stop offset
`j0`, the capture condition holds, and cells `1..j0-1` hold opposing
discs. -/
theorem dirCheck_cases (N : Nat) (s : DState) (cur : Fin 2) (row col dr dc : Int)
    (hrow : 0 ≤ row ∧ row < N) (hcol : 0 ≤ col ∧ col < N)
    (hdr : dr = -1 ∨ dr = 0 ∨ dr = 1) (hdc : dc = -1 ∨ dc = 0 ∨ dc = 1)
    (hne : ¬ (dr = 0 ∧ dc = 0)) :
    ((dirCheck N s cur row col dr dc).1 = false ∧
      ¬ captureDirSpec N s cur row col dr dc) ∨
    (∃ j0 : Nat, 2 ≤ j0 ∧ j0 ≤ N + 1 ∧
      dirCheck N s cur row col dr dc =
        (true, row + (j0 : Int) * dr, col + (j0 : Int) * dc) ∧
      curStopD N s cur row col dr dc j0 ∧
      (∀ i : Nat, 1 ≤ i → i < j0 →
        checkLegalIndex N (row + (i : Int) * dr) (col + (i : Int) * dc) = true ∧
          s.chan (notP cur) (row + (i : Int) * dr) (col + (i : Int) * dc) = true) ∧
      captureDirSpec N s cur row col dr dc) := by
  have hN : 1 ≤ N := by omega
  have hco1r : row + ((1 : Nat) : Int) * dr = row + dr := by push_cast; ring
  have hco1c : col + ((1 : Nat) : Int) * dc = col + dc := by push_cast; ring
  unfold dirCheck
  rcases hchk1 : checkLegalIndex N (row + dr) (col + dc) with _ | _
  · left
    constructor
    · simp [hchk1]
    · rintro ⟨k, hk, hrun, hend⟩
      have h1 := (hrun 1 (by omega) (by omega)).1
      rw [hco1r, hco1c] at h1
      rw [h1] at hchk1
      exact Bool.noConfusion hchk1
  · rcases hopp : s.chan (notP cur) (row + dr) (col + dc) with _ | _
    · left
      constructor
      · simp [hchk1, hopp]
      · rintro ⟨k, hk, hrun, hend⟩
        have h1 := (hrun 1 (by omega) (by omega)).2
        rw [hco1r, hco1c] at h1
        rw [h1] at hopp
        exact Bool.noConfusion hopp
    · obtain ⟨j0, hj0a, hj0b, hj0stop, hj0min⟩ :=
        exists_firstStop N s cur row col dr dc hrow hcol hdr hdc hne 1 hN
      have hscan := scanLoop_spec N s cur row col dr dc N 1 j0 hj0a (by omega) hj0stop hj0min
      have hmid : ∀ i : Nat, 1 ≤ i → i < j0 →
          checkLegalIndex N (row + (i : Int) * dr) (col + (i : Int) * dc) = true ∧
            s.chan (notP cur) (row + (i : Int) * dr) (col + (i : Int) * dc) = true := by
        intro i h1i hi
        rcases Nat.eq_or_lt_of_le h1i with h1e | h1l
        · constructor
          · rw [← h1e, hco1r, hco1c]
            exact hchk1
          · rw [← h1e, hco1r, hco1c]
            exact hopp
        · have hns := hj0min i h1l hi
          unfold stopAtD at hns
          push_neg at hns
          obtain ⟨ha, hb, hc⟩ := hns
          have ha2 : checkLegalIndex N (row + (i : Int) * dr) (col + (i : Int) * dc) = true := by
            rcases hx : checkLegalIndex N (row + (i : Int) * dr) (col + (i : Int) * dc) with _ | _
            · exact absurd hx ha
            · rfl
          have hb2 : blankAt s (row + (i : Int) * dr) (col + (i : Int) * dc) = false := by
            rcases hx : blankAt s (row + (i : Int) * dr) (col + (i : Int) * dc) with _ | _
            · rfl
            · exact absurd hx hb
          have hc2 : s.chan cur (row + (i : Int) * dr) (col + (i : Int) * dc) = false := by
            rcases hx : s.chan cur (row + (i : Int) * dr) (col + (i : Int) * dc) with _ | _
            · rfl
            · exact absurd hx hc
          exact ⟨ha2, chan_opp_of_not_blank hb2 hc2⟩
      by_cases hcs : curStopD N s cur row col dr dc j0
      · right
        refine ⟨j0, by omega, hj0b, ?_, hcs, hmid, ?_⟩
        · simp only [hchk1, if_true, hopp, hscan]
          rw [decide_eq_true hcs]
        · refine ⟨j0 - 1, by omega, ?_, ?_, ?_⟩
          · intro i h1i hi
            exact hmid i h1i (by omega)
          · have hj : j0 - 1 + 1 = j0 := by omega
            rw [hj]
            exact hcs.1
          · have hj : j0 - 1 + 1 = j0 := by omega
            rw [hj]
            obtain ⟨hx, hy, hz⟩ := hcs
            exact hz
      · left
        constructor
        · simp only [hchk1, if_true, hopp, hscan]
          rw [decide_eq_false hcs]
        · rintro ⟨k, hk, hrun, hend⟩
          apply hcs
          have hstopk1 : stopAtD N s cur row col dr dc (k + 1) := by
            right; right
            exact hend.2
          have hle : j0 ≤ k + 1 := by
            by_contra hgt
            exact (hj0min (k + 1) (by omega) (by omega)) hstopk1
          have hchkj : checkLegalIndex N (row + (j0 : Int) * dr) (col + (j0 : Int) * dc) = true := by
            rcases Nat.lt_or_ge j0 (k + 1) with hj | hj
            · exact (hrun j0 (by omega) (by omega)).1
            · have hj0e : j0 = k + 1 := by omega
              rw [hj0e]
              exact hend.1
          have hblj : blankAt s (row + (j0 : Int) * dr) (col + (j0 : Int) * dc) = false := by
            rcases Nat.lt_or_ge j0 (k + 1) with hj | hj
            · exact blank_false_of_chan (hrun j0 (by omega) (by omega)).2
            · have hj0e : j0 = k + 1 := by omega
              rw [hj0e]
              exact blank_false_of_chan hend.2
          have hcurj : s.chan cur (row + (j0 : Int) * dr) (col + (j0 : Int) * dc) = true := by
            unfold stopAtD at hj0stop
            rcases hj0stop with hx | hx | hx
            · rw [hchkj] at hx
              exact Bool.noConfusion hx
            · rw [hblj] at hx
              exact Bool.noConfusion hx
            · exact hx
          exact ⟨hchkj, hblj, hcurj⟩

theorem checkLegalIndex_iff {N : Nat} {r c : Int} :
    checkLegalIndex N r c = true ↔ (0 ≤ r ∧ r < N ∧ 0 ≤ c ∧ c < N) := by
  unfold checkLegalIndex
  simp [and_assoc]

theorem check8_iff_inb8 {r c : Int} : checkLegalIndex 8 r c = true ↔ inb8 r c := by
  rw [checkLegalIndex_iff]
  unfold inb8
  norm_num

theorem dirCheck_found_iff (N : Nat) (s : DState) (cur : Fin 2) (row col dr dc : Int)
    (hrow : 0 ≤ row ∧ row < N) (hcol : 0 ≤ col ∧ col < N)
    (hdr : dr = -1 ∨ dr = 0 ∨ dr = 1) (hdc : dc = -1 ∨ dc = 0 ∨ dc = 1)
    (hne : ¬ (dr = 0 ∧ dc = 0)) :
    ((dirCheck N s cur row col dr dc).1 = true ↔
      captureDirSpec N s cur row col dr dc) := by
  rcases dirCheck_cases N s cur row col dr dc hrow hcol hdr hdc hne with
    ⟨hf, hnc⟩ | ⟨j0, _, _, he, _, _, hc⟩
  · constructor
    · intro h
      rw [h] at hf
      exact Bool.noConfusion hf
    · intro h
      exact absurd h hnc
  · rw [he]
    simp [hc]

theorem dirCheck_found_iff_mem {N : Nat} {s : DState} {cur : Fin 2} {row col : Int}
    (hrow : 0 ≤ row ∧ row < N) (hcol : 0 ≤ col ∧ col < N)
    {d : Int × Int} (hd : d ∈ dirList) :
    ((dirCheck N s cur row col d.1 d.2).1 = true ↔
      captureDirSpec N s cur row col d.1 d.2) := by
  have hdelta : (d.1 = -1 ∨ d.1 = 0 ∨ d.1 = 1) ∧ (d.2 = -1 ∨ d.2 = 0 ∨ d.2 = 1) ∧
      ¬ (d.1 = 0 ∧ d.2 = 0) := by
    fin_cases hd <;> norm_num
  exact dirCheck_found_iff N s cur row col d.1 d.2 hrow hcol hdelta.1 hdelta.2.1 hdelta.2.2

/-- `StateEnv._legal_moves_helper` marks exactly the empty on-board
cells from which some direction satisfies the capture condition. -/
theorem legalMovesD_spec (N : Nat) (s : DState) (row col : Int) :
    legalMovesD N s row col = true ↔
      (checkLegalIndex N row col = true ∧ blankAt s row col = true ∧
        ∃ d ∈ dirList, captureDirSpec N s s.player row col d.1 d.2) := by
  unfold legalMovesD
  rw [Bool.and_eq_true, Bool.and_eq_true, List.any_eq_true]
  constructor
  · rintro ⟨⟨hchk, hbl⟩, d, hd, hf⟩
    have hb := checkLegalIndex_iff.mp hchk
    exact ⟨hchk, hbl, d, hd,
      (dirCheck_found_iff_mem ⟨hb.1, hb.2.1⟩ ⟨hb.2.2.1, hb.2.2.2⟩ hd).mp hf⟩
  · rintro ⟨hchk, hbl, d, hd, hcap⟩
    have hb := checkLegalIndex_iff.mp hchk
    exact ⟨⟨hchk, hbl⟩, d, hd,
      (dirCheck_found_iff_mem ⟨hb.1, hb.2.1⟩ ⟨hb.2.2.1, hb.2.2.2⟩ hd).mpr hcap⟩

/-! ## Bridge between the two representations -/

/-- The dense view of a bitboard state, through `StateConverter`. -/
def bbToD (s : BBState) : DState := convBitboardToNd3 8 (s.b, s.w, s.p)

theorem bbToD_player (s : BBState) : (bbToD s).player = s.p := rfl

theorem board_lor (s : BBState) (p : Fin 2) :
    s.board p ||| s.board (notP p) = s.b ||| s.w := by
  fin_cases p <;> simp [BBState.board, notP, Nat.lor_comm]

theorem bbToD_chan (s : BBState) (k : Fin 2) (r c : Int) :
    ((bbToD s).chan k r c = true) ↔
      (inb8 r c ∧ (s.board k).testBit (bitIdx r c) = true) := by
  by_cases hin : inb8 r c
  · have hchk : checkLegalIndex 8 r c = true := check8_iff_inb8.mpr hin
    have hidx : 8 * 8 - 1 - (r.toNat * 8 + c.toNat) = bitIdx r c := by
      obtain ⟨h1, h2, h3, h4⟩ := hin
      simp only [bitIdx]
      omega
    fin_cases k <;>
      simp [bbToD, convBitboardToNd3, DState.chan, bitToGrid, BBState.board,
        hchk, hidx, hin]
  · have hchk : checkLegalIndex 8 r c = false := by
      rcases hx : checkLegalIndex 8 r c with _ | _
      · rfl
      · exact absurd (check8_iff_inb8.mp hx) hin
    fin_cases k <;>
      simp [bbToD, convBitboardToNd3, DState.chan, bitToGrid, hchk, hin]

theorem bbToD_blank (s : BBState) (r c : Int) (h : inb8 r c) :
    blankAt (bbToD s) r c = !((s.b ||| s.w).testBit (bitIdx r c)) := by
  have hchk : checkLegalIndex 8 r c = true := check8_iff_inb8.mpr h
  have hidx : 8 * 8 - 1 - (r.toNat * 8 + c.toNat) = bitIdx r c := by
    obtain ⟨h1, h2, h3, h4⟩ := h
    simp only [bitIdx]
    omega
  simp [blankAt, bbToD, convBitboardToNd3, bitToGrid, hchk, hidx, Nat.testBit_lor]

theorem bbToD_blank_out (s : BBState) (r c : Int) (h : ¬ inb8 r c) :
    blankAt (bbToD s) r c = true := by
  have hchk : checkLegalIndex 8 r c = false := by
    rcases hx : checkLegalIndex 8 r c with _ | _
    · rfl
    · exact absurd (check8_iff_inb8.mp hx) h
  simp [blankAt, bbToD, convBitboardToNd3, bitToGrid, hchk]

/-- The mask-level capture condition coincides with the spec-level one
on the dense view. -/
theorem raySpec_bridge (s : BBState) (mover : Fin 2) (r c dr dc : Int) :
    raySpecBits (s.board mover) (s.board (notP mover)) r c dr dc ↔
      captureDirSpec 8 (bbToD s) mover r c dr dc := by
  unfold raySpecBits captureDirSpec
  apply exists_congr
  intro k
  apply and_congr Iff.rfl
  apply and_congr
  · apply forall_congr'
    intro i
    constructor
    · intro hf h1 h2
      have hx := hf h1 h2
      unfold cellBit ray at hx
      constructor
      · exact check8_iff_inb8.mpr hx.1
      · exact (bbToD_chan s (notP mover) _ _).mpr hx
    · intro hf h1 h2
      have hx := hf h1 h2
      unfold cellBit ray
      exact (bbToD_chan s (notP mover) _ _).mp hx.2
  · constructor
    · intro hx
      unfold cellBit ray at hx
      constructor
      · exact check8_iff_inb8.mpr hx.1
      · exact (bbToD_chan s mover _ _).mpr hx
    · intro hx
      unfold cellBit ray
      exact (bbToD_chan s mover _ _).mp hx.2

/-- Legal-move agreement of the two engines, per on-board cell. -/
theorem legal_agree (n : Int) (s : BBState) (hb : s.b < 2 ^ 64) (hw : s.w < 2 ^ 64)
    (r c : Int) (h : inb8 r c) :
    ((legalMovesBB (mkStateEnvBitBoard n) s).testBit (bitIdx r c) = true ↔
      legalMovesD 8 (bbToD s) r c = true) := by
  rw [legalMovesBB_testBit n s hb hw r c h, legalMovesD_spec]
  rw [bbToD_player]
  constructor
  · rintro ⟨hocc, d, hd, hq⟩
    refine ⟨check8_iff_inb8.mpr h, ?_, d, hd, ?_⟩
    · rw [bbToD_blank s r c h]
      rw [← board_lor s s.p, hocc]
      rfl
    · exact (raySpec_bridge s s.p r c d.1 d.2).mp hq
  · rintro ⟨hchk, hbl, d, hd, hq⟩
    refine ⟨?_, d, hd, (raySpec_bridge s s.p r c d.1 d.2).mpr hq⟩
    rw [bbToD_blank s r c h] at hbl
    rw [board_lor s s.p]
    rcases hx : (s.b ||| s.w).testBit (bitIdx r c) with _ | _
    · rfl
    · rw [hx] at hbl
      exact Bool.noConfusion hbl

/-! ## The flip loops -/

theorem pow_bitIdx_lt {r c : Int} (h : inb8 r c) : 2 ^ bitIdx r c < 2 ^ 64 :=
  Nat.pow_lt_pow_right (by omega) (bitIdx_lt h)

theorem land_two_pow_val (x n : Nat) :
    x &&& 2 ^ n = if x.testBit n then 2 ^ n else 0 := by
  apply Nat.eq_of_testBit_eq
  intro t
  rw [Nat.testBit_land, Nat.testBit_two_pow]
  rcases hx : x.testBit n with _ | _
  · rw [if_neg (by simp), Nat.zero_testBit]
    by_cases ht : n = t
    · rw [← ht, hx]
      simp
    · simp [ht]
  · rw [if_pos rfl, Nat.testBit_two_pow]
    by_cases ht : n = t
    · rw [← ht, hx]
      simp
    · simp [ht]

theorem two_pow_land_val (x n : Nat) :
    2 ^ n &&& x = if x.testBit n then 2 ^ n else 0 := by
  rw [Nat.land_comm]
  exact land_two_pow_val x n

theorem disjoint_bits {x y : Nat} (h : x &&& y = 0) {t : Nat}
    (hx : x.testBit t = true) : y.testBit t = false := by
  have hb := congrArg (fun z => z.testBit t) h
  simp only [Nat.testBit_land, Nat.zero_testBit] at hb
  rw [hx] at hb
  simpa using hb

/-- Shifting a single on-board bit moves it one cell along the flip
walk `(er, ec)` (the reverse of the generator's ray), or drops it off
the board. -/
theorem shiftM_single {sh : Nat → Nat} {mask : Nat} {er ec : Int}
    (hstep : StepP sh mask (-er) (-ec)) (hm : mask < 2 ^ 64)
    (zr zc : Int) (hz : inb8 zr zc) :
    sh (2 ^ bitIdx zr zc) &&& mask =
      if inb8 (zr + er) (zc + ec) then 2 ^ bitIdx (zr + er) (zc + ec) else 0 := by
  apply Nat.eq_of_testBit_eq
  intro t
  rcases lt_or_le t 64 with ht | ht
  · obtain ⟨r, c, hin, rfl⟩ := cell_of_bit ht
    rw [Bool.eq_iff_iff, hstep _ r c hin]
    unfold cellBit
    constructor
    · rintro ⟨hin2, hbit⟩
      rw [Nat.testBit_two_pow] at hbit
      have hcell := bitIdx_inj hz hin2 (by simpa using hbit)
      have he1 : zr + er = r := by omega
      have he2 : zc + ec = c := by omega
      rw [if_pos (by rw [he1, he2]; exact hin), he1, he2, Nat.testBit_two_pow]
      simp
    · intro hbit
      by_cases hif : inb8 (zr + er) (zc + ec)
      · rw [if_pos hif, Nat.testBit_two_pow] at hbit
        have hcell := bitIdx_inj hif hin (by simpa using hbit)
        have he1 : r + -er = zr := by omega
        have he2 : c + -ec = zc := by omega
        rw [he1, he2]
        exact ⟨hz, by rw [Nat.testBit_two_pow]; simp⟩
      · rw [if_neg hif] at hbit
        rw [Nat.zero_testBit] at hbit
        exact absurd hbit (by simp)
  · rw [Nat.testBit_land]
    have hmb : mask.testBit t = false :=
      Nat.testBit_eq_false_of_lt
        (lt_of_lt_of_le hm (Nat.pow_le_pow_right (by omega) ht))
    rw [hmb, Bool.and_false]
    by_cases hif : inb8 (zr + er) (zc + ec)
    · rw [if_pos hif]
      exact (Nat.testBit_eq_false_of_lt
        (lt_of_lt_of_le (pow_bitIdx_lt hif) (Nat.pow_le_pow_right (by omega) ht))).symm
    · rw [if_neg hif]
      exact (Nat.zero_testBit t).symm

/-- The bits of cells `i, i+1, …, i+len-1` along the flip walk. -/
def raySeg (ar ac er ec : Int) : Nat → Nat → Nat
  | _, 0 => 0
  | i, len + 1 =>
    2 ^ bitIdx (ar + (i : Int) * er) (ac + (i : Int) * ec) |||
      raySeg ar ac er ec (i + 1) len

theorem raySeg_lt {ar ac er ec : Int} :
    ∀ (len i : Nat), (∀ q, i ≤ q → q < i + len →
      inb8 (ar + (q : Int) * er) (ac + (q : Int) * ec)) →
      raySeg ar ac er ec i len < 2 ^ 64 := by
  intro len
  induction len with
  | zero =>
    intro i _
    exact Nat.two_pow_pos 64
  | succ len ih =>
    intro i hin
    have h1 := hin i (le_refl i) (by omega)
    exact lor_lt_two_pow (pow_bitIdx_lt h1)
      (ih (i + 1) (fun q hq1 hq2 => hin q (by omega) (by omega)))

theorem raySeg_testBit {ar ac er ec : Int} :
    ∀ (len i : Nat), (∀ q, i ≤ q → q < i + len →
        inb8 (ar + (q : Int) * er) (ac + (q : Int) * ec)) →
      ∀ (r c : Int), inb8 r c →
      ((raySeg ar ac er ec i len).testBit (bitIdx r c) = true ↔
        ∃ q : Nat, i ≤ q ∧ q < i + len ∧
          r = ar + (q : Int) * er ∧ c = ac + (q : Int) * ec) := by
  intro len
  induction len with
  | zero =>
    intro i _ r c _
    simp only [raySeg, Nat.zero_testBit]
    constructor
    · intro h
      exact absurd h (by simp)
    · rintro ⟨q, h1, h2, _⟩
      omega
  | succ len ih =>
    intro i hin r c hrc
    have hini := hin i (le_refl i) (by omega)
    rw [raySeg, Nat.testBit_lor, Bool.or_eq_true, Nat.testBit_two_pow,
      ih (i + 1) (fun q h1 h2 => hin q (by omega) (by omega)) r c hrc]
    constructor
    · rintro (hq | ⟨q, h1, h2, h3, h4⟩)
      · have hcell := bitIdx_inj hini hrc (by simpa using hq)
        exact ⟨i, le_refl i, by omega, hcell.1.symm, hcell.2.symm⟩
      · exact ⟨q, by omega, by omega, h3, h4⟩
    · rintro ⟨q, h1, h2, h3, h4⟩
      rcases Nat.eq_or_lt_of_le h1 with he | hl
      · left
        rw [← he] at h3 h4
        rw [h3, h4]
        simp
      · right
        exact ⟨q, by omega, by omega, h3, h4⟩

/-- A run of the flip loop along an opposing run: starting at walk
cell `i`, it accumulates cells `i..j0-1` into `m` and exits holding
the cell `j0` (or 0 if that cell is off the board). -/
theorem flipLoopBB_run {sh : Nat → Nat} {mask : Nat} {er ec : Int}
    (hstep : StepP sh mask (-er) (-ec)) (hm : mask < 2 ^ 64)
    (bnp : Nat) (ar ac : Int) (j0 : Nat)
    (hmid : ∀ q : Nat, 1 ≤ q → q < j0 →
      inb8 (ar + (q : Int) * er) (ac + (q : Int) * ec) ∧
        bnp.testBit (bitIdx (ar + (q : Int) * er) (ac + (q : Int) * ec)) = true)
    (hj0 : inb8 (ar + (j0 : Int) * er) (ac + (j0 : Int) * ec) →
      bnp.testBit (bitIdx (ar + (j0 : Int) * er) (ac + (j0 : Int) * ec)) = false) :
    ∀ (len i fuel m : Nat), 1 ≤ i → i + len = j0 → len < fuel →
      flipLoopBB sh mask bnp fuel m
        (if inb8 (ar + (i : Int) * er) (ac + (i : Int) * ec) then
          2 ^ bitIdx (ar + (i : Int) * er) (ac + (i : Int) * ec) else 0) =
      (m ||| raySeg ar ac er ec i len,
        if inb8 (ar + (j0 : Int) * er) (ac + (j0 : Int) * ec) then
          2 ^ bitIdx (ar + (j0 : Int) * er) (ac + (j0 : Int) * ec) else 0) := by
  intro len
  induction len with
  | zero =>
    intro i fuel m h1 h2 h3
    have hij : i = j0 := by omega
    subst hij
    rcases fuel with _ | fuel
    · omega
    · rw [flipLoopBB]
      have hcz : (if inb8 (ar + (i : Int) * er) (ac + (i : Int) * ec) then
          2 ^ bitIdx (ar + (i : Int) * er) (ac + (i : Int) * ec) else 0) &&& bnp = 0 := by
        by_cases hb : inb8 (ar + (i : Int) * er) (ac + (i : Int) * ec)
        · rw [if_pos hb, two_pow_land_val, hj0 hb]
          simp
        · rw [if_neg hb, Nat.zero_and]
      rw [if_pos hcz]
      rw [show raySeg ar ac er ec i 0 = 0 from rfl, Nat.or_zero]
  | succ len ih =>
    intro i fuel m h1 h2 h3
    obtain ⟨hiin, hibit⟩ := hmid i h1 (by omega)
    rcases fuel with _ | fuel
    · omega
    · rw [if_pos hiin, flipLoopBB]
      have hcnz : ¬ (2 ^ bitIdx (ar + (i : Int) * er) (ac + (i : Int) * ec) &&& bnp = 0) := by
        rw [two_pow_land_val, if_pos hibit]
        exact (Nat.two_pow_pos _).ne'
      rw [if_neg hcnz]
      have hsh : sh (2 ^ bitIdx (ar + (i : Int) * er) (ac + (i : Int) * ec)) &&& mask =
          if inb8 (ar + ((i + 1 : Nat) : Int) * er) (ac + ((i + 1 : Nat) : Int) * ec) then
            2 ^ bitIdx (ar + ((i + 1 : Nat) : Int) * er) (ac + ((i + 1 : Nat) : Int) * ec)
          else 0 := by
        have hco1 : (ar + (i : Int) * er) + er = ar + ((i + 1 : Nat) : Int) * er := by
          push_cast
          ring
        have hco2 : (ac + (i : Int) * ec) + ec = ac + ((i + 1 : Nat) : Int) * ec := by
          push_cast
          ring
        rw [shiftM_single hstep hm _ _ hiin, hco1, hco2]
      rw [hsh]
      rw [ih (i + 1) fuel (m ||| 2 ^ bitIdx (ar + (i : Int) * er) (ac + (i : Int) * ec))
        (by omega) (by omega) (by omega)]
      rw [show raySeg ar ac er ec i (len + 1) =
        2 ^ bitIdx (ar + (i : Int) * er) (ac + (i : Int) * ec) |||
          raySeg ar ac er ec (i + 1) len from rfl]
      rw [Nat.lor_assoc]

/-- The value computed by one direction block of
`StateEnvBitBoard._get_next_board`: the bits of the opposing run
`1..j0-1`, kept only when the run is nonempty and stops on an own
disc; 0 otherwise.  `j0` is the first stop offset of the walk. -/
theorem dirFlip_value {sh : Nat → Nat} {mask : Nat} {er ec : Int}
    (hstep : StepP sh mask (-er) (-ec)) (hm : mask < 2 ^ 64)
    (bp bnp : Nat) (ar ac : Int) (hin : inb8 ar ac) (j0 : Nat)
    (hj0ge : 2 ≤ j0) (hj0le : j0 ≤ 64)
    (hmid : ∀ q : Nat, 2 ≤ q → q < j0 →
      inb8 (ar + (q : Int) * er) (ac + (q : Int) * ec) ∧
        bnp.testBit (bitIdx (ar + (q : Int) * er) (ac + (q : Int) * ec)) = true)
    (hj0 : inb8 (ar + (j0 : Int) * er) (ac + (j0 : Int) * ec) →
      bnp.testBit (bitIdx (ar + (j0 : Int) * er) (ac + (j0 : Int) * ec)) = false) :
    dirFlip sh mask bp bnp (2 ^ bitIdx ar ac) =
      if (inb8 (ar + ((1 : Nat) : Int) * er) (ac + ((1 : Nat) : Int) * ec) ∧
            bnp.testBit (bitIdx (ar + ((1 : Nat) : Int) * er)
              (ac + ((1 : Nat) : Int) * ec)) = true) ∧
          (inb8 (ar + (j0 : Int) * er) (ac + (j0 : Int) * ec) ∧
            bp.testBit (bitIdx (ar + (j0 : Int) * er) (ac + (j0 : Int) * ec)) = true)
      then raySeg ar ac er ec 1 (j0 - 1) else 0 := by
  have hc1 : ar + er = ar + ((1 : Nat) : Int) * er := by push_cast; ring
  have hc2 : ac + ec = ac + ((1 : Nat) : Int) * ec := by push_cast; ring
  have hsh : sh (2 ^ bitIdx ar ac) &&& mask =
      if inb8 (ar + ((1 : Nat) : Int) * er) (ac + ((1 : Nat) : Int) * ec) then
        2 ^ bitIdx (ar + ((1 : Nat) : Int) * er) (ac + ((1 : Nat) : Int) * ec)
      else 0 := by
    rw [shiftM_single hstep hm ar ac hin, hc1, hc2]
  simp only [dirFlip]
  rw [Nat.land_assoc, hsh]
  by_cases hb1 : inb8 (ar + ((1 : Nat) : Int) * er) (ac + ((1 : Nat) : Int) * ec)
  · rw [if_pos hb1, land_two_pow_val]
    by_cases hb2 : bnp.testBit (bitIdx (ar + ((1 : Nat) : Int) * er)
        (ac + ((1 : Nat) : Int) * ec)) = true
    · rw [if_pos hb2]
      have hmidFull : ∀ q : Nat, 1 ≤ q → q < j0 →
          inb8 (ar + (q : Int) * er) (ac + (q : Int) * ec) ∧
            bnp.testBit (bitIdx (ar + (q : Int) * er) (ac + (q : Int) * ec)) = true := by
        intro q hq1 hq2
        rcases Nat.eq_or_lt_of_le hq1 with he | hl
        · rw [← he]
          exact ⟨hb1, hb2⟩
        · exact hmid q hl hq2
      have hrun := flipLoopBB_run hstep hm bnp ar ac j0 hmidFull hj0
        (j0 - 1) 1 64 0 (le_refl 1) (by omega) (by omega)
      rw [if_pos hb1] at hrun
      rw [hrun]
      by_cases hbj : inb8 (ar + (j0 : Int) * er) (ac + (j0 : Int) * ec)
      · rw [if_pos hbj]
        show (if 2 ^ bitIdx (ar + (j0 : Int) * er) (ac + (j0 : Int) * ec) &&& bp = 0
          then 0 else 0 ||| raySeg ar ac er ec 1 (j0 - 1)) = _
        rw [two_pow_land_val]
        by_cases hbp : bp.testBit (bitIdx (ar + (j0 : Int) * er)
            (ac + (j0 : Int) * ec)) = true
        · rw [if_pos hbp, if_neg (Nat.two_pow_pos (bitIdx (ar + (j0 : Int) * er)
            (ac + (j0 : Int) * ec))).ne', if_pos ⟨⟨hb1, hb2⟩, hbj, hbp⟩, Nat.zero_or]
        · rw [if_neg hbp, if_pos rfl, if_neg (fun hand => hbp hand.2.2)]
      · rw [if_neg hbj]
        show (if (0 : Nat) &&& bp = 0 then 0 else 0 ||| raySeg ar ac er ec 1 (j0 - 1)) = _
        rw [if_pos (Nat.zero_and bp)]
        rw [if_neg (fun hand => hbj hand.2.1)]
    · rw [if_neg hb2]
      rw [show flipLoopBB sh mask bnp 64 0 0 = (0, 0) from by
        rw [flipLoopBB, if_pos (Nat.zero_and bnp)]]
      rw [if_pos (show ((0, 0) : Nat × Nat).2 &&& bp = 0 from Nat.zero_and bp)]
      rw [if_neg (fun hand => hb2 hand.1.2)]
  · rw [if_neg hb1, Nat.and_zero]
    rw [show flipLoopBB sh mask bnp 64 0 0 = (0, 0) from by
      rw [flipLoopBB, if_pos (Nat.zero_and bnp)]]
    rw [if_pos (show ((0, 0) : Nat × Nat).2 &&& bp = 0 from Nat.zero_and bp)]
    rw [if_neg (fun hand => hb1 hand.1.1)]

/-! ## Dense flip loop characterization -/

theorem notP_ne (k : Fin 2) : notP k ≠ k := by
  fin_cases k <;> decide

theorem setCh_player (g : DState) (k : Fin 2) (r c : Int) (v : Bool) :
    (setCh g k r c v).player = g.player := by
  unfold setCh
  split <;> rfl

theorem setCh_chan_eq (g : DState) (k : Fin 2) (r c : Int) (v : Bool) (r2 c2 : Int) :
    (setCh g k r c v).chan k r2 c2 =
      if r2 = r ∧ c2 = c then v else g.chan k r2 c2 := by
  fin_cases k <;> simp [setCh, DState.chan]

theorem setCh_chan_ne (g : DState) (k k2 : Fin 2) (h : k2 ≠ k) (r c : Int) (v : Bool)
    (r2 c2 : Int) : (setCh g k r c v).chan k2 r2 c2 = g.chan k2 r2 c2 := by
  fin_cases k <;> fin_cases k2 <;> first
    | exact absurd rfl h
    | simp [setCh, DState.chan]

/-- Apply the per-cell pair of writes of the dense flip loop to the
cells `i..i+len-1` of a walk. -/
def applyFlips (cur : Fin 2) (row col er ec : Int) : DState → Nat → Nat → DState
  | g, _, 0 => g
  | g, i, len + 1 =>
    applyFlips cur row col er ec
      (setCh (setCh g (notP cur) (row + (i : Int) * er) (col + (i : Int) * ec) false)
        cur (row + (i : Int) * er) (col + (i : Int) * ec) true)
      (i + 1) len

theorem applyFlips_player (cur : Fin 2) (row col er ec : Int) :
    ∀ (len i : Nat) (g : DState),
      (applyFlips cur row col er ec g i len).player = g.player := by
  intro len
  induction len with
  | zero => intro i g; rfl
  | succ len ih =>
    intro i g
    rw [applyFlips, ih, setCh_player, setCh_player]

/-- A cell already holding the mover's disc (and no opposing disc)
keeps that content through `applyFlips`. -/
theorem applyFlips_preserve (cur : Fin 2) (row col er ec : Int) (r c : Int) :
    ∀ (len i : Nat) (g : DState),
      g.chan cur r c = true → g.chan (notP cur) r c = false →
      (applyFlips cur row col er ec g i len).chan cur r c = true ∧
        (applyFlips cur row col er ec g i len).chan (notP cur) r c = false := by
  intro len
  induction len with
  | zero =>
    intro i g h1 h2
    exact ⟨h1, h2⟩
  | succ len ih =>
    intro i g h1 h2
    rw [applyFlips]
    apply ih
    · rw [setCh_chan_eq]
      split
      · rfl
      · rw [setCh_chan_ne _ _ _ (Ne.symm (notP_ne cur)), h1]
    · rw [setCh_chan_ne _ _ _ (notP_ne cur), setCh_chan_eq]
      split
      · rfl
      · exact h2

/-- Cells outside the walk range are untouched by `applyFlips`. -/
theorem applyFlips_nomem (cur : Fin 2) (row col er ec : Int) (r c : Int) (k : Fin 2) :
    ∀ (len i : Nat) (g : DState),
      (∀ q : Nat, i ≤ q → q < i + len →
        ¬ (r = row + (q : Int) * er ∧ c = col + (q : Int) * ec)) →
      (applyFlips cur row col er ec g i len).chan k r c = g.chan k r c := by
  intro len
  induction len with
  | zero =>
    intro i g _
    rfl
  | succ len ih =>
    intro i g hq
    rw [applyFlips, ih _ _ (fun q hq1 hq2 => hq q (by omega) (by omega))]
    have hne : ¬ (r = row + (i : Int) * er ∧ c = col + (i : Int) * ec) :=
      hq i (le_refl i) (by omega)
    by_cases hk : k = cur
    · rw [hk]
      rw [setCh_chan_eq, if_neg (by tauto)]
      rw [setCh_chan_ne _ _ _ (Ne.symm (notP_ne cur))]
    · have hk2 : k = notP cur := by
        fin_cases k <;> fin_cases cur <;> first | exact absurd rfl hk | rfl
      subst hk2
      rw [setCh_chan_ne _ _ _ (notP_ne cur), setCh_chan_eq, if_neg (by tauto)]

/-- Cells inside the walk range are flipped to the mover by
`applyFlips`. -/
theorem applyFlips_mem (cur : Fin 2) (row col er ec : Int) (r c : Int) :
    ∀ (len i : Nat) (g : DState) (q : Nat), i ≤ q → q < i + len →
      r = row + (q : Int) * er → c = col + (q : Int) * ec →
      (applyFlips cur row col er ec g i len).chan cur r c = true ∧
        (applyFlips cur row col er ec g i len).chan (notP cur) r c = false := by
  intro len
  induction len with
  | zero =>
    intro i g q h1 h2
    omega
  | succ len ih =>
    intro i g q h1 h2 h3 h4
    rcases Nat.eq_or_lt_of_le h1 with he | hl
    · rw [applyFlips]
      apply applyFlips_preserve
      · rw [setCh_chan_eq, if_pos (by rw [h3, h4, ← he]; exact ⟨rfl, rfl⟩)]
      · rw [setCh_chan_ne _ _ _ (notP_ne cur), setCh_chan_eq,
          if_pos (by rw [h3, h4, ← he]; exact ⟨rfl, rfl⟩)]
    · rw [applyFlips]
      exact ih (i + 1) _ q hl (by omega) h3 h4

/-- The dense flip loop equals `applyFlips` up to the stop cell, when
the stop marker is the cell at offset `j0` of the walk. -/
theorem flipLoopD_run (cur : Fin 2) (row col er ec : Int)
    (her : er = -1 ∨ er = 0 ∨ er = 1) (hec : ec = -1 ∨ ec = 0 ∨ ec = 1)
    (hne : ¬ (er = 0 ∧ ec = 0)) (j0 : Nat) :
    ∀ (len v fuel : Nat) (g : DState), v + 1 + len = j0 → len < fuel →
      flipLoopD g cur row col er ec
        (row + (j0 : Int) * er) (col + (j0 : Int) * ec) fuel v =
      applyFlips cur row col er ec g (v + 1) len := by
  intro len
  induction len with
  | zero =>
    intro v fuel g hv hf
    rcases fuel with _ | fuel
    · omega
    · rw [flipLoopD]
      rw [if_pos ?hstop]
      · rfl
      case hstop =>
        constructor
        · have : ((v + 1 : Nat) : Int) = (j0 : Int) := by omega
          rw [this]
        · have : ((v + 1 : Nat) : Int) = (j0 : Int) := by omega
          rw [this]
  | succ len ih =>
    intro v fuel g hv hf
    rcases fuel with _ | fuel
    · omega
    · rw [flipLoopD]
      rw [if_neg ?hnostop]
      · rw [applyFlips]
        exact ih (v + 1) fuel _ (by omega) (by omega)
      case hnostop =>
        intro hstop
        obtain ⟨hs1, hs2⟩ := hstop
        rcases her with rfl | rfl | rfl <;> rcases hec with rfl | rfl | rfl <;> omega

theorem notStop_fields {N : Nat} {s : DState} {cur : Fin 2} {row col dr dc : Int}
    {j : Nat} (h : ¬ stopAtD N s cur row col dr dc j) :
    checkLegalIndex N (row + (j : Int) * dr) (col + (j : Int) * dc) = true ∧
      blankAt s (row + (j : Int) * dr) (col + (j : Int) * dc) = false ∧
      s.chan cur (row + (j : Int) * dr) (col + (j : Int) * dc) = false := by
  unfold stopAtD at h
  push_neg at h
  obtain ⟨h1, h2, h3⟩ := h
  refine ⟨?_, ?_, ?_⟩
  · rcases hx : checkLegalIndex N (row + (j : Int) * dr) (col + (j : Int) * dc) with _ | _
    · exact absurd hx h1
    · rfl
  · rcases hx : blankAt s (row + (j : Int) * dr) (col + (j : Int) * dc) with _ | _
    · rfl
    · exact absurd hx h2
  · rcases hx : s.chan cur (row + (j : Int) * dr) (col + (j : Int) * dc) with _ | _
    · rfl
    · exact absurd hx h3

theorem board_disjoint (s : BBState) (hdis : s.b &&& s.w = 0) (p : Fin 2) :
    s.board p &&& s.board (notP p) = 0 := by
  fin_cases p
  · simpa [BBState.board, notP] using hdis
  · simpa [BBState.board, notP, Nat.land_comm] using hdis

/-- Per-direction package: the first stop offset `j0` of the walk
`(er, ec)` from the action cell governs both the dense direction check
and the bitboard direction flip. -/
theorem dir_package {sh : Nat → Nat} {mask : Nat} {er ec : Int}
    (hstep : StepP sh mask (-er) (-ec)) (hm : mask < 2 ^ 64)
    (her : er = -1 ∨ er = 0 ∨ er = 1) (hec : ec = -1 ∨ ec = 0 ∨ ec = 1)
    (hne : ¬ (er = 0 ∧ ec = 0))
    (s : BBState) (hb : s.b < 2 ^ 64) (hw : s.w < 2 ^ 64) (hdis : s.b &&& s.w = 0)
    (ar ac : Int) (hin : inb8 ar ac) :
    ∃ j0 : Nat, 2 ≤ j0 ∧ j0 ≤ 9 ∧
      (((dirCheck 8 (bbToD s) s.p ar ac er ec).1 = true) ↔
        ((inb8 (ar + ((1 : Nat) : Int) * er) (ac + ((1 : Nat) : Int) * ec) ∧
            (s.board (notP s.p)).testBit (bitIdx (ar + ((1 : Nat) : Int) * er)
              (ac + ((1 : Nat) : Int) * ec)) = true) ∧
          (inb8 (ar + (j0 : Int) * er) (ac + (j0 : Int) * ec) ∧
            (s.board s.p).testBit (bitIdx (ar + (j0 : Int) * er)
              (ac + (j0 : Int) * ec)) = true))) ∧
      dirFlip sh mask (s.board s.p) (s.board (notP s.p)) (2 ^ bitIdx ar ac) =
        (if ((inb8 (ar + ((1 : Nat) : Int) * er) (ac + ((1 : Nat) : Int) * ec) ∧
            (s.board (notP s.p)).testBit (bitIdx (ar + ((1 : Nat) : Int) * er)
              (ac + ((1 : Nat) : Int) * ec)) = true) ∧
          (inb8 (ar + (j0 : Int) * er) (ac + (j0 : Int) * ec) ∧
            (s.board s.p).testBit (bitIdx (ar + (j0 : Int) * er)
              (ac + (j0 : Int) * ec)) = true))
        then raySeg ar ac er ec 1 (j0 - 1) else 0) ∧
      ((dirCheck 8 (bbToD s) s.p ar ac er ec).1 = true →
        dirCheck 8 (bbToD s) s.p ar ac er ec =
          (true, ar + (j0 : Int) * er, ac + (j0 : Int) * ec)) ∧
      ((dirCheck 8 (bbToD s) s.p ar ac er ec).1 = true →
        ∀ q : Nat, 1 ≤ q → q < j0 →
          inb8 (ar + (q : Int) * er) (ac + (q : Int) * ec) ∧
            (s.board (notP s.p)).testBit (bitIdx (ar + (q : Int) * er)
              (ac + (q : Int) * ec)) = true) := by
  obtain ⟨hr1, hr2, hr3, hr4⟩ := hin
  obtain ⟨j0, hj0a, hj0b, hstop, hmin⟩ :=
    exists_firstStop 8 (bbToD s) s.p ar ac er ec ⟨hr1, hr2⟩ ⟨hr3, hr4⟩ her hec hne 1
      (by omega)
  have hinb : inb8 ar ac := ⟨hr1, hr2, hr3, hr4⟩
  have hc1 : ar + er = ar + ((1 : Nat) : Int) * er := by push_cast; ring
  have hc2 : ac + ec = ac + ((1 : Nat) : Int) * ec := by push_cast; ring
  have hdisb := board_disjoint s hdis s.p
  have hmids : ∀ q : Nat, 2 ≤ q → q < j0 →
      inb8 (ar + (q : Int) * er) (ac + (q : Int) * ec) ∧
        (s.board (notP s.p)).testBit (bitIdx (ar + (q : Int) * er)
          (ac + (q : Int) * ec)) = true := by
    intro q hq1 hq2
    obtain ⟨ha, hbq, hcq⟩ := notStop_fields (hmin q (by omega) hq2)
    have hopp := chan_opp_of_not_blank hbq hcq
    exact (bbToD_chan s (notP s.p) _ _).mp hopp
  have hj0fact : inb8 (ar + (j0 : Int) * er) (ac + (j0 : Int) * ec) →
      (s.board (notP s.p)).testBit (bitIdx (ar + (j0 : Int) * er)
        (ac + (j0 : Int) * ec)) = false := by
    intro hinj
    unfold stopAtD at hstop
    rcases hstop with hx | hx | hx
    · rw [check8_iff_inb8.mpr hinj] at hx
      exact Bool.noConfusion hx
    · rcases hbit : (s.board (notP s.p)).testBit (bitIdx (ar + (j0 : Int) * er)
          (ac + (j0 : Int) * ec)) with _ | _
      · rfl
      · have hopp := (bbToD_chan s (notP s.p) _ _).mpr ⟨hinj, hbit⟩
        rw [blank_false_of_chan hopp] at hx
        exact Bool.noConfusion hx
    · have hcur := (bbToD_chan s s.p _ _).mp hx
      exact disjoint_bits hdisb hcur.2
  have hcur_iff : curStopD 8 (bbToD s) s.p ar ac er ec j0 ↔
      (inb8 (ar + (j0 : Int) * er) (ac + (j0 : Int) * ec) ∧
        (s.board s.p).testBit (bitIdx (ar + (j0 : Int) * er)
          (ac + (j0 : Int) * ec)) = true) := by
    constructor
    · rintro ⟨hchk, hbl, hcu⟩
      exact (bbToD_chan s s.p _ _).mp hcu
    · rintro ⟨hinj, hbit⟩
      have hcu := (bbToD_chan s s.p _ _).mpr ⟨hinj, hbit⟩
      exact ⟨check8_iff_inb8.mpr hinj, blank_false_of_chan hcu, hcu⟩
  have hflip := dirFlip_value hstep hm (s.board s.p) (s.board (notP s.p)) ar ac hinb
    j0 (by omega) (by omega) hmids hj0fact
  have hpre_iff : (checkLegalIndex 8 (ar + er) (ac + ec) = true ∧
      (bbToD s).chan (notP s.p) (ar + er) (ac + ec) = true) ↔
      (inb8 (ar + ((1 : Nat) : Int) * er) (ac + ((1 : Nat) : Int) * ec) ∧
        (s.board (notP s.p)).testBit (bitIdx (ar + ((1 : Nat) : Int) * er)
          (ac + ((1 : Nat) : Int) * ec)) = true) := by
    rw [← hc1, ← hc2]
    constructor
    · rintro ⟨hchk, hopp⟩
      exact (bbToD_chan s (notP s.p) _ _).mp hopp
    · rintro ⟨hinj, hbit⟩
      exact ⟨check8_iff_inb8.mpr hinj, (bbToD_chan s (notP s.p) _ _).mpr ⟨hinj, hbit⟩⟩
  have hdcheck : dirCheck 8 (bbToD s) s.p ar ac er ec =
      (if checkLegalIndex 8 (ar + er) (ac + ec) = true ∧
          (bbToD s).chan (notP s.p) (ar + er) (ac + ec) = true
        then (decide (curStopD 8 (bbToD s) s.p ar ac er ec j0),
          ar + (j0 : Int) * er, ac + (j0 : Int) * ec)
        else (false, ar + er, ac + ec)) := by
    simp only [dirCheck]
    rcases hchk : checkLegalIndex 8 (ar + er) (ac + ec) with _ | _
    · rw [if_neg (show ¬ (false = true) by simp),
        if_neg (fun h => by simpa using h.1)]
    · rw [if_pos rfl]
      rcases hopp : (bbToD s).chan (notP s.p) (ar + er) (ac + ec) with _ | _
      · rw [if_neg (show ¬ (false = true) by simp),
          if_neg (fun h => by simpa using h.2)]
      · rw [if_pos rfl, if_pos ⟨rfl, rfl⟩]
        exact scanLoop_spec 8 (bbToD s) s.p ar ac er ec 8 1 j0 hj0a (by omega) hstop hmin
  refine ⟨j0, by omega, hj0b, ?_, hflip, ?_, ?_⟩
  · rw [hdcheck]
    by_cases hpre : checkLegalIndex 8 (ar + er) (ac + ec) = true ∧
        (bbToD s).chan (notP s.p) (ar + er) (ac + ec) = true
    · rw [if_pos hpre]
      show decide (curStopD 8 (bbToD s) s.p ar ac er ec j0) = true ↔ _
      rw [decide_eq_true_eq]
      constructor
      · intro hcs
        exact ⟨hpre_iff.mp hpre, hcur_iff.mp hcs⟩
      · intro hP
        exact hcur_iff.mpr hP.2
    · rw [if_neg hpre]
      show false = true ↔ _
      constructor
      · intro hx
        exact Bool.noConfusion hx
      · intro hP
        exact absurd (hpre_iff.mpr hP.1) hpre
  · intro hfound
    rw [hdcheck] at hfound ⊢
    by_cases hpre : checkLegalIndex 8 (ar + er) (ac + ec) = true ∧
        (bbToD s).chan (notP s.p) (ar + er) (ac + ec) = true
    · rw [if_pos hpre] at hfound ⊢
      have hd : decide (curStopD 8 (bbToD s) s.p ar ac er ec j0) = true := hfound
      rw [hd]
    · rw [if_neg hpre] at hfound
      have hx : (false : Bool) = true := hfound
      exact Bool.noConfusion hx
  · intro hfound q hq1 hq2
    rcases Nat.eq_or_lt_of_le hq1 with he | hl
    · rw [hdcheck] at hfound
      by_cases hpre : checkLegalIndex 8 (ar + er) (ac + ec) = true ∧
          (bbToD s).chan (notP s.p) (ar + er) (ac + ec) = true
      · rw [← he]
        exact hpre_iff.mp hpre
      · rw [if_neg hpre] at hfound
        have hx : (false : Bool) = true := hfound
        exact Bool.noConfusion hx
    · exact hmids q hl hq2

/-- One direction step of the `playD` fold. -/
def playStep (N : Nat) (s : DState) (cur : Fin 2) (row col : Int)
    (acc : DState) (d : Int × Int) : DState :=
  let r := dirCheck N s cur row col d.1 d.2
  if r.1 then flipLoopD acc cur row col d.1 d.2 r.2.1 r.2.2 (N + 2) 0 else acc

theorem playD_eq (N : Nat) (s : DState) (row col : Int) :
    playD N s row col =
      if blankAt s row col then
        dirList.foldl (playStep N s s.player row col) (setCh s s.player row col true)
      else s := rfl

theorem flipLoopD_player (cur : Fin 2) (row col dr dc nr nc : Int) :
    ∀ (fuel i : Nat) (g : DState),
      (flipLoopD g cur row col dr dc nr nc fuel i).player = g.player := by
  intro fuel
  induction fuel with
  | zero => intro i g; rfl
  | succ fuel ih =>
    intro i g
    rw [flipLoopD]
    split
    · rfl
    · rw [ih, setCh_player, setCh_player]

theorem flipLoopD_preserve (cur : Fin 2) (row col dr dc nr nc : Int) (r c : Int) :
    ∀ (fuel i : Nat) (g : DState),
      g.chan cur r c = true → g.chan (notP cur) r c = false →
      (flipLoopD g cur row col dr dc nr nc fuel i).chan cur r c = true ∧
        (flipLoopD g cur row col dr dc nr nc fuel i).chan (notP cur) r c = false := by
  intro fuel
  induction fuel with
  | zero =>
    intro i g h1 h2
    exact ⟨h1, h2⟩
  | succ fuel ih =>
    intro i g h1 h2
    rw [flipLoopD]
    split
    · exact ⟨h1, h2⟩
    · apply ih
      · rw [setCh_chan_eq]
        split
        · rfl
        · rw [setCh_chan_ne _ _ _ (Ne.symm (notP_ne cur)), h1]
      · rw [setCh_chan_ne _ _ _ (notP_ne cur), setCh_chan_eq]
        split
        · rfl
        · exact h2

theorem playStep_player (N : Nat) (s : DState) (cur : Fin 2) (row col : Int)
    (acc : DState) (d : Int × Int) :
    (playStep N s cur row col acc d).player = acc.player := by
  simp only [playStep]
  split
  · rw [flipLoopD_player]
  · rfl

theorem playStep_preserve (N : Nat) (s : DState) (cur : Fin 2) (row col : Int)
    (acc : DState) (d : Int × Int) (r c : Int)
    (h1 : acc.chan cur r c = true) (h2 : acc.chan (notP cur) r c = false) :
    (playStep N s cur row col acc d).chan cur r c = true ∧
      (playStep N s cur row col acc d).chan (notP cur) r c = false := by
  simp only [playStep]
  split
  · exact flipLoopD_preserve cur row col d.1 d.2 _ _ r c _ _ acc h1 h2
  · exact ⟨h1, h2⟩

theorem foldl_play_player (N : Nat) (s : DState) (cur : Fin 2) (row col : Int) :
    ∀ (L : List (Int × Int)) (acc : DState),
      (L.foldl (playStep N s cur row col) acc).player = acc.player := by
  intro L
  induction L with
  | nil => intro acc; rfl
  | cons d L ih =>
    intro acc
    rw [List.foldl_cons, ih, playStep_player]

theorem foldl_play_preserve (N : Nat) (s : DState) (cur : Fin 2) (row col : Int)
    (r c : Int) :
    ∀ (L : List (Int × Int)) (acc : DState),
      acc.chan cur r c = true → acc.chan (notP cur) r c = false →
      ((L.foldl (playStep N s cur row col) acc).chan cur r c = true ∧
        (L.foldl (playStep N s cur row col) acc).chan (notP cur) r c = false) := by
  intro L
  induction L with
  | nil =>
    intro acc h1 h2
    exact ⟨h1, h2⟩
  | cons d L ih =>
    intro acc h1 h2
    rw [List.foldl_cons]
    obtain ⟨h3, h4⟩ := playStep_preserve N s cur row col acc d r c h1 h2
    exact ih _ h3 h4

/-- Shape of the per-direction data that drives the fold lemmas:
either the direction finds no capture, or its first stop offset
`jf d` describes the check tuple and the flip range. -/
def DirData (N : Nat) (s : DState) (cur : Fin 2) (row col : Int)
    (jf : Int × Int → Nat) (d : Int × Int) : Prop :=
  ((dirCheck N s cur row col d.1 d.2).1 = false) ∨
  (2 ≤ jf d ∧ jf d ≤ N + 1 ∧
    dirCheck N s cur row col d.1 d.2 =
      (true, row + (jf d : Int) * d.1, col + (jf d : Int) * d.2) ∧
    (d.1 = -1 ∨ d.1 = 0 ∨ d.1 = 1) ∧ (d.2 = -1 ∨ d.2 = 0 ∨ d.2 = 1) ∧
    ¬ (d.1 = 0 ∧ d.2 = 0))

/-- Cell `(r, c)` is flipped by some direction in `L`. -/
def TouchedBy (N : Nat) (s : DState) (cur : Fin 2) (row col : Int)
    (jf : Int × Int → Nat) (L : List (Int × Int)) (r c : Int) : Prop :=
  ∃ d ∈ L, (dirCheck N s cur row col d.1 d.2).1 = true ∧
    ∃ q : Nat, 1 ≤ q ∧ q < jf d ∧
      r = row + (q : Int) * d.1 ∧ c = col + (q : Int) * d.2

theorem playStep_found_eq (N : Nat) (s : DState) (cur : Fin 2) (row col : Int)
    {jf : Int × Int → Nat} {d : Int × Int}
    (hd : DirData N s cur row col jf d)
    (hfound : (dirCheck N s cur row col d.1 d.2).1 = true) (acc : DState) :
    playStep N s cur row col acc d =
      applyFlips cur row col d.1 d.2 acc 1 (jf d - 1) := by
  rcases hd with hfalse | ⟨hge, hle, htup, hd1, hd2, hdne⟩
  · rw [hfound] at hfalse
    exact Bool.noConfusion hfalse
  · unfold playStep
    rw [htup]
    rw [if_pos rfl]
    show flipLoopD acc cur row col d.1 d.2
      (row + (jf d : Int) * d.1) (col + (jf d : Int) * d.2) (N + 2) 0 = _
    have := flipLoopD_run cur row col d.1 d.2 hd1 hd2 hdne (jf d)
      (jf d - 1) 0 (N + 2) acc (by omega) (by omega)
    rw [this]

theorem playStep_notfound_eq (N : Nat) (s : DState) (cur : Fin 2) (row col : Int)
    {d : Int × Int}
    (hfalse : (dirCheck N s cur row col d.1 d.2).1 = false) (acc : DState) :
    playStep N s cur row col acc d = acc := by
  simp only [playStep]
  rw [hfalse]
  simp

/-- Cells flipped by no direction of `L` keep their content through
the fold. -/
theorem foldl_play_untouched (N : Nat) (s : DState) (cur : Fin 2) (row col : Int)
    (jf : Int × Int → Nat) (r c : Int) (k : Fin 2) :
    ∀ (L : List (Int × Int)), (∀ d ∈ L, DirData N s cur row col jf d) →
      ¬ TouchedBy N s cur row col jf L r c →
      ∀ (acc : DState),
        (L.foldl (playStep N s cur row col) acc).chan k r c = acc.chan k r c := by
  intro L
  induction L with
  | nil =>
    intro _ _ acc
    rfl
  | cons d L ih =>
    intro hdata htouch acc
    have hdd := hdata d (List.mem_cons_self d L)
    have htail : ¬ TouchedBy N s cur row col jf L r c := by
      intro ⟨d2, hd2, hrest⟩
      exact htouch ⟨d2, List.mem_cons_of_mem d hd2, hrest⟩
    rw [List.foldl_cons, ih (fun d2 h2 => hdata d2 (List.mem_cons_of_mem d h2)) htail]
    rcases hfound : (dirCheck N s cur row col d.1 d.2).1 with _ | _
    · rw [playStep_notfound_eq N s cur row col hfound]
    · rw [playStep_found_eq N s cur row col hdd hfound]
      apply applyFlips_nomem
      intro q hq1 hq2 ⟨hr, hc⟩
      rcases hdd with hfalse | ⟨hge, hle, htup, _⟩
      · rw [hfound] at hfalse
        exact Bool.noConfusion hfalse
      · exact htouch ⟨d, List.mem_cons_self d L, hfound, q, hq1, by omega, hr, hc⟩

/-- Cells flipped by some direction of `L` end up holding the mover's
disc. -/
theorem foldl_play_touched (N : Nat) (s : DState) (cur : Fin 2) (row col : Int)
    (jf : Int × Int → Nat) (r c : Int) :
    ∀ (L : List (Int × Int)), (∀ d ∈ L, DirData N s cur row col jf d) →
      TouchedBy N s cur row col jf L r c →
      ∀ (acc : DState),
        ((L.foldl (playStep N s cur row col) acc).chan cur r c = true ∧
          (L.foldl (playStep N s cur row col) acc).chan (notP cur) r c = false) := by
  intro L
  induction L with
  | nil =>
    intro _ htouch acc
    obtain ⟨d, hd, _⟩ := htouch
    exact absurd hd (List.not_mem_nil d)
  | cons d L ih =>
    intro hdata htouch acc
    rw [List.foldl_cons]
    obtain ⟨d2, hd2, hfound, q, hq1, hq2, hr, hc⟩ := htouch
    rcases List.mem_cons.mp hd2 with rfl | hmem
    · have hdd := hdata d2 (List.mem_cons_self d2 L)
      rw [playStep_found_eq N s cur row col hdd hfound]
      apply foldl_play_preserve
      · exact (applyFlips_mem cur row col d2.1 d2.2 r c (jf d2 - 1) 1 acc q hq1
          (by omega) hr hc).1
      · exact (applyFlips_mem cur row col d2.1 d2.2 r c (jf d2 - 1) 1 acc q hq1
          (by omega) hr hc).2
    · exact ih (fun d3 h3 => hdata d3 (List.mem_cons_of_mem d h3))
        ⟨d2, hmem, hfound, q, hq1, hq2, hr, hc⟩ _

theorem fin2_cases (p : Fin 2) : p = 0 ∨ p = 1 := by
  fin_cases p
  · exact Or.inl rfl
  · exact Or.inr rfl

theorem fin2_eq_or (k p : Fin 2) : k = p ∨ k = notP p := by
  fin_cases k <;> fin_cases p <;> simp [notP]

theorem bbToD_chan_eq (s : BBState) (k : Fin 2) (r c : Int) (h : inb8 r c) :
    (bbToD s).chan k r c = (s.board k).testBit (bitIdx r c) := by
  rcases hx : (s.board k).testBit (bitIdx r c) with _ | _
  · rcases hy : (bbToD s).chan k r c with _ | _
    · rfl
    · have hz := (bbToD_chan s k r c).mp hy
      rw [hx] at hz
      exact hz.2.symm
  · exact (bbToD_chan s k r c).mpr ⟨h, hx⟩

theorem bbToD_chan_out (s : BBState) (k : Fin 2) (r c : Int) (h : ¬ inb8 r c) :
    (bbToD s).chan k r c = false := by
  rcases hy : (bbToD s).chan k r c with _ | _
  · rfl
  · exact absurd ((bbToD_chan s k r c).mp hy).1 h

/-- The `update_master` accumulated by `StateEnvBitBoard._get_next_board`. -/
def updateMasterBB (s : BBState) (a : Nat) : Nat :=
  let bp := s.board s.p
  let bnp := s.board (notP s.p)
  let um : Nat := 0
  let um := um ||| dirFlip (fun x => x <<< 1) 18374403900871474942 bp bnp a
  let um := um ||| dirFlip (fun x => x >>> 1) 9187201950435737471 bp bnp a
  let um := um ||| dirFlip (fun x => x <<< 8) 18446744073709551360 bp bnp a
  let um := um ||| dirFlip (fun x => x >>> 8) 72057594037927935 bp bnp a
  let um := um ||| dirFlip (fun x => x <<< 7) 9187201950435737344 bp bnp a
  let um := um ||| dirFlip (fun x => x <<< 9) 18374403900871474688 bp bnp a
  let um := um ||| dirFlip (fun x => x >>> 9) 35887507618889599 bp bnp a
  let um := um ||| dirFlip (fun x => x >>> 7) 71775015237779198 bp bnp a
  um

theorem getNextBoardBB_eq (s : BBState) (a : Nat) :
    getNextBoardBB s a =
      if s.p = 0 then
        ⟨s.board s.p ||| updateMasterBB s a ||| a,
          s.board (notP s.p) - updateMasterBB s a, s.p⟩
      else
        ⟨s.board (notP s.p) - updateMasterBB s a,
          s.board s.p ||| updateMasterBB s a ||| a, s.p⟩ := rfl

theorem getNextBoardBB_p (s : BBState) (a : Nat) : (getNextBoardBB s a).p = s.p := by
  rw [getNextBoardBB_eq]
  split <;> rfl

theorem getNextBoardBB_board_cur (s : BBState) (a : Nat) :
    (getNextBoardBB s a).board s.p =
      s.board s.p ||| updateMasterBB s a ||| a := by
  rcases fin2_cases s.p with hp | hp <;>
    rw [getNextBoardBB_eq, hp] <;> simp [BBState.board, notP, hp]

theorem getNextBoardBB_board_opp (s : BBState) (a : Nat) :
    (getNextBoardBB s a).board (notP s.p) =
      s.board (notP s.p) - updateMasterBB s a := by
  rcases fin2_cases s.p with hp | hp <;>
    rw [getNextBoardBB_eq, hp] <;> simp [BBState.board, notP, hp]

theorem dstate_eq {x y : DState}
    (hc : ∀ (k : Fin 2) (r c : Int), x.chan k r c = y.chan k r c)
    (hp : x.player = y.player) : x = y := by
  cases x
  cases y
  simp only [DState.mk.injEq]
  refine ⟨?_, ?_, hp⟩
  · funext r c
    exact hc 0 r c
  · funext r c
    exact hc 1 r c

theorem stepPn_mm : StepP (fun x => x <<< 9) 18374403900871474688
    (-(-1 : Int)) (-(-1 : Int)) := by
  rw [show (-(-1 : Int)) = 1 by norm_num]
  exact stepP_leftTop

theorem stepPn_m0 : StepP (fun x => x <<< 8) 18446744073709551360
    (-(-1 : Int)) (-(0 : Int)) := by
  rw [show (-(-1 : Int)) = 1 by norm_num, show (-(0 : Int)) = 0 by norm_num]
  exact stepP_top

theorem stepPn_m1 : StepP (fun x => x <<< 7) 9187201950435737344
    (-(-1 : Int)) (-(1 : Int)) := by
  rw [show (-(-1 : Int)) = 1 by norm_num]
  exact stepP_rightTop

theorem stepPn_0m : StepP (fun x => x <<< 1) 18374403900871474942
    (-(0 : Int)) (-(-1 : Int)) := by
  rw [show (-(-1 : Int)) = 1 by norm_num, show (-(0 : Int)) = 0 by norm_num]
  exact stepP_left

theorem stepPn_01 : StepP (fun x => x >>> 1) 9187201950435737471
    (-(0 : Int)) (-(1 : Int)) := by
  rw [show (-(0 : Int)) = 0 by norm_num]
  exact stepP_right

theorem stepPn_1m : StepP (fun x => x >>> 7) 71775015237779198
    (-(1 : Int)) (-(-1 : Int)) := by
  rw [show (-(-1 : Int)) = 1 by norm_num]
  exact stepP_leftBottom

theorem stepPn_10 : StepP (fun x => x >>> 8) 72057594037927935
    (-(1 : Int)) (-(0 : Int)) := by
  rw [show (-(0 : Int)) = 0 by norm_num]
  exact stepP_bottom

theorem stepPn_11 : StepP (fun x => x >>> 9) 35887507618889599
    (-(1 : Int)) (-(1 : Int)) := stepP_rightBottom

theorem DirData_mk (N : Nat) (ds : DState) (cur : Fin 2) (row col : Int)
    (jf : Int × Int → Nat) (d : Int × Int) (j0 : Nat)
    (hjf : jf d = j0) (h2 : 2 ≤ j0) (h9 : j0 ≤ N + 1)
    (hd1 : d.1 = -1 ∨ d.1 = 0 ∨ d.1 = 1) (hd2 : d.2 = -1 ∨ d.2 = 0 ∨ d.2 = 1)
    (hne : ¬ (d.1 = 0 ∧ d.2 = 0))
    (htup : (dirCheck N ds cur row col d.1 d.2).1 = true →
      dirCheck N ds cur row col d.1 d.2 =
        (true, row + (j0 : Int) * d.1, col + (j0 : Int) * d.2)) :
    DirData N ds cur row col jf d := by
  rcases hfound : (dirCheck N ds cur row col d.1 d.2).1 with _ | _
  · exact Or.inl hfound
  · right
    rw [hjf]
    exact ⟨h2, h9, htup hfound, hd1, hd2, hne⟩

theorem dirFlip_bits {sh : Nat → Nat} {mask : Nat} {er ec : Int} {j0 : Nat}
    {P : Prop} [Decidable P] (s : BBState) (ar ac : Int)
    (hiff : ((dirCheck 8 (bbToD s) s.p ar ac er ec).1 = true) ↔ P)
    (hflip : dirFlip sh mask (s.board s.p) (s.board (notP s.p)) (2 ^ bitIdx ar ac) =
      if P then raySeg ar ac er ec 1 (j0 - 1) else 0)
    (hmids : (dirCheck 8 (bbToD s) s.p ar ac er ec).1 = true →
      ∀ q : Nat, 1 ≤ q → q < j0 →
        inb8 (ar + (q : Int) * er) (ac + (q : Int) * ec) ∧
          (s.board (notP s.p)).testBit (bitIdx (ar + (q : Int) * er)
            (ac + (q : Int) * ec)) = true) :
    dirFlip sh mask (s.board s.p) (s.board (notP s.p)) (2 ^ bitIdx ar ac) < 2 ^ 64 ∧
    ∀ r c : Int, inb8 r c →
      ((dirFlip sh mask (s.board s.p) (s.board (notP s.p))
          (2 ^ bitIdx ar ac)).testBit (bitIdx r c) = true ↔
        ((dirCheck 8 (bbToD s) s.p ar ac er ec).1 = true ∧
          ∃ q : Nat, 1 ≤ q ∧ q < j0 ∧
            r = ar + (q : Int) * er ∧ c = ac + (q : Int) * ec)) := by
  by_cases hP : P
  · have hfound := hiff.mpr hP
    have hcells : ∀ q : Nat, 1 ≤ q → q < 1 + (j0 - 1) →
        inb8 (ar + (q : Int) * er) (ac + (q : Int) * ec) :=
      fun q hq1 hq2 => (hmids hfound q hq1 (by omega)).1
    rw [hflip, if_pos hP]
    refine ⟨raySeg_lt (j0 - 1) 1 hcells, ?_⟩
    intro r c hrc
    rw [raySeg_testBit (j0 - 1) 1 hcells r c hrc]
    constructor
    · rintro ⟨q, hq1, hq2, h3, h4⟩
      exact ⟨hfound, q, hq1, by omega, h3, h4⟩
    · rintro ⟨_, q, hq1, hq2, h3, h4⟩
      exact ⟨q, hq1, by omega, h3, h4⟩
  · rw [hflip, if_neg hP]
    refine ⟨Nat.two_pow_pos 64, ?_⟩
    intro r c hrc
    rw [Nat.zero_testBit]
    constructor
    · intro h
      exact absurd h (by simp)
    · rintro ⟨hfound, _⟩
      exact absurd (hiff.mp hfound) hP

/-- The two engines agree on move application: converting the bitboard
produced by `StateEnvBitBoard._get_next_board` for a single-bit action
equals running the dense `StateEnv._legal_moves_helper` in play mode at
the corresponding cell. -/
theorem nextBoard_agree (s : BBState) (hb : s.b < 2 ^ 64) (hw : s.w < 2 ^ 64)
    (hdis : s.b &&& s.w = 0) (ar ac : Int) (hin : inb8 ar ac)
    (hblank : (s.b ||| s.w).testBit (bitIdx ar ac) = false) :
    bbToD (getNextBoardBB s (2 ^ bitIdx ar ac)) = playD 8 (bbToD s) ar ac := by
  obtain ⟨jmm, hjmm2, hjmm9, hiffmm, hflipmm, htupmm, hmidsmm⟩ :=
    dir_package stepPn_mm (by norm_num) (by norm_num) (by norm_num) (by norm_num)
      s hb hw hdis ar ac hin
  obtain ⟨jm0, hjm02, hjm09, hiffm0, hflipm0, htupm0, hmidsm0⟩ :=
    dir_package stepPn_m0 (by norm_num) (by norm_num) (by norm_num) (by norm_num)
      s hb hw hdis ar ac hin
  obtain ⟨jm1, hjm12, hjm19, hiffm1, hflipm1, htupm1, hmidsm1⟩ :=
    dir_package stepPn_m1 (by norm_num) (by norm_num) (by norm_num) (by norm_num)
      s hb hw hdis ar ac hin
  obtain ⟨j0m, hj0m2, hj0m9, hiff0m, hflip0m, htup0m, hmids0m⟩ :=
    dir_package stepPn_0m (by norm_num) (by norm_num) (by norm_num) (by norm_num)
      s hb hw hdis ar ac hin
  obtain ⟨j01, hj012, hj019, hiff01, hflip01, htup01, hmids01⟩ :=
    dir_package stepPn_01 (by norm_num) (by norm_num) (by norm_num) (by norm_num)
      s hb hw hdis ar ac hin
  obtain ⟨j1m, hj1m2, hj1m9, hiff1m, hflip1m, htup1m, hmids1m⟩ :=
    dir_package stepPn_1m (by norm_num) (by norm_num) (by norm_num) (by norm_num)
      s hb hw hdis ar ac hin
  obtain ⟨j10, hj102, hj109, hiff10, hflip10, htup10, hmids10⟩ :=
    dir_package stepPn_10 (by norm_num) (by norm_num) (by norm_num) (by norm_num)
      s hb hw hdis ar ac hin
  obtain ⟨j11, hj112, hj119, hiff11, hflip11, htup11, hmids11⟩ :=
    dir_package stepPn_11 (by norm_num) (by norm_num) (by norm_num) (by norm_num)
      s hb hw hdis ar ac hin
  have hbitmm := dirFlip_bits s ar ac hiffmm hflipmm hmidsmm
  have hbitm0 := dirFlip_bits s ar ac hiffm0 hflipm0 hmidsm0
  have hbitm1 := dirFlip_bits s ar ac hiffm1 hflipm1 hmidsm1
  have hbit0m := dirFlip_bits s ar ac hiff0m hflip0m hmids0m
  have hbit01 := dirFlip_bits s ar ac hiff01 hflip01 hmids01
  have hbit1m := dirFlip_bits s ar ac hiff1m hflip1m hmids1m
  have hbit10 := dirFlip_bits s ar ac hiff10 hflip10 hmids10
  have hbit11 := dirFlip_bits s ar ac hiff11 hflip11 hmids11
  set jf : Int × Int → Nat := fun d =>
    if d.1 = -1 then
      (if d.2 = -1 then jmm else if d.2 = 0 then jm0 else jm1)
    else if d.1 = 0 then
      (if d.2 = -1 then j0m else j01)
    else
      (if d.2 = -1 then j1m else if d.2 = 0 then j10 else j11) with hjf
  have hjfmm : jf ((-1 : Int), (-1 : Int)) = jmm := by rw [hjf]; norm_num
  have hjfm0 : jf ((-1 : Int), (0 : Int)) = jm0 := by rw [hjf]; norm_num
  have hjfm1 : jf ((-1 : Int), (1 : Int)) = jm1 := by rw [hjf]; norm_num
  have hjf0m : jf ((0 : Int), (-1 : Int)) = j0m := by rw [hjf]; norm_num
  have hjf01 : jf ((0 : Int), (1 : Int)) = j01 := by rw [hjf]; norm_num
  have hjf1m : jf ((1 : Int), (-1 : Int)) = j1m := by rw [hjf]; norm_num
  have hjf10 : jf ((1 : Int), (0 : Int)) = j10 := by rw [hjf]; norm_num
  have hjf11 : jf ((1 : Int), (1 : Int)) = j11 := by rw [hjf]; norm_num
  have hdata : ∀ d ∈ dirList, DirData 8 (bbToD s) s.p ar ac jf d := by
    intro d hd
    fin_cases hd
    · exact DirData_mk 8 (bbToD s) s.p ar ac jf _ jmm hjfmm hjmm2 hjmm9
        (by norm_num) (by norm_num) (by norm_num) htupmm
    · exact DirData_mk 8 (bbToD s) s.p ar ac jf _ jm0 hjfm0 hjm02 hjm09
        (by norm_num) (by norm_num) (by norm_num) htupm0
    · exact DirData_mk 8 (bbToD s) s.p ar ac jf _ jm1 hjfm1 hjm12 hjm19
        (by norm_num) (by norm_num) (by norm_num) htupm1
    · exact DirData_mk 8 (bbToD s) s.p ar ac jf _ j0m hjf0m hj0m2 hj0m9
        (by norm_num) (by norm_num) (by norm_num) htup0m
    · exact DirData_mk 8 (bbToD s) s.p ar ac jf _ j01 hjf01 hj012 hj019
        (by norm_num) (by norm_num) (by norm_num) htup01
    · exact DirData_mk 8 (bbToD s) s.p ar ac jf _ j1m hjf1m hj1m2 hj1m9
        (by norm_num) (by norm_num) (by norm_num) htup1m
    · exact DirData_mk 8 (bbToD s) s.p ar ac jf _ j10 hjf10 hj102 hj109
        (by norm_num) (by norm_num) (by norm_num) htup10
    · exact DirData_mk 8 (bbToD s) s.p ar ac jf _ j11 hjf11 hj112 hj119
        (by norm_num) (by norm_num) (by norm_num) htup11
  have humlt : updateMasterBB s (2 ^ bitIdx ar ac) < 2 ^ 64 := by
    simp only [updateMasterBB]
    exact lor_lt_two_pow (lor_lt_two_pow (lor_lt_two_pow (lor_lt_two_pow
      (lor_lt_two_pow (lor_lt_two_pow (lor_lt_two_pow (lor_lt_two_pow
        (Nat.two_pow_pos 64) hbit0m.1) hbit01.1) hbitm0.1) hbit10.1)
          hbitm1.1) hbitmm.1) hbit11.1) hbit1m.1
  have humbit : ∀ r c : Int, inb8 r c →
      ((updateMasterBB s (2 ^ bitIdx ar ac)).testBit (bitIdx r c) = true ↔
        TouchedBy 8 (bbToD s) s.p ar ac jf dirList r c) := by
    intro r c hrc
    simp only [updateMasterBB]
    simp only [Nat.testBit_lor, Bool.or_eq_true, Nat.zero_testBit,
      Bool.false_eq_true, false_or]
    rw [hbit0m.2 r c hrc, hbit01.2 r c hrc, hbitm0.2 r c hrc, hbit10.2 r c hrc,
      hbitm1.2 r c hrc, hbitmm.2 r c hrc, hbit11.2 r c hrc, hbit1m.2 r c hrc]
    simp only [TouchedBy, dirList, List.mem_cons, List.not_mem_nil, or_false,
      exists_eq_or_imp, exists_eq_left, hjfmm, hjfm0, hjfm1, hjf0m, hjf01,
      hjf1m, hjf10, hjf11]
    constructor
    · rintro (((((((h | h) | h) | h) | h) | h) | h) | h)
      · exact Or.inr (Or.inr (Or.inr (Or.inl h)))
      · exact Or.inr (Or.inr (Or.inr (Or.inr (Or.inl h))))
      · exact Or.inr (Or.inl h)
      · exact Or.inr (Or.inr (Or.inr (Or.inr (Or.inr (Or.inr (Or.inl h))))))
      · exact Or.inr (Or.inr (Or.inl h))
      · exact Or.inl h
      · exact Or.inr (Or.inr (Or.inr (Or.inr (Or.inr (Or.inr (Or.inr h))))))
      · exact Or.inr (Or.inr (Or.inr (Or.inr (Or.inr (Or.inl h)))))
    · rintro (h | h | h | h | h | h | h | h)
      · exact Or.inl (Or.inl (Or.inr h))
      · exact Or.inl (Or.inl (Or.inl (Or.inl (Or.inl (Or.inr h)))))
      · exact Or.inl (Or.inl (Or.inl (Or.inr h)))
      · exact Or.inl (Or.inl (Or.inl (Or.inl (Or.inl (Or.inl (Or.inl h))))))
      · exact Or.inl (Or.inl (Or.inl (Or.inl (Or.inl (Or.inl (Or.inr h))))))
      · exact Or.inr h
      · exact Or.inl (Or.inl (Or.inl (Or.inl (Or.inr h))))
      · exact Or.inl (Or.inr h)
  have hTfacts : ∀ r c : Int, TouchedBy 8 (bbToD s) s.p ar ac jf dirList r c →
      inb8 r c ∧ (s.board (notP s.p)).testBit (bitIdx r c) = true := by
    rintro r c ⟨d, hd, hfound, q, hq1, hq2, hr, hc⟩
    fin_cases hd
    · rw [hjfmm] at hq2
      rw [hr, hc]
      exact hmidsmm hfound q hq1 hq2
    · rw [hjfm0] at hq2
      rw [hr, hc]
      exact hmidsm0 hfound q hq1 hq2
    · rw [hjfm1] at hq2
      rw [hr, hc]
      exact hmidsm1 hfound q hq1 hq2
    · rw [hjf0m] at hq2
      rw [hr, hc]
      exact hmids0m hfound q hq1 hq2
    · rw [hjf01] at hq2
      rw [hr, hc]
      exact hmids01 hfound q hq1 hq2
    · rw [hjf1m] at hq2
      rw [hr, hc]
      exact hmids1m hfound q hq1 hq2
    · rw [hjf10] at hq2
      rw [hr, hc]
      exact hmids10 hfound q hq1 hq2
    · rw [hjf11] at hq2
      rw [hr, hc]
      exact hmids11 hfound q hq1 hq2
  have hsub : updateMasterBB s (2 ^ bitIdx ar ac) &&& s.board (notP s.p) =
      updateMasterBB s (2 ^ bitIdx ar ac) := by
    apply Nat.eq_of_testBit_eq
    intro t
    rw [Nat.testBit_land]
    rcases ht : (updateMasterBB s (2 ^ bitIdx ar ac)).testBit t with _ | _
    · simp
    · have ht64 : t < 64 := by
        by_contra hge
        have h2 : updateMasterBB s (2 ^ bitIdx ar ac) < 2 ^ t :=
          lt_of_lt_of_le humlt (Nat.pow_le_pow_right (by omega) (by omega))
        rw [Nat.testBit_eq_false_of_lt h2] at ht
        exact Bool.noConfusion ht
      obtain ⟨r, c, hrc, hidx⟩ := cell_of_bit ht64
      subst hidx
      have hT := (humbit r c hrc).mp ht
      rw [(hTfacts r c hT).2]
      rfl
  have hblankD : blankAt (bbToD s) ar ac = true := by
    rw [bbToD_blank s ar ac hin, hblank]
    rfl
  have hbnp : s.board (notP s.p) < 2 ^ 64 := BBState.board_lt hb hw (notP s.p)
  have hRHS : playD 8 (bbToD s) ar ac =
      dirList.foldl (playStep 8 (bbToD s) s.p ar ac)
        (setCh (bbToD s) s.p ar ac true) := by
    rw [playD_eq, if_pos hblankD, bbToD_player]
  refine dstate_eq ?_ ?_
  · intro k r c
    rw [hRHS]
    by_cases hrc : inb8 r c
    · rw [bbToD_chan_eq _ k r c hrc]
      rcases fin2_eq_or k s.p with hk | hk
      · rw [hk, getNextBoardBB_board_cur, Nat.testBit_lor, Nat.testBit_lor]
        by_cases hT : TouchedBy 8 (bbToD s) s.p ar ac jf dirList r c
        · rw [(foldl_play_touched 8 (bbToD s) s.p ar ac jf r c dirList hdata hT
            (setCh (bbToD s) s.p ar ac true)).1]
          have hum := (humbit r c hrc).mpr hT
          simp [hum]
        · rw [foldl_play_untouched 8 (bbToD s) s.p ar ac jf r c s.p dirList
            hdata hT (setCh (bbToD s) s.p ar ac true), setCh_chan_eq]
          have humf : (updateMasterBB s (2 ^ bitIdx ar ac)).testBit
              (bitIdx r c) = false := by
            rcases hx : (updateMasterBB s (2 ^ bitIdx ar ac)).testBit
                (bitIdx r c) with _ | _
            · rfl
            · exact absurd ((humbit r c hrc).mp hx) hT
          by_cases hact : r = ar ∧ c = ac
          · rw [if_pos hact]
            have hA : (2 ^ bitIdx ar ac).testBit (bitIdx r c) = true := by
              rw [hact.1, hact.2, Nat.testBit_two_pow]
              simp
            simp [hA]
          · rw [if_neg hact]
            have hA : (2 ^ bitIdx ar ac).testBit (bitIdx r c) = false := by
              rw [Nat.testBit_two_pow]
              simp only [decide_eq_false_iff_not]
              intro he
              have hcell := bitIdx_inj hin hrc he
              exact hact ⟨hcell.1.symm, hcell.2.symm⟩
            rw [humf, hA, Bool.or_false, Bool.or_false,
              bbToD_chan_eq s s.p r c hrc]
      · rw [hk, getNextBoardBB_board_opp,
          testBit_sub_of_and_eq hbnp hsub (bitIdx r c)]
        by_cases hT : TouchedBy 8 (bbToD s) s.p ar ac jf dirList r c
        · rw [(foldl_play_touched 8 (bbToD s) s.p ar ac jf r c dirList hdata hT
            (setCh (bbToD s) s.p ar ac true)).2]
          have hum := (humbit r c hrc).mpr hT
          simp [hum]
        · rw [foldl_play_untouched 8 (bbToD s) s.p ar ac jf r c (notP s.p)
            dirList hdata hT (setCh (bbToD s) s.p ar ac true),
            setCh_chan_ne (bbToD s) s.p (notP s.p) (notP_ne s.p) ar ac true r c]
          have humf : (updateMasterBB s (2 ^ bitIdx ar ac)).testBit
              (bitIdx r c) = false := by
            rcases hx : (updateMasterBB s (2 ^ bitIdx ar ac)).testBit
                (bitIdx r c) with _ | _
            · rfl
            · exact absurd ((humbit r c hrc).mp hx) hT
          rw [humf, bbToD_chan_eq s (notP s.p) r c hrc]
          simp
    · rw [bbToD_chan_out _ k r c hrc]
      have hnt : ¬ TouchedBy 8 (bbToD s) s.p ar ac jf dirList r c := by
        intro hT
        exact hrc (hTfacts r c hT).1
      rw [foldl_play_untouched 8 (bbToD s) s.p ar ac jf r c k dirList hdata hnt
        (setCh (bbToD s) s.p ar ac true)]
      rcases fin2_eq_or k s.p with hk | hk
      · rw [hk, setCh_chan_eq,
          if_neg (show ¬ (r = ar ∧ c = ac) by rintro ⟨rfl, rfl⟩; exact hrc hin)]
        exact (bbToD_chan_out s s.p r c hrc).symm
      · rw [hk, setCh_chan_ne (bbToD s) s.p (notP s.p) (notP_ne s.p) ar ac true r c]
        exact (bbToD_chan_out s (notP s.p) r c hrc).symm
  · rw [bbToD_player, getNextBoardBB_p, hRHS, foldl_play_player, setCh_player,
      bbToD_player]

theorem notP_notP (k : Fin 2) : notP (notP k) = k := by
  fin_cases k <;> rfl

theorem board_land (s : BBState) (p : Fin 2) :
    s.board p &&& s.board (notP p) = s.b &&& s.w := by
  fin_cases p <;> simp [BBState.board, notP, Nat.land_comm]

theorem bbToD_setP (s : BBState) (q : Fin 2) :
    bbToD { s with p := q } = { bbToD s with player := q } := rfl

theorem mk_maxv (n : Int) : (mkStateEnvBitBoard n).maxv = 0xFFFFFFFFFFFFFFFF := rfl

theorem updateMaster_facts (s : BBState) (hb : s.b < 2 ^ 64) (hw : s.w < 2 ^ 64)
    (hdis : s.b &&& s.w = 0) (ar ac : Int) (hin : inb8 ar ac) :
    updateMasterBB s (2 ^ bitIdx ar ac) < 2 ^ 64 ∧
      updateMasterBB s (2 ^ bitIdx ar ac) &&& s.board (notP s.p) =
        updateMasterBB s (2 ^ bitIdx ar ac) := by
  obtain ⟨jmm, hjmm2, hjmm9, hiffmm, hflipmm, htupmm, hmidsmm⟩ :=
    dir_package stepPn_mm (by norm_num) (by norm_num) (by norm_num) (by norm_num)
      s hb hw hdis ar ac hin
  obtain ⟨jm0, hjm02, hjm09, hiffm0, hflipm0, htupm0, hmidsm0⟩ :=
    dir_package stepPn_m0 (by norm_num) (by norm_num) (by norm_num) (by norm_num)
      s hb hw hdis ar ac hin
  obtain ⟨jm1, hjm12, hjm19, hiffm1, hflipm1, htupm1, hmidsm1⟩ :=
    dir_package stepPn_m1 (by norm_num) (by norm_num) (by norm_num) (by norm_num)
      s hb hw hdis ar ac hin
  obtain ⟨j0m, hj0m2, hj0m9, hiff0m, hflip0m, htup0m, hmids0m⟩ :=
    dir_package stepPn_0m (by norm_num) (by norm_num) (by norm_num) (by norm_num)
      s hb hw hdis ar ac hin
  obtain ⟨j01, hj012, hj019, hiff01, hflip01, htup01, hmids01⟩ :=
    dir_package stepPn_01 (by norm_num) (by norm_num) (by norm_num) (by norm_num)
      s hb hw hdis ar ac hin
  obtain ⟨j1m, hj1m2, hj1m9, hiff1m, hflip1m, htup1m, hmids1m⟩ :=
    dir_package stepPn_1m (by norm_num) (by norm_num) (by norm_num) (by norm_num)
      s hb hw hdis ar ac hin
  obtain ⟨j10, hj102, hj109, hiff10, hflip10, htup10, hmids10⟩ :=
    dir_package stepPn_10 (by norm_num) (by norm_num) (by norm_num) (by norm_num)
      s hb hw hdis ar ac hin
  obtain ⟨j11, hj112, hj119, hiff11, hflip11, htup11, hmids11⟩ :=
    dir_package stepPn_11 (by norm_num) (by norm_num) (by norm_num) (by norm_num)
      s hb hw hdis ar ac hin
  have hbitmm := dirFlip_bits s ar ac hiffmm hflipmm hmidsmm
  have hbitm0 := dirFlip_bits s ar ac hiffm0 hflipm0 hmidsm0
  have hbitm1 := dirFlip_bits s ar ac hiffm1 hflipm1 hmidsm1
  have hbit0m := dirFlip_bits s ar ac hiff0m hflip0m hmids0m
  have hbit01 := dirFlip_bits s ar ac hiff01 hflip01 hmids01
  have hbit1m := dirFlip_bits s ar ac hiff1m hflip1m hmids1m
  have hbit10 := dirFlip_bits s ar ac hiff10 hflip10 hmids10
  have hbit11 := dirFlip_bits s ar ac hiff11 hflip11 hmids11
  have humlt : updateMasterBB s (2 ^ bitIdx ar ac) < 2 ^ 64 := by
    simp only [updateMasterBB]
    exact lor_lt_two_pow (lor_lt_two_pow (lor_lt_two_pow (lor_lt_two_pow
      (lor_lt_two_pow (lor_lt_two_pow (lor_lt_two_pow (lor_lt_two_pow
        (Nat.two_pow_pos 64) hbit0m.1) hbit01.1) hbitm0.1) hbit10.1)
          hbitm1.1) hbitmm.1) hbit11.1) hbit1m.1
  refine ⟨humlt, ?_⟩
  apply Nat.eq_of_testBit_eq
  intro t
  rw [Nat.testBit_land]
  rcases ht : (updateMasterBB s (2 ^ bitIdx ar ac)).testBit t with _ | _
  · simp
  · have ht64 : t < 64 := by
      by_contra hge
      have h2 : updateMasterBB s (2 ^ bitIdx ar ac) < 2 ^ t :=
        lt_of_lt_of_le humlt (Nat.pow_le_pow_right (by omega) (by omega))
      rw [Nat.testBit_eq_false_of_lt h2] at ht
      exact Bool.noConfusion ht
    obtain ⟨r, c, hrc, hidx⟩ := cell_of_bit ht64
    subst hidx
    have hbnp : (s.board (notP s.p)).testBit (bitIdx r c) = true := by
      have h2 := ht
      simp only [updateMasterBB, Nat.testBit_lor, Bool.or_eq_true, Nat.zero_testBit,
        Bool.false_eq_true, false_or] at h2
      rw [hbit0m.2 r c hrc, hbit01.2 r c hrc, hbitm0.2 r c hrc, hbit10.2 r c hrc,
        hbitm1.2 r c hrc, hbitmm.2 r c hrc, hbit11.2 r c hrc, hbit1m.2 r c hrc] at h2
      rcases h2 with (((((((⟨hf, q, h1, h2q, hr, hc⟩ | ⟨hf, q, h1, h2q, hr, hc⟩) |
        ⟨hf, q, h1, h2q, hr, hc⟩) | ⟨hf, q, h1, h2q, hr, hc⟩) |
        ⟨hf, q, h1, h2q, hr, hc⟩) | ⟨hf, q, h1, h2q, hr, hc⟩) |
        ⟨hf, q, h1, h2q, hr, hc⟩) | ⟨hf, q, h1, h2q, hr, hc⟩)
      · rw [hr, hc]
        exact (hmids0m hf q h1 h2q).2
      · rw [hr, hc]
        exact (hmids01 hf q h1 h2q).2
      · rw [hr, hc]
        exact (hmidsm0 hf q h1 h2q).2
      · rw [hr, hc]
        exact (hmids10 hf q h1 h2q).2
      · rw [hr, hc]
        exact (hmidsm1 hf q h1 h2q).2
      · rw [hr, hc]
        exact (hmidsmm hf q h1 h2q).2
      · rw [hr, hc]
        exact (hmids11 hf q h1 h2q).2
      · rw [hr, hc]
        exact (hmids1m hf q h1 h2q).2
    rw [hbnp]
    rfl

theorem nextBB_valid (s : BBState) (hb : s.b < 2 ^ 64) (hw : s.w < 2 ^ 64)
    (hdis : s.b &&& s.w = 0) (ar ac : Int) (hin : inb8 ar ac)
    (hblank : (s.b ||| s.w).testBit (bitIdx ar ac) = false) :
    (getNextBoardBB s (2 ^ bitIdx ar ac)).b < 2 ^ 64 ∧
    (getNextBoardBB s (2 ^ bitIdx ar ac)).w < 2 ^ 64 ∧
    (getNextBoardBB s (2 ^ bitIdx ar ac)).b &&&
      (getNextBoardBB s (2 ^ bitIdx ar ac)).w = 0 := by
  obtain ⟨humlt, hsub⟩ := updateMaster_facts s hb hw hdis ar ac hin
  have hbp : s.board s.p < 2 ^ 64 := BBState.board_lt hb hw s.p
  have hbnp : s.board (notP s.p) < 2 ^ 64 := BBState.board_lt hb hw (notP s.p)
  have hcur : s.board s.p ||| updateMasterBB s (2 ^ bitIdx ar ac) |||
      2 ^ bitIdx ar ac < 2 ^ 64 :=
    lor_lt_two_pow (lor_lt_two_pow hbp humlt) (pow_bitIdx_lt hin)
  have hopp : s.board (notP s.p) - updateMasterBB s (2 ^ bitIdx ar ac) < 2 ^ 64 :=
    lt_of_le_of_lt (Nat.sub_le _ _) hbnp
  have hdisb := board_disjoint s hdis s.p
  have hdis2 : (s.board s.p ||| updateMasterBB s (2 ^ bitIdx ar ac) |||
      2 ^ bitIdx ar ac) &&&
      (s.board (notP s.p) - updateMasterBB s (2 ^ bitIdx ar ac)) = 0 := by
    apply Nat.eq_of_testBit_eq
    intro t
    rw [Nat.testBit_land, Nat.testBit_lor, Nat.testBit_lor, Nat.zero_testBit,
      testBit_sub_of_and_eq hbnp hsub t]
    rcases hum : (updateMasterBB s (2 ^ bitIdx ar ac)).testBit t with _ | _
    · rcases hbpt : (s.board s.p).testBit t with _ | _
      · rcases hat : (2 ^ bitIdx ar ac).testBit t with _ | _
        · simp [hat]
        · have hteq : bitIdx ar ac = t := by
            rw [Nat.testBit_two_pow] at hat
            exact of_decide_eq_true hat
          subst hteq
          have hoc : (s.board s.p ||| s.board (notP s.p)).testBit
              (bitIdx ar ac) = false := by
            rw [board_lor]
            exact hblank
          rw [Nat.testBit_lor] at hoc
          have hnp : (s.board (notP s.p)).testBit (bitIdx ar ac) = false :=
            (Bool.or_eq_false_iff.mp hoc).2
          simp [hnp]
      · have hnp : (s.board (notP s.p)).testBit t = false := by
          have h3 := congrArg (fun z => z.testBit t) hdisb
          simp only [Nat.testBit_land, Nat.zero_testBit] at h3
          rcases hy : (s.board (notP s.p)).testBit t with _ | _
          · rfl
          · rw [hbpt, hy] at h3
            exact Bool.noConfusion h3
        simp [hnp]
    · simp
  rw [getNextBoardBB_eq]
  split
  · exact ⟨hcur, hopp, hdis2⟩
  · refine ⟨hopp, hcur, ?_⟩
    rw [Nat.land_comm]
    exact hdis2

theorem sum_range_mul (f : Nat → Nat) : ∀ m n : Nat,
    ∑ r ∈ Finset.range m, ∑ c ∈ Finset.range n, f (r * n + c) =
      ∑ k ∈ Finset.range (m * n), f k := by
  intro m
  induction m with
  | zero =>
    intro n
    simp
  | succ m ih =>
    intro n
    rw [Finset.sum_range_succ, ih n, Nat.succ_mul]
    conv_rhs =>
      rw [Finset.range_eq_Ico,
        ← Finset.sum_Ico_consecutive f (Nat.zero_le (m * n))
          (Nat.le_add_right (m * n) n),
        ← Finset.range_eq_Ico, Finset.sum_Ico_eq_sum_range]
    simp only [Nat.add_sub_cancel_left]

theorem gridSum_bitToGrid (x : Nat) :
    gridSum 8 (bitToGrid 8 x) =
      ∑ t ∈ Finset.range 64, (if x.testBit t then 1 else 0) := by
  have hcell : ∀ r c : Nat, r < 8 → c < 8 →
      bitToGrid 8 x (r : Int) (c : Int) = x.testBit (63 - (r * 8 + c)) := by
    intro r c hr hc
    unfold bitToGrid
    have hchk : checkLegalIndex 8 (r : Int) (c : Int) = true :=
      check8_iff_inb8.mpr (by unfold inb8; omega)
    rw [hchk, Bool.true_and]
    congr 1
  have h1 : gridSum 8 (bitToGrid 8 x) =
      ∑ r ∈ Finset.range 8, ∑ c ∈ Finset.range 8,
        (if x.testBit (63 - (r * 8 + c)) then 1 else 0) := by
    unfold gridSum
    refine Finset.sum_congr rfl fun r hr => Finset.sum_congr rfl fun c hc => ?_
    rw [hcell r c (Finset.mem_range.mp hr) (Finset.mem_range.mp hc)]
  rw [h1, sum_range_mul (fun k => if x.testBit (63 - k) then 1 else 0) 8 8]
  have h63 : (63 : Nat) = 64 - 1 := by norm_num
  simp only [h63]
  exact Finset.sum_range_reflect (fun t => if x.testBit t then 1 else 0) 64

theorem gridSum_zero_iff (N : Nat) (g : Int → Int → Bool) :
    gridSum N g = 0 ↔
      ∀ r c : Nat, r < N → c < N → g (r : Int) (c : Int) = false := by
  unfold gridSum
  rw [Finset.sum_eq_zero_iff]
  constructor
  · intro h r c hr hc
    have h2 := h r (Finset.mem_range.mpr hr)
    rw [Finset.sum_eq_zero_iff] at h2
    have h3 := h2 c (Finset.mem_range.mpr hc)
    rcases hg : g (r : Int) (c : Int) with _ | _
    · rfl
    · rw [hg] at h3
      simp at h3
  · intro h r hr
    rw [Finset.sum_eq_zero_iff]
    intro c hc
    rw [h r c (Finset.mem_range.mp hr) (Finset.mem_range.mp hc)]
    simp

theorem lm_zero_iff (n : Int) (s : BBState) (hb : s.b < 2 ^ 64)
    (hw : s.w < 2 ^ 64) :
    (gridSum 8 (legalMovesD 8 (bbToD s)) = 0 ↔
      legalMovesBB (mkStateEnvBitBoard n) s = 0) := by
  rw [gridSum_zero_iff]
  constructor
  · intro h
    apply Nat.eq_of_testBit_eq
    intro t
    rw [Nat.zero_testBit]
    rcases Nat.lt_or_ge t 64 with ht | ht
    · obtain ⟨r, c, hrc, hidx⟩ := cell_of_bit ht
      subst hidx
      rcases hx : (legalMovesBB (mkStateEnvBitBoard n) s).testBit (bitIdx r c)
          with _ | _
      · rfl
      · have hd := (legal_agree n s hb hw r c hrc).mp hx
        obtain ⟨h1, h2, h3, h4⟩ := hrc
        have h5 := h r.toNat c.toNat (by omega) (by omega)
        rw [Int.toNat_of_nonneg h1, Int.toNat_of_nonneg h3] at h5
        rw [h5] at hd
        exact Bool.noConfusion hd
    · exact Nat.testBit_eq_false_of_lt
        (lt_of_lt_of_le
          (legalMovesBB_lt (mkStateEnvBitBoard n) s (by rw [mk_maxv]; norm_num))
          (Nat.pow_le_pow_right (by omega) ht))
  · intro h r c hr hc
    have hrc : inb8 (r : Int) (c : Int) := by unfold inb8; omega
    rcases hx : legalMovesD 8 (bbToD s) (r : Int) (c : Int) with _ | _
    · rfl
    · have h2 := (legal_agree n s hb hw (r : Int) (c : Int) hrc).mpr hx
      rw [h, Nat.zero_testBit] at h2
      exact Bool.noConfusion h2

theorem coinSum_bbToD (s : BBState) :
    coinSum 8 (bbToD s) =
      ∑ t ∈ Finset.range 64,
        ((if s.b.testBit t then 1 else 0) + (if s.w.testBit t then 1 else 0)) := by
  unfold coinSum
  have hB : (bbToD s).black = bitToGrid 8 s.b := rfl
  have hW : (bbToD s).white = bitToGrid 8 s.w := rfl
  rw [hB, hW, gridSum_bitToGrid, gridSum_bitToGrid, ← Finset.sum_add_distrib]

theorem coinSum_full_iff (s : BBState) (hb : s.b < 2 ^ 64) (hw : s.w < 2 ^ 64)
    (hdis : s.b &&& s.w = 0) :
    (coinSum 8 (bbToD s) = 8 * 8 ↔ s.b ||| s.w = 0xFFFFFFFFFFFFFFFF) := by
  rw [coinSum_bbToD]
  have hterm : ∀ t : Nat,
      (if s.b.testBit t then 1 else 0) + (if s.w.testBit t then 1 else 0) =
        (if (s.b ||| s.w).testBit t then 1 else 0) := by
    intro t
    have hnb : s.b.testBit t = true → s.w.testBit t = false := by
      intro h1
      have h3 := congrArg (fun z => z.testBit t) hdis
      simp only [Nat.testBit_land, Nat.zero_testBit] at h3
      rcases hy : s.w.testBit t with _ | _
      · rfl
      · rw [h1, hy] at h3
        exact Bool.noConfusion h3
    rw [Nat.testBit_lor]
    rcases hx : s.b.testBit t with _ | _ <;> rcases hy : s.w.testBit t with _ | _
    · simp
    · simp
    · simp
    · have h2 := hnb hx
      rw [hy] at h2
      exact Bool.noConfusion h2
  rw [Finset.sum_congr rfl (fun t _ => hterm t)]
  constructor
  · intro hsum
    apply Nat.eq_of_testBit_eq
    intro t
    rw [testBit_maxv]
    rcases Nat.lt_or_ge t 64 with ht | ht
    · rcases hx : (s.b ||| s.w).testBit t with _ | _
      · exfalso
        have hlt : ∑ u ∈ Finset.range 64,
            (if (s.b ||| s.w).testBit u then 1 else 0) <
            ∑ u ∈ Finset.range 64, 1 := by
          apply Finset.sum_lt_sum
          · intro i _
            split <;> omega
          · exact ⟨t, Finset.mem_range.mpr ht, by rw [hx]; simp⟩
        rw [hsum, Finset.sum_const, Finset.card_range] at hlt
        simp at hlt
      · simp [ht]
    · rw [Nat.testBit_eq_false_of_lt
        (lt_of_lt_of_le (lor_lt_two_pow hb hw) (Nat.pow_le_pow_right (by omega) ht))]
      simp
      omega
  · intro hful
    rw [hful]
    have hone : ∀ t ∈ Finset.range 64,
        (if (0xFFFFFFFFFFFFFFFF : Nat).testBit t then 1 else 0) = 1 := by
      intro t ht2
      rw [testBit_maxv]
      simp [Finset.mem_range.mp ht2]
    rw [Finset.sum_congr rfl hone, Finset.sum_const, Finset.card_range]
    simp

theorem legal_agree_eq (n : Int) (s : BBState) (hb : s.b < 2 ^ 64)
    (hw : s.w < 2 ^ 64) (r c : Int) (h : inb8 r c) :
    legalMovesD 8 (bbToD s) r c =
      (legalMovesBB (mkStateEnvBitBoard n) s).testBit (bitIdx r c) :=
  Bool.eq_iff_iff.mpr (legal_agree n s hb hw r c h).symm

/-- The two engines agree on `step`: for a valid position and a
single-bit action on an empty in-board cell, the next state (under
conversion), the per-cell legal-move masks, the player to move and the
done flag all coincide. -/
theorem step_agree (n : Int) (s : BBState) (hb : s.b < 2 ^ 64) (hw : s.w < 2 ^ 64)
    (hdis : s.b &&& s.w = 0) (ar ac : Int) (hin : inb8 ar ac)
    (hblank : (s.b ||| s.w).testBit (bitIdx ar ac) = false) :
    (stepD 8 (bbToD s) (ar.toNat * 8 + ac.toNat)).1 =
        bbToD (stepBB (mkStateEnvBitBoard n) s (2 ^ bitIdx ar ac)).1 ∧
    (∀ r c : Int, inb8 r c →
      (stepD 8 (bbToD s) (ar.toNat * 8 + ac.toNat)).2.1 r c =
        (stepBB (mkStateEnvBitBoard n) s
          (2 ^ bitIdx ar ac)).2.1.testBit (bitIdx r c)) ∧
    (stepD 8 (bbToD s) (ar.toNat * 8 + ac.toNat)).2.2.1 =
      (stepBB (mkStateEnvBitBoard n) s (2 ^ bitIdx ar ac)).2.2.1 ∧
    (stepD 8 (bbToD s) (ar.toNat * 8 + ac.toNat)).2.2.2 =
      (stepBB (mkStateEnvBitBoard n) s (2 ^ bitIdx ar ac)).2.2.2 := by
  obtain ⟨h1, h2, h3, h4⟩ := hin
  have hdiv : (ar.toNat * 8 + ac.toNat) / 8 = ar.toNat := by omega
  have hmod : (ar.toNat * 8 + ac.toNat) % 8 = ac.toNat := by omega
  have hnext := nextBoard_agree s hb hw hdis ar ac ⟨h1, h2, h3, h4⟩ hblank
  simp only [stepD, stepBB]
  rw [hdiv, hmod, Int.toNat_of_nonneg h1, Int.toNat_of_nonneg h3]
  rw [← hnext]
  obtain ⟨hvb, hvw, hvd⟩ :=
    nextBB_valid s hb hw hdis ar ac ⟨h1, h2, h3, h4⟩ hblank
  set X := getNextBoardBB s (2 ^ bitIdx ar ac) with hX
  rw [notP_notP]
  have hlm1 : gridSum 8 (legalMovesD 8
      ({ black := (bbToD X).black, white := (bbToD X).white,
         player := notP (bbToD s).player } : DState)) = 0 ↔
      legalMovesBB (mkStateEnvBitBoard n)
        ({ b := X.b, w := X.w, p := notP s.p } : BBState) = 0 :=
    lm_zero_iff n ⟨X.b, X.w, notP s.p⟩ hvb hvw
  have hlm2 : gridSum 8 (legalMovesD 8
      ({ black := (bbToD X).black, white := (bbToD X).white,
         player := (bbToD s).player } : DState)) = 0 ↔
      legalMovesBB (mkStateEnvBitBoard n)
        ({ b := X.b, w := X.w, p := s.p } : BBState) = 0 :=
    lm_zero_iff n ⟨X.b, X.w, s.p⟩ hvb hvw
  have hfull : coinSum 8
      ({ black := (bbToD X).black, white := (bbToD X).white,
         player := notP (bbToD s).player } : DState) = 8 * 8 ↔
      X.b ||| X.w = (mkStateEnvBitBoard n).maxv := by
    rw [mk_maxv]
    exact coinSum_full_iff ⟨X.b, X.w, notP s.p⟩ hvb hvw hvd
  by_cases hA : legalMovesBB (mkStateEnvBitBoard n)
      ({ b := X.b, w := X.w, p := notP s.p } : BBState) = 0
  · rw [if_pos hA, if_pos (hlm1.mpr hA)]
    by_cases hB : X.b ||| X.w = (mkStateEnvBitBoard n).maxv
    · rw [if_pos hB, if_pos (hfull.mpr hB)]
      exact ⟨rfl,
        fun r c hrc => legal_agree_eq n ⟨X.b, X.w, notP s.p⟩ hvb hvw r c hrc,
        rfl, rfl⟩
    · rw [if_neg hB, if_neg (fun hx => hB (hfull.mp hx))]
      by_cases hC : legalMovesBB (mkStateEnvBitBoard n)
          ({ b := X.b, w := X.w, p := s.p } : BBState) = 0
      · rw [if_pos hC, if_pos (hlm2.mpr hC)]
        exact ⟨rfl,
          fun r c hrc => legal_agree_eq n ⟨X.b, X.w, s.p⟩ hvb hvw r c hrc,
          rfl, rfl⟩
      · rw [if_neg hC, if_neg (fun hx => hC (hlm2.mp hx))]
        exact ⟨rfl,
          fun r c hrc => legal_agree_eq n ⟨X.b, X.w, s.p⟩ hvb hvw r c hrc,
          rfl, rfl⟩
  · rw [if_neg hA, if_neg (fun hx => hA (hlm1.mp hx))]
    exact ⟨rfl,
      fun r c hrc => legal_agree_eq n ⟨X.b, X.w, notP s.p⟩ hvb hvw r c hrc,
      rfl, rfl⟩

theorem stepBB_fields (env : BBEnv) (s : BBState) (a : Nat) :
    (stepBB env s a).1.b = (getNextBoardBB s a).b ∧
    (stepBB env s a).1.w = (getNextBoardBB s a).w := by
  simp only [stepBB]
  split
  · split
    · exact ⟨rfl, rfl⟩
    · split
      · exact ⟨rfl, rfl⟩
      · exact ⟨rfl, rfl⟩
  · exact ⟨rfl, rfl⟩

theorem legal_blank (n : Int) (s : BBState) (hb : s.b < 2 ^ 64)
    (hw : s.w < 2 ^ 64) (r c : Int) (hin : inb8 r c)
    (hleg : (legalMovesBB (mkStateEnvBitBoard n) s).testBit (bitIdx r c) = true) :
    (s.b ||| s.w).testBit (bitIdx r c) = false := by
  have h := (legalMovesBB_testBit n s hb hw r c hin).mp hleg
  rw [board_lor] at h
  exact h.1

theorem occ_after (s : BBState) (hb : s.b < 2 ^ 64) (hw : s.w < 2 ^ 64)
    (hdis : s.b &&& s.w = 0) (r c : Int) (hin : inb8 r c) :
    (getNextBoardBB s (2 ^ bitIdx r c)).b ||| (getNextBoardBB s (2 ^ bitIdx r c)).w =
      (s.b ||| s.w) ||| 2 ^ bitIdx r c := by
  obtain ⟨hum, hsub⟩ := updateMaster_facts s hb hw hdis r c hin
  have hsubbit : ∀ t : Nat, (updateMasterBB s (2 ^ bitIdx r c)).testBit t = true →
      (s.board (notP s.p)).testBit t = true := by
    intro t h
    have h2 := congrArg (fun z => z.testBit t) hsub
    simp only [Nat.testBit_land] at h2
    rw [h] at h2
    rcases hy : (s.board (notP s.p)).testBit t with _ | _
    · rw [hy] at h2
      simp at h2
    · rfl
  have hboards : (getNextBoardBB s (2 ^ bitIdx r c)).b |||
      (getNextBoardBB s (2 ^ bitIdx r c)).w =
      (s.board s.p ||| updateMasterBB s (2 ^ bitIdx r c) ||| 2 ^ bitIdx r c) |||
        (s.board (notP s.p) - updateMasterBB s (2 ^ bitIdx r c)) := by
    rw [getNextBoardBB_eq]
    split
    · rfl
    · exact Nat.lor_comm _ _
  rw [hboards, ← board_lor s s.p]
  apply Nat.eq_of_testBit_eq
  intro t
  simp only [Nat.testBit_lor,
    testBit_sub_of_and_eq (BBState.board_lt hb hw (notP s.p)) hsub t]
  rcases hu : (updateMasterBB s (2 ^ bitIdx r c)).testBit t with _ | _
  · cases hbp : (s.board s.p).testBit t <;>
      cases hbn : (s.board (notP s.p)).testBit t <;>
      cases ha : (2 ^ bitIdx r c).testBit t <;> simp
  · simp [hu, hsubbit t hu]

theorem step_preserves (n : Int) (s : BBState) (hb : s.b < 2 ^ 64)
    (hw : s.w < 2 ^ 64) (hdis : s.b &&& s.w = 0) (r c : Int) (hin : inb8 r c)
    (hleg : (legalMovesBB (mkStateEnvBitBoard n) s).testBit (bitIdx r c) = true) :
    ((stepBB (mkStateEnvBitBoard n) s (2 ^ bitIdx r c)).1.b < 2 ^ 64 ∧
      (stepBB (mkStateEnvBitBoard n) s (2 ^ bitIdx r c)).1.w < 2 ^ 64 ∧
      (stepBB (mkStateEnvBitBoard n) s (2 ^ bitIdx r c)).1.b &&&
        (stepBB (mkStateEnvBitBoard n) s (2 ^ bitIdx r c)).1.w = 0) ∧
    ((stepBB (mkStateEnvBitBoard n) s (2 ^ bitIdx r c)).1.b |||
      (stepBB (mkStateEnvBitBoard n) s (2 ^ bitIdx r c)).1.w =
        (s.b ||| s.w) ||| 2 ^ bitIdx r c) ∧
    (s.b ||| s.w).testBit (bitIdx r c) = false := by
  have hblank := legal_blank n s hb hw r c hin hleg
  obtain ⟨hvb, hvw, hvd⟩ := nextBB_valid s hb hw hdis r c hin hblank
  obtain ⟨hfb, hfw⟩ := stepBB_fields (mkStateEnvBitBoard n) s (2 ^ bitIdx r c)
  rw [hfb, hfw]
  exact ⟨⟨hvb, hvw, hvd⟩, occ_after s hb hw hdis r c hin, hblank⟩

theorem countBits_le_64 {x : Nat} (hx : x < 2 ^ 64) : countBits x ≤ 64 := by
  rw [countBits_eq_sum 64 x hx]
  calc ∑ k ∈ Finset.range 64, (if x.testBit k then 1 else 0)
      ≤ ∑ k ∈ Finset.range 64, 1 :=
        Finset.sum_le_sum (fun i _ => by split <;> omega)
    _ = 64 := by simp

theorem countBits_lor_fresh {x : Nat} (hx : x < 2 ^ 64) {t : Nat}
    (hbit : x.testBit t = false) (ht : t < 64) :
    countBits (x ||| 2 ^ t) = countBits x + 1 := by
  have h2t : (2 : Nat) ^ t < 2 ^ 64 := Nat.pow_lt_pow_right (by omega) ht
  have hlt : x ||| 2 ^ t < 2 ^ 64 := lor_lt_two_pow hx h2t
  rw [countBits_eq_sum 64 _ hlt, countBits_eq_sum 64 x hx]
  have hstep : ∑ k ∈ Finset.range 64, (if (x ||| 2 ^ t).testBit k then 1 else 0) =
      ∑ k ∈ Finset.range 64,
        ((if x.testBit k then 1 else 0) + (if t = k then 1 else 0)) := by
    refine Finset.sum_congr rfl fun k hk => ?_
    rw [Nat.testBit_lor, Nat.testBit_two_pow]
    rcases hx2 : x.testBit k with _ | _
    · by_cases h2 : t = k <;> simp [h2]
    · by_cases h2 : t = k
      · subst h2
        rw [hx2] at hbit
        exact Bool.noConfusion hbit
      · simp [h2]
  rw [hstep, Finset.sum_add_distrib, Finset.sum_ite_eq]
  simp [Finset.mem_range.mpr ht]

theorem countBits_zero : countBits 0 = 0 := by
  simp [countBits]

theorem countBits_two_pow {a : Nat} (ha : a < 64) : countBits (2 ^ a) = 1 := by
  have h0 : (2 ^ a : Nat) = 0 ||| 2 ^ a := by simp
  rw [h0, countBits_lor_fresh (Nat.two_pow_pos 64) (Nat.zero_testBit a) ha,
    countBits_zero]

theorem countBits_pair {a b : Nat} (hab : a ≠ b) (ha : a < 64) (hb2 : b < 64) :
    countBits (2 ^ a ||| 2 ^ b) = 2 := by
  have hfresh : (2 ^ a : Nat).testBit b = false := by
    rw [Nat.testBit_two_pow]
    simp [hab]
  rw [countBits_lor_fresh (Nat.pow_lt_pow_right (by omega) ha) hfresh hb2,
    countBits_two_pow ha]

theorem countBits_quad {a b c d : Nat}
    (hab : a ≠ b) (hac : a ≠ c) (had : a ≠ d) (hbc : b ≠ c) (hbd : b ≠ d)
    (hcd : c ≠ d) (ha : a < 64) (hb2 : b < 64) (hc2 : c < 64) (hd2 : d < 64) :
    countBits (2 ^ a ||| 2 ^ b ||| 2 ^ c ||| 2 ^ d) = 4 := by
  have h1 : (2 : Nat) ^ a < 2 ^ 64 := Nat.pow_lt_pow_right (by omega) ha
  have h2 : (2 : Nat) ^ b < 2 ^ 64 := Nat.pow_lt_pow_right (by omega) hb2
  have h3 : (2 : Nat) ^ c < 2 ^ 64 := Nat.pow_lt_pow_right (by omega) hc2
  have hab2 : (2 ^ a ||| 2 ^ b : Nat) < 2 ^ 64 := lor_lt_two_pow h1 h2
  have habc : (2 ^ a ||| 2 ^ b ||| 2 ^ c : Nat) < 2 ^ 64 := lor_lt_two_pow hab2 h3
  have hfc : (2 ^ a ||| 2 ^ b : Nat).testBit c = false := by
    rw [Nat.testBit_lor, Nat.testBit_two_pow, Nat.testBit_two_pow]
    simp [hac, hbc]
  have hfd : (2 ^ a ||| 2 ^ b ||| 2 ^ c : Nat).testBit d = false := by
    rw [Nat.testBit_lor, Nat.testBit_lor, Nat.testBit_two_pow,
      Nat.testBit_two_pow, Nat.testBit_two_pow]
    simp [had, hbd, hcd]
  rw [countBits_lor_fresh habc hfd hd2, countBits_lor_fresh hab2 hfc hc2,
    countBits_pair hab ha hb2]

theorem playD_player (N : Nat) (s : DState) (row col : Int) :
    (playD N s row col).player = s.player := by
  rw [playD_eq]
  split
  · rw [foldl_play_player, setCh_player]
  · rfl

theorem bitIdx_cast (r c : Nat) (hr : r < 8) (hc : c < 8) :
    bitIdx (r : Int) (c : Int) = 63 - (r * 8 + c) := by
  simp only [bitIdx]
  omega

theorem bitToGrid_cell (x : Nat) (r c : Nat) (hr : r < 8) (hc : c < 8) :
    bitToGrid 8 x (r : Int) (c : Int) = x.testBit (63 - (r * 8 + c)) := by
  unfold bitToGrid
  have hchk : checkLegalIndex 8 (r : Int) (c : Int) = true :=
    check8_iff_inb8.mpr (by unfold inb8; omega)
  rw [hchk, Bool.true_and]
  congr 1

theorem bitToGrid_out (N : Nat) (x : Nat) (r c : Int)
    (h : checkLegalIndex N r c = false) : bitToGrid N x r c = false := by
  unfold bitToGrid
  rw [h, Bool.false_and]

theorem sum64_reflect (f : Nat → Nat) :
    ∑ k ∈ Finset.range 64, f (63 - k) = ∑ k ∈ Finset.range 64, f k := by
  have h := Finset.sum_range_reflect f 64
  rw [← h]

theorem gridSum_of_bits (g : Int → Int → Bool) (x : Nat)
    (h : ∀ r c : Nat, r < 8 → c < 8 →
      g (r : Int) (c : Int) = x.testBit (63 - (r * 8 + c))) :
    gridSum 8 g = ∑ t ∈ Finset.range 64, (if x.testBit t then 1 else 0) := by
  unfold gridSum
  have h1 : ∀ i ∈ Finset.range 8, ∀ j ∈ Finset.range 8,
      (if g (i : Int) (j : Int) then (1 : Nat) else 0) =
        (if x.testBit (63 - (i * 8 + j)) then 1 else 0) := by
    intro i hi j hj
    rw [h i j (Finset.mem_range.mp hi) (Finset.mem_range.mp hj)]
  rw [Finset.sum_congr rfl (fun i hi => Finset.sum_congr rfl (fun j hj =>
    h1 i hi j hj))]
  rw [sum_range_mul (fun k => if x.testBit (63 - k) then 1 else 0) 8 8]
  exact sum64_reflect (fun t => if x.testBit t then 1 else 0)

theorem gridSum_legal (n : Int) (s : BBState) (hb : s.b < 2 ^ 64)
    (hw : s.w < 2 ^ 64) :
    gridSum 8 (legalMovesD 8 (bbToD s)) =
      countBits (legalMovesBB (mkStateEnvBitBoard n) s) := by
  have hlt := legalMovesBB_lt (mkStateEnvBitBoard n) s (by rw [mk_maxv]; norm_num)
  rw [countBits_eq_sum 64 _ hlt]
  apply gridSum_of_bits
  intro r c hr hc
  have hrc : inb8 (r : Int) (c : Int) := by unfold inb8; omega
  rw [legal_agree_eq n s hb hw _ _ hrc, bitIdx_cast r c hr hc]

theorem gridToBit_eq_bitSum (g : Int → Int → Bool) :
    gridToBit 8 g =
      bitSum 64 (fun t =>
        g ((((63 - t) / 8 : Nat)) : Int) ((((63 - t) % 8 : Nat)) : Int)) := by
  unfold gridToBit bitSum
  have h1 : ∀ i ∈ Finset.range 8, ∀ j ∈ Finset.range 8,
      (if g (i : Int) (j : Int) then arrayToBitboard 8 i j else 0) =
        (if g ((((i * 8 + j) / 8 : Nat)) : Int) ((((i * 8 + j) % 8 : Nat)) : Int)
          then 2 ^ (63 - (i * 8 + j)) else 0) := by
    intro i hi j hj
    have hdiv : (i * 8 + j) / 8 = i := by
      have := Finset.mem_range.mp hj
      omega
    have hmod : (i * 8 + j) % 8 = j := by
      have := Finset.mem_range.mp hj
      omega
    rw [hdiv, hmod]
    rcases hg : g (i : Int) (j : Int) with _ | _
    · simp
    · simp only [if_pos rfl]
      unfold arrayToBitboard
      norm_num
  rw [Finset.sum_congr rfl (fun i hi => Finset.sum_congr rfl (fun j hj =>
    h1 i hi j hj))]
  rw [sum_range_mul
    (fun k => if g (((k / 8 : Nat)) : Int) (((k % 8 : Nat)) : Int)
      then 2 ^ (63 - k) else 0) 8 8]
  rw [← sum64_reflect
    (fun k => if g (((k / 8 : Nat)) : Int) (((k % 8 : Nat)) : Int)
      then 2 ^ (63 - k) else 0)]
  refine Finset.sum_congr rfl fun k hk => ?_
  have h2 : 63 - (63 - k) = k := by
    have := Finset.mem_range.mp hk
    omega
  rw [h2]

theorem gridToBit_bitToGrid (x : Nat) (hx : x < 2 ^ 64) :
    gridToBit 8 (bitToGrid 8 x) = x := by
  rw [gridToBit_eq_bitSum]
  have h1 : ∀ t ∈ Finset.range 64,
      (if bitToGrid 8 x ((((63 - t) / 8 : Nat)) : Int)
          ((((63 - t) % 8 : Nat)) : Int) then (2 : Nat) ^ t else 0) =
        (if x.testBit t then 2 ^ t else 0) := by
    intro t ht
    have ht64 := Finset.mem_range.mp ht
    rw [bitToGrid_cell x ((63 - t) / 8) ((63 - t) % 8) (by omega) (by omega)]
    have h2 : 63 - ((63 - t) / 8 * 8 + (63 - t) % 8) = t := by omega
    rw [h2]
  unfold bitSum
  rw [Finset.sum_congr rfl h1]
  exact bitSum_testBit_self hx

theorem bitToGrid_gridToBit (g : Int → Int → Bool)
    (hout : ∀ r c : Int, ¬ inb8 r c → g r c = false) :
    bitToGrid 8 (gridToBit 8 g) = g := by
  funext r c
  by_cases hrc : inb8 r c
  · obtain ⟨h1, h2, h3, h4⟩ := hrc
    unfold bitToGrid
    have hchk : checkLegalIndex 8 r c = true :=
      check8_iff_inb8.mpr ⟨h1, h2, h3, h4⟩
    rw [hchk, Bool.true_and, gridToBit_eq_bitSum, testBit_bitSum]
    have hlt : 8 * 8 - 1 - (r.toNat * 8 + c.toNat) < 64 := by omega
    rw [decide_eq_true hlt, Bool.true_and]
    have hr : (((63 - (8 * 8 - 1 - (r.toNat * 8 + c.toNat))) / 8 : Nat) : Int) = r := by
      have : (63 - (8 * 8 - 1 - (r.toNat * 8 + c.toNat))) / 8 = r.toNat := by omega
      rw [this]
      exact Int.toNat_of_nonneg h1
    have hc : (((63 - (8 * 8 - 1 - (r.toNat * 8 + c.toNat))) % 8 : Nat) : Int) = c := by
      have : (63 - (8 * 8 - 1 - (r.toNat * 8 + c.toNat))) % 8 = c.toNat := by omega
      rw [this]
      exact Int.toNat_of_nonneg h3
    rw [hr, hc]
  · have hchk : checkLegalIndex 8 r c = false := by
      rcases hx : checkLegalIndex 8 r c with _ | _
      · rfl
      · exact absurd (check8_iff_inb8.mp hx) hrc
    rw [bitToGrid_out 8 _ r c hchk, hout r c hrc]

theorem resetD_black_iff (r c : Int) :
    (resetD 8).1.black r c = true ↔ ((r = 3 ∧ c = 4) ∨ (r = 4 ∧ c = 3)) := by
  simp only [resetD]
  rw [decide_eq_true_eq]
  omega

theorem resetD_white_iff (r c : Int) :
    (resetD 8).1.white r c = true ↔ ((r = 3 ∧ c = 3) ∨ (r = 4 ∧ c = 4)) := by
  simp only [resetD]
  rw [decide_eq_true_eq]
  omega

theorem bbToD_reset : bbToD ⟨34628173824, 68853694464, 1⟩ = (resetD 8).1 := by
  have hxb : ((⟨34628173824, 68853694464, 1⟩ : BBState)).board 0 =
      2 ^ 35 ||| 2 ^ 28 := by decide
  have hxw : ((⟨34628173824, 68853694464, 1⟩ : BBState)).board 1 =
      2 ^ 36 ||| 2 ^ 27 := by decide
  refine dstate_eq ?_ rfl
  intro k r c
  by_cases hrc : inb8 r c
  · rw [bbToD_chan_eq _ k r c hrc]
    obtain ⟨h1, h2, h3, h4⟩ := hrc
    rcases fin2_cases k with hk | hk <;> subst hk
    · rw [hxb, Nat.testBit_lor, Nat.testBit_two_pow, Nat.testBit_two_pow,
        show (resetD 8).1.chan 0 r c = (resetD 8).1.black r c from rfl,
        Bool.eq_iff_iff, resetD_black_iff]
      simp only [Bool.or_eq_true, decide_eq_true_eq, bitIdx]
      omega
    · rw [hxw, Nat.testBit_lor, Nat.testBit_two_pow, Nat.testBit_two_pow,
        show (resetD 8).1.chan 1 r c = (resetD 8).1.white r c from rfl,
        Bool.eq_iff_iff, resetD_white_iff]
      simp only [Bool.or_eq_true, decide_eq_true_eq, bitIdx]
      omega
  · rw [bbToD_chan_out _ k r c hrc]
    rcases fin2_cases k with hk | hk <;> subst hk
    · rw [show (resetD 8).1.chan 0 r c = (resetD 8).1.black r c from rfl]
      have hbl : (resetD 8).1.black r c = false := by
        rcases hy : (resetD 8).1.black r c with _ | _
        · rfl
        · exfalso
          rcases (resetD_black_iff r c).mp hy with ⟨hr, hc⟩ | ⟨hr, hc⟩ <;>
            subst hr <;> subst hc <;> exact hrc (by unfold inb8; omega)
      exact hbl.symm
    · rw [show (resetD 8).1.chan 1 r c = (resetD 8).1.white r c from rfl]
      have hwh : (resetD 8).1.white r c = false := by
        rcases hy : (resetD 8).1.white r c with _ | _
        · rfl
        · exfalso
          rcases (resetD_white_iff r c).mp hy with ⟨hr, hc⟩ | ⟨hr, hc⟩ <;>
            subst hr <;> subst hc <;> exact hrc (by unfold inb8; omega)
      exact hwh.symm

/-- States reachable from `StateEnvBitBoard.reset()` by playing single-bit
actions on cells the engine itself marks legal. -/
inductive ReachableBB (n : Int) : BBState → Prop where
  | reset : ReachableBB n (resetBB (mkStateEnvBitBoard n)).1
  | step (s : BBState) (r c : Int) (hin : inb8 r c)
      (hleg : (legalMovesBB (mkStateEnvBitBoard n) s).testBit (bitIdx r c) = true)
      (hs : ReachableBB n s) :
      ReachableBB n (stepBB (mkStateEnvBitBoard n) s (2 ^ bitIdx r c)).1

theorem reachable_valid (n : Int) : ∀ s : BBState, ReachableBB n s →
    s.b < 2 ^ 64 ∧ s.w < 2 ^ 64 ∧ s.b &&& s.w = 0 := by
  intro s h
  induction h with
  | reset =>
    refine ⟨?_, ?_, ?_⟩
    · show (34628173824 : Nat) < 2 ^ 64
      decide
    · show (68853694464 : Nat) < 2 ^ 64
      decide
    · show (34628173824 : Nat) &&& 68853694464 = 0
      decide
  | step s r c hin hleg hs ih =>
    obtain ⟨hb, hw, hdis⟩ := ih
    exact (step_preserves n s hb hw hdis r c hin hleg).1

/-- A sequence of `k` legal single-bit moves played from `s` through
`StateEnvBitBoard.step`. -/
inductive Chain (n : Int) : BBState → Nat → Prop where
  | nil (s : BBState) : Chain n s 0
  | cons (s : BBState) (r c : Int) (k : Nat) (hin : inb8 r c)
      (hleg : (legalMovesBB (mkStateEnvBitBoard n) s).testBit (bitIdx r c) = true)
      (ht : Chain n (stepBB (mkStateEnvBitBoard n) s (2 ^ bitIdx r c)).1 k) :
      Chain n s (k + 1)

theorem chain_bound (n : Int) : ∀ (k : Nat) (s : BBState), s.b < 2 ^ 64 →
    s.w < 2 ^ 64 → s.b &&& s.w = 0 → Chain n s k →
    k + countBits (s.b ||| s.w) ≤ 64 := by
  intro k
  induction k with
  | zero =>
    intro s hb hw _ _
    have := countBits_le_64 (lor_lt_two_pow hb hw)
    omega
  | succ k ih =>
    intro s hb hw hdis h
    cases h with
    | cons _ r c _ hin hleg ht =>
      obtain ⟨⟨hvb, hvw, hvd⟩, hocc, hblank⟩ :=
        step_preserves n s hb hw hdis r c hin hleg
      have hbound := ih _ hvb hvw hvd ht
      rw [hocc, countBits_lor_fresh (lor_lt_two_pow hb hw) hblank
        (bitIdx_lt hin)] at hbound
      omega

/-! ## Claims -/

/-- C1: for every valid 8×8 state, the dense engine (`StateEnv`) and the
bitboard engine (`StateEnvBitBoard`) agree under the representation
conversion: the legal-move generators mark exactly the same cells, and for
an action on any empty in-board cell the two `step` implementations return
the corresponding successor state, the same legal-move set, the same next
player and the same done flag. -/
theorem C1_engines_agree (n : Int) (s : BBState) (hb : s.b < 2 ^ 64)
    (hw : s.w < 2 ^ 64) (hdis : s.b &&& s.w = 0) (ar ac : Int) (hin : inb8 ar ac)
    (hblank : (s.b ||| s.w).testBit (bitIdx ar ac) = false) :
    (∀ r c : Int, inb8 r c →
      legalMovesD 8 (bbToD s) r c =
        (legalMovesBB (mkStateEnvBitBoard n) s).testBit (bitIdx r c)) ∧
    (stepD 8 (bbToD s) (ar.toNat * 8 + ac.toNat)).1 =
        bbToD (stepBB (mkStateEnvBitBoard n) s (2 ^ bitIdx ar ac)).1 ∧
    (∀ r c : Int, inb8 r c →
      (stepD 8 (bbToD s) (ar.toNat * 8 + ac.toNat)).2.1 r c =
        (stepBB (mkStateEnvBitBoard n) s
          (2 ^ bitIdx ar ac)).2.1.testBit (bitIdx r c)) ∧
    (stepD 8 (bbToD s) (ar.toNat * 8 + ac.toNat)).2.2.1 =
      (stepBB (mkStateEnvBitBoard n) s (2 ^ bitIdx ar ac)).2.2.1 ∧
    (stepD 8 (bbToD s) (ar.toNat * 8 + ac.toNat)).2.2.2 =
      (stepBB (mkStateEnvBitBoard n) s (2 ^ bitIdx ar ac)).2.2.2 :=
  ⟨fun r c hrc => legal_agree_eq n s hb hw r c hrc,
    step_agree n s hb hw hdis ar ac hin hblank⟩

theorem C1_engines_agree_witness :
    ((34628173824 : Nat) < 2 ^ 64 ∧ (68853694464 : Nat) < 2 ^ 64 ∧
      (34628173824 : Nat) &&& 68853694464 = 0 ∧ inb8 2 4 ∧
      ((34628173824 : Nat) ||| 68853694464).testBit (bitIdx 2 4) = false) ∧
    (stepD 8 (bbToD ⟨34628173824, 68853694464, 1⟩)
        ((2 : Int).toNat * 8 + (4 : Int).toNat)).2.2.2 =
      (stepBB (mkStateEnvBitBoard 8) ⟨34628173824, 68853694464, 1⟩
        (2 ^ bitIdx 2 4)).2.2.2 :=
  ⟨⟨by decide, by decide, by decide, by decide, by decide⟩,
    (C1_engines_agree 8 ⟨34628173824, 68853694464, 1⟩ (by decide) (by decide)
      (by decide) 2 4 (by decide) (by decide)).2.2.2.2⟩

/-- C2: the legal-move generators mark exactly the empty in-board cells from
which some direction starts with an adjacent opposing disc and runs through
opposing discs until a disc of the side to move, before any blank or the
board edge; empty cells without such a direction are not marked.  Stated for
the dense generator at any board size and, through the conversion, for the
bitboard generator on valid 8×8 states. -/
theorem C2_legal_generator_spec :
    (∀ (N : Nat) (s : DState) (row col : Int),
      legalMovesD N s row col = true ↔
        (checkLegalIndex N row col = true ∧ blankAt s row col = true ∧
          ∃ d ∈ dirList, captureDirSpec N s s.player row col d.1 d.2)) ∧
    (∀ (n : Int) (s : BBState), s.b < 2 ^ 64 → s.w < 2 ^ 64 →
      ∀ r c : Int, inb8 r c →
        ((legalMovesBB (mkStateEnvBitBoard n) s).testBit (bitIdx r c) = true ↔
          (blankAt (bbToD s) r c = true ∧
            ∃ d ∈ dirList, captureDirSpec 8 (bbToD s) s.p r c d.1 d.2))) := by
  constructor
  · exact legalMovesD_spec
  · intro n s hb hw r c hrc
    rw [legal_agree n s hb hw r c hrc, legalMovesD_spec, bbToD_player]
    have hchk : checkLegalIndex 8 r c = true := check8_iff_inb8.mpr hrc
    constructor
    · rintro ⟨_, hb2, hc2⟩
      exact ⟨hb2, hc2⟩
    · rintro ⟨hb2, hc2⟩
      exact ⟨hchk, hb2, hc2⟩

theorem C2_legal_generator_spec_witness :
    ((34628173824 : Nat) < 2 ^ 64 ∧ (68853694464 : Nat) < 2 ^ 64 ∧ inb8 2 4) ∧
    ((legalMovesBB (mkStateEnvBitBoard 8)
        ⟨34628173824, 68853694464, 1⟩).testBit (bitIdx 2 4) = true ↔
      (blankAt (bbToD ⟨34628173824, 68853694464, 1⟩) 2 4 = true ∧
        ∃ d ∈ dirList, captureDirSpec 8 (bbToD ⟨34628173824, 68853694464, 1⟩)
          (⟨34628173824, 68853694464, 1⟩ : BBState).p 2 4 d.1 d.2)) :=
  ⟨⟨by decide, by decide, by decide⟩,
    C2_legal_generator_spec.2 8 ⟨34628173824, 68853694464, 1⟩ (by decide)
      (by decide) 2 4 (by decide)⟩

/-- C3: both `step` implementations resolve the turn by the same nested
fallback: if the opponent of the mover has a legal move in the post-move
position, it becomes the next player with done = 0; otherwise a full board
ends the game at once (done = 1, before any further legal-move scan);
otherwise the turn reverts to the original mover, with done = 0 if that side
has a legal move (forced pass) and done = 1 (with the mover's empty
legal-move set as the last one computed) if not. -/
theorem C3_step_fallback :
    (∀ (env : BBEnv) (s : BBState) (a : Nat),
      (legalMovesBB env { getNextBoardBB s a with p := notP s.p } ≠ 0 →
        stepBB env s a =
          ({ getNextBoardBB s a with p := notP s.p },
            legalMovesBB env { getNextBoardBB s a with p := notP s.p },
            notP s.p, 0)) ∧
      (legalMovesBB env { getNextBoardBB s a with p := notP s.p } = 0 →
        (getNextBoardBB s a).b ||| (getNextBoardBB s a).w = env.maxv →
        stepBB env s a =
          ({ getNextBoardBB s a with p := notP s.p },
            legalMovesBB env { getNextBoardBB s a with p := notP s.p },
            notP s.p, 1)) ∧
      (legalMovesBB env { getNextBoardBB s a with p := notP s.p } = 0 →
        (getNextBoardBB s a).b ||| (getNextBoardBB s a).w ≠ env.maxv →
        legalMovesBB env { getNextBoardBB s a with p := s.p } ≠ 0 →
        stepBB env s a =
          ({ getNextBoardBB s a with p := s.p },
            legalMovesBB env { getNextBoardBB s a with p := s.p },
            s.p, 0)) ∧
      (legalMovesBB env { getNextBoardBB s a with p := notP s.p } = 0 →
        (getNextBoardBB s a).b ||| (getNextBoardBB s a).w ≠ env.maxv →
        legalMovesBB env { getNextBoardBB s a with p := s.p } = 0 →
        stepBB env s a =
          ({ getNextBoardBB s a with p := s.p },
            legalMovesBB env { getNextBoardBB s a with p := s.p },
            s.p, 1))) ∧
    (∀ (N : Nat) (s : DState) (a : Nat),
      (gridSum N (legalMovesD N
          { playD N s ((a / N : Nat) : Int) ((a % N : Nat) : Int) with
            player := notP s.player }) ≠ 0 →
        stepD N s a =
          ({ playD N s ((a / N : Nat) : Int) ((a % N : Nat) : Int) with
             player := notP s.player },
            legalMovesD N { playD N s ((a / N : Nat) : Int) ((a % N : Nat) : Int)
              with player := notP s.player },
            notP s.player, 0)) ∧
      (gridSum N (legalMovesD N
          { playD N s ((a / N : Nat) : Int) ((a % N : Nat) : Int) with
            player := notP s.player }) = 0 →
        coinSum N { playD N s ((a / N : Nat) : Int) ((a % N : Nat) : Int) with
          player := notP s.player } = N * N →
        stepD N s a =
          ({ playD N s ((a / N : Nat) : Int) ((a % N : Nat) : Int) with
             player := notP s.player },
            legalMovesD N { playD N s ((a / N : Nat) : Int) ((a % N : Nat) : Int)
              with player := notP s.player },
            notP s.player, 1)) ∧
      (gridSum N (legalMovesD N
          { playD N s ((a / N : Nat) : Int) ((a % N : Nat) : Int) with
            player := notP s.player }) = 0 →
        coinSum N { playD N s ((a / N : Nat) : Int) ((a % N : Nat) : Int) with
          player := notP s.player } ≠ N * N →
        gridSum N (legalMovesD N
          { playD N s ((a / N : Nat) : Int) ((a % N : Nat) : Int) with
            player := s.player }) ≠ 0 →
        stepD N s a =
          ({ playD N s ((a / N : Nat) : Int) ((a % N : Nat) : Int) with
             player := s.player },
            legalMovesD N { playD N s ((a / N : Nat) : Int) ((a % N : Nat) : Int)
              with player := s.player },
            s.player, 0)) ∧
      (gridSum N (legalMovesD N
          { playD N s ((a / N : Nat) : Int) ((a % N : Nat) : Int) with
            player := notP s.player }) = 0 →
        coinSum N { playD N s ((a / N : Nat) : Int) ((a % N : Nat) : Int) with
          player := notP s.player } ≠ N * N →
        gridSum N (legalMovesD N
          { playD N s ((a / N : Nat) : Int) ((a % N : Nat) : Int) with
            player := s.player }) = 0 →
        stepD N s a =
          ({ playD N s ((a / N : Nat) : Int) ((a % N : Nat) : Int) with
             player := s.player },
            legalMovesD N { playD N s ((a / N : Nat) : Int) ((a % N : Nat) : Int)
              with player := s.player },
            s.player, 1))) := by
  constructor
  · intro env s a
    refine ⟨?_, ?_, ?_, ?_⟩
    · intro h1
      simp only [stepBB]
      rw [notP_notP, if_neg h1]
    · intro h1 h2
      simp only [stepBB]
      rw [notP_notP, if_pos h1, if_pos h2]
    · intro h1 h2 h3
      simp only [stepBB]
      rw [notP_notP, if_pos h1, if_neg h2, if_neg h3]
    · intro h1 h2 h3
      simp only [stepBB]
      rw [notP_notP, if_pos h1, if_neg h2, if_pos h3]
  · intro N s a
    refine ⟨?_, ?_, ?_, ?_⟩
    · intro h1
      simp only [stepD]
      rw [if_neg h1]
    · intro h1 h2
      simp only [stepD]
      rw [if_pos h1, if_pos h2]
    · intro h1 h2 h3
      simp only [stepD]
      rw [if_pos h1, if_neg h2, if_neg h3]
    · intro h1 h2 h3
      simp only [stepD]
      rw [if_pos h1, if_neg h2, if_pos h3]

theorem C3_step_fallback_witness :
    (legalMovesBB (mkStateEnvBitBoard 8)
        { getNextBoardBB ⟨0, 0, 0⟩ 0 with p := notP (⟨0, 0, 0⟩ : BBState).p } = 0 ∧
      (getNextBoardBB (⟨0, 0, 0⟩ : BBState) 0).b |||
        (getNextBoardBB (⟨0, 0, 0⟩ : BBState) 0).w ≠ (mkStateEnvBitBoard 8).maxv ∧
      legalMovesBB (mkStateEnvBitBoard 8)
        { getNextBoardBB ⟨0, 0, 0⟩ 0 with p := (⟨0, 0, 0⟩ : BBState).p } = 0) ∧
    stepBB (mkStateEnvBitBoard 8) ⟨0, 0, 0⟩ 0 =
      ({ getNextBoardBB (⟨0, 0, 0⟩ : BBState) 0 with p := (⟨0, 0, 0⟩ : BBState).p },
        legalMovesBB (mkStateEnvBitBoard 8)
          { getNextBoardBB ⟨0, 0, 0⟩ 0 with p := (⟨0, 0, 0⟩ : BBState).p },
        (⟨0, 0, 0⟩ : BBState).p, 1) :=
  ⟨⟨by decide, by decide, by decide⟩,
    (C3_step_fallback.1 (mkStateEnvBitBoard 8) ⟨0, 0, 0⟩ 0).2.2.2 (by decide)
      (by decide) (by decide)⟩

/-- C4: every state reachable from `reset()` by stepping on cells the engine
marks legal has disjoint side occupancies, and each such step's resulting
occupied-cell set is the input's occupied set plus the action cell — occupied
cells are never vacated. -/
theorem C4_occupancy_invariant (n : Int) (s : BBState) (h : ReachableBB n s) :
    s.b &&& s.w = 0 ∧
    (∀ r c : Int, inb8 r c →
      (legalMovesBB (mkStateEnvBitBoard n) s).testBit (bitIdx r c) = true →
      ((stepBB (mkStateEnvBitBoard n) s (2 ^ bitIdx r c)).1.b |||
        (stepBB (mkStateEnvBitBoard n) s (2 ^ bitIdx r c)).1.w) =
        (s.b ||| s.w) ||| 2 ^ bitIdx r c) := by
  obtain ⟨hb, hw, hdis⟩ := reachable_valid n s h
  exact ⟨hdis, fun r c hin hleg =>
    (step_preserves n s hb hw hdis r c hin hleg).2.1⟩

theorem C4_occupancy_invariant_witness :
    ReachableBB 8 (resetBB (mkStateEnvBitBoard 8)).1 ∧
    (resetBB (mkStateEnvBitBoard 8)).1.b &&&
      (resetBB (mkStateEnvBitBoard 8)).1.w = 0 :=
  ⟨ReachableBB.reset,
    (C4_occupancy_invariant 8 (resetBB (mkStateEnvBitBoard 8)).1
      ReachableBB.reset).1⟩

/-- C5: on the 8×8 board both engines' `reset` return the standard start:
two discs per side on the four centre cells in a 2×2 checkerboard (black on
(3,4)/(4,3), white on (3,3)/(4,4)), white (player 1) to move, and exactly
four legal cells for white; the two engines' start positions agree under the
conversion. -/
theorem C5_reset_position (n : Int) :
    resetBB (mkStateEnvBitBoard n) =
      (⟨34628173824, 68853694464, 1⟩, 8813810810880, 1) ∧
    countCoinsBB (resetBB (mkStateEnvBitBoard n)).1 = (2, 2) ∧
    (34628173824 : Nat) = 2 ^ bitIdx 3 4 ||| 2 ^ bitIdx 4 3 ∧
    (68853694464 : Nat) = 2 ^ bitIdx 3 3 ||| 2 ^ bitIdx 4 4 ∧
    (8813810810880 : Nat) =
      2 ^ bitIdx 2 4 ||| 2 ^ bitIdx 3 5 ||| 2 ^ bitIdx 4 2 ||| 2 ^ bitIdx 5 3 ∧
    countBits 8813810810880 = 4 ∧
    bbToD (resetBB (mkStateEnvBitBoard n)).1 = (resetD 8).1 ∧
    (resetD 8).2.2 = 1 ∧
    gridSum 8 (resetD 8).2.1 = 4 := by
  have hmask : legalMovesBB (mkStateEnvBitBoard 8)
      ⟨34628173824, 68853694464, 1⟩ = 8813810810880 := by decide
  have hquad : countBits 8813810810880 = 4 := by
    rw [show (8813810810880 : Nat) = 2 ^ 43 ||| 2 ^ 34 ||| 2 ^ 29 ||| 2 ^ 20
      from by decide]
    exact countBits_quad (by omega) (by omega) (by omega) (by omega) (by omega)
      (by omega) (by omega) (by omega) (by omega) (by omega)
  refine ⟨?_, ?_, by decide, by decide, by decide, hquad, bbToD_reset, rfl, ?_⟩
  · show ((⟨34628173824, 68853694464, 1⟩ : BBState),
      legalMovesBB (mkStateEnvBitBoard 8) ⟨34628173824, 68853694464, 1⟩,
      (1 : Fin 2)) =
        ((⟨34628173824, 68853694464, 1⟩ : BBState), 8813810810880, (1 : Fin 2))
    rw [hmask]
  · show (countBits 34628173824, countBits 68853694464) = (2, 2)
    rw [show (34628173824 : Nat) = 2 ^ 35 ||| 2 ^ 28 from by decide,
      show (68853694464 : Nat) = 2 ^ 36 ||| 2 ^ 27 from by decide,
      countBits_pair (by omega) (by omega) (by omega),
      countBits_pair (by omega) (by omega) (by omega)]
  · have h1 : (resetD 8).2.1 =
        legalMovesD 8 (bbToD ⟨34628173824, 68853694464, 1⟩) := by
      rw [bbToD_reset]
      rfl
    rw [h1, gridSum_legal 8 ⟨34628173824, 68853694464, 1⟩ (by decide) (by decide),
      hmask, hquad]

/-- C6: on 8×8 boards, `StateConverter.convert` round trips are the identity
on valid states: packed → dense → packed and dense → packed → dense for the
`bitboard`/`ndarray3d` pair (per-side masks plus player), and likewise for
the `bitboard_single`/`ndarray` pair (a single mask). -/
theorem C6_converter_roundtrip :
    (∀ (b w : Nat) (p : Fin 2), b < 2 ^ 64 → w < 2 ^ 64 →
      convNd3ToBitboard 8 (convBitboardToNd3 8 (b, w, p)) = (b, w, p)) ∧
    (∀ s : DState,
      (∀ r c : Int, ¬ inb8 r c → s.black r c = false ∧ s.white r c = false) →
      convBitboardToNd3 8 (convNd3ToBitboard 8 s) = s) ∧
    (∀ t : Nat, t < 2 ^ 64 → convNdToBitSingle 8 (convBitSingleToNd 8 t) = t) ∧
    (∀ g : Int → Int → Bool, (∀ r c : Int, ¬ inb8 r c → g r c = false) →
      convBitSingleToNd 8 (convNdToBitSingle 8 g) = g) := by
  refine ⟨?_, ?_, ?_, ?_⟩
  · intro b w p hb hw
    show (gridToBit 8 (bitToGrid 8 b), gridToBit 8 (bitToGrid 8 w), p) = (b, w, p)
    rw [gridToBit_bitToGrid b hb, gridToBit_bitToGrid w hw]
  · intro s hout
    show DState.mk (bitToGrid 8 (gridToBit 8 s.black))
      (bitToGrid 8 (gridToBit 8 s.white)) s.player = s
    rw [bitToGrid_gridToBit s.black (fun r c h => (hout r c h).1),
      bitToGrid_gridToBit s.white (fun r c h => (hout r c h).2)]
  · intro t ht
    exact gridToBit_bitToGrid t ht
  · intro g hg
    exact bitToGrid_gridToBit g hg

theorem C6_converter_roundtrip_witness :
    ((34628173824 : Nat) < 2 ^ 64 ∧ (68853694464 : Nat) < 2 ^ 64) ∧
    convNd3ToBitboard 8 (convBitboardToNd3 8 (34628173824, 68853694464, 1)) =
      (34628173824, 68853694464, 1) :=
  ⟨⟨by decide, by decide⟩,
    C6_converter_roundtrip.1 34628173824 68853694464 1 (by decide) (by decide)⟩

/-- C7: from any valid state, every sequence of moves drawn from the
engine's legal-move set is finite: a chain of `k` legal `step` calls
satisfies `k + popcount(occupied) ≤ 64`, because each applied move occupies
exactly one previously empty cell (the action cell) and occupancy never
shrinks. -/
theorem C7_termination_bound (n : Int) (s : BBState) (hb : s.b < 2 ^ 64)
    (hw : s.w < 2 ^ 64) (hdis : s.b &&& s.w = 0) (k : Nat) (h : Chain n s k) :
    k + countBits (s.b ||| s.w) ≤ 64 ∧
    (∀ r c : Int, inb8 r c →
      (legalMovesBB (mkStateEnvBitBoard n) s).testBit (bitIdx r c) = true →
      (s.b ||| s.w).testBit (bitIdx r c) = false ∧
      ((stepBB (mkStateEnvBitBoard n) s (2 ^ bitIdx r c)).1.b |||
        (stepBB (mkStateEnvBitBoard n) s (2 ^ bitIdx r c)).1.w) =
        (s.b ||| s.w) ||| 2 ^ bitIdx r c) := by
  refine ⟨chain_bound n k s hb hw hdis h, fun r c hin hleg => ?_⟩
  obtain ⟨_, hocc, hblank⟩ := step_preserves n s hb hw hdis r c hin hleg
  exact ⟨hblank, hocc⟩

theorem C7_termination_bound_witness :
    ((34628173824 : Nat) < 2 ^ 64 ∧ (68853694464 : Nat) < 2 ^ 64 ∧
      (34628173824 : Nat) &&& 68853694464 = 0 ∧ inb8 2 4 ∧
      (legalMovesBB (mkStateEnvBitBoard 8)
        ⟨34628173824, 68853694464, 1⟩).testBit (bitIdx 2 4) = true) ∧
    1 + countBits ((⟨34628173824, 68853694464, 1⟩ : BBState).b |||
      (⟨34628173824, 68853694464, 1⟩ : BBState).w) ≤ 64 :=
  ⟨⟨by decide, by decide, by decide, by decide,
      by
        rw [show legalMovesBB (mkStateEnvBitBoard 8)
          ⟨34628173824, 68853694464, 1⟩ = 8813810810880 from by decide]
        decide⟩,
    (C7_termination_bound 8 ⟨34628173824, 68853694464, 1⟩ (by decide) (by decide)
      (by decide) 1
      (Chain.cons _ 2 4 0 (by decide)
        (by
          rw [show legalMovesBB (mkStateEnvBitBoard 8)
            ⟨34628173824, 68853694464, 1⟩ = 8813810810880 from by decide]
          decide)
        (Chain.nil _))).1⟩

/-- C8 (the claim is refuted): an invalid requested board size is never
reported to the caller.  `StateEnv.__init__` silently replaces an odd size
by the next even number (also for negative sizes) and accepts non-positive
even sizes unchanged, and `StateEnvBitBoard.__init__` ignores the requested
size entirely; neither construction can fail. -/
theorem C8_invalid_size_not_reported :
    stateEnvInitSize 7 = 8 ∧ stateEnvInitSize (-3) = -2 ∧
    stateEnvInitSize (-4) = -4 ∧
    (∀ bs : Int, mkStateEnvBitBoard bs = mkStateEnvBitBoard 8) :=
  ⟨by decide, by decide, by decide, fun bs => rfl⟩

/-- C9: move application does not touch the side to move:
`StateEnvBitBoard._get_next_board` returns a state with the input's player
field, and the dense play helper (`StateEnv._legal_moves_helper` with
`play=True`) preserves the player plane. -/
theorem C9_player_frame :
    (∀ (s : BBState) (a : Nat), (getNextBoardBB s a).p = s.p) ∧
    (∀ (N : Nat) (s : DState) (row col : Int),
      (playD N s row col).player = s.player) :=
  ⟨getNextBoardBB_p, playD_player⟩

/-- C10: the bitboard engine ignores its construction argument: every
requested board size yields the very same attribute record as
`StateEnvBitBoard(8)`, hence identical `reset`, `step` and
`_legal_moves_helper` behaviour. -/
theorem C10_size_independent :
    ∀ bs : Int,
      mkStateEnvBitBoard bs = mkStateEnvBitBoard 8 ∧
      resetBB (mkStateEnvBitBoard bs) = resetBB (mkStateEnvBitBoard 8) ∧
      (∀ (s : BBState) (a : Nat),
        stepBB (mkStateEnvBitBoard bs) s a = stepBB (mkStateEnvBitBoard 8) s a) ∧
      (∀ s : BBState,
        legalMovesBB (mkStateEnvBitBoard bs) s =
          legalMovesBB (mkStateEnvBitBoard 8) s) :=
  fun bs => ⟨rfl, rfl, fun s a => rfl, fun s => rfl⟩

/-- C8, concrete counterexample: the invalid (odd) requested size 7 is not
reported — `StateEnv.__init__` silently stores 8 instead, and
`StateEnvBitBoard.__init__` builds exactly the record it builds for 8. -/
theorem C8_size7_silently_adjusted :
    stateEnvInitSize 7 = 8 ∧ stateEnvInitSize 7 ≠ 7 ∧
    mkStateEnvBitBoard 7 = mkStateEnvBitBoard 8 :=
  ⟨by decide, by decide, rfl⟩
